import Mathlib

/-!
Peer-2-Peer: room codes and the signaling relay.

A shallow embedding of `src/backend/generate-code.js` and of the WebSocket
handlers of `src/backend/signaling-server.js`, with the properties of the
room-code validator and of the relay (join, forward, close) proved about it.

Conventions of the embedding

* A JavaScript string is the list of its UTF-16 code units (`JSString`), so
  `length` and the regular expression see exactly what the engine sees.
* `JSON.parse` and `JSON.stringify` are language built-ins: a handler takes
  the value `JSON.parse` produced (or the fact that it threw) and an outbound
  message is the value handed to `JSON.stringify`.
* A `Map` is an association list in insertion order and a `Set` a list in
  insertion order; `WF` states that keys and members are not repeated.
* A socket is named by the id of its connection; a send is the pair of the
  recipient and the message of one call to `ws.send`.
-/

namespace P2P

/-! ## JavaScript values -/

/-- A JavaScript string: its UTF-16 code units. -/
abbrev JSString := List Nat

/-- The code units of a string literal of the source. -/
def utf16 (s : String) : JSString :=
  s.toList.flatMap fun c =>
    if c.toNat < 0x10000 then [c.toNat]
    else [0xD800 + (c.toNat - 0x10000) / 0x400, 0xDC00 + (c.toNat - 0x10000) % 0x400]

/-- A JavaScript number, as far as truthiness and key equality see it
(`+0` and `-0` are one value for both). -/
inductive JSNumber where
  | finite (q : Rat)
  | posInf
  | negInf
  | nan
  deriving DecidableEq

/-- A value that `JSON.parse` can produce, or `undefined` (the value of a
property that is absent). Objects and arrays carry the identity (`ref`) that
reference equality compares. -/
inductive JSVal where
  | undefined
  | null
  | bool (b : Bool)
  | num (n : JSNumber)
  | str (s : JSString)
  | obj (ref : Nat) (props : List (JSString × JSVal))
  | arr (ref : Nat) (items : List JSVal)

/-- Any JavaScript value, by what `typeof` tells apart: the values above (an
object of any class is an `obj`), and the kinds that no parsed message holds. -/
inductive JSAny where
  | val (v : JSVal)
  | bigint (i : Int)
  | symbol (ref : Nat)
  | func (ref : Nat)

/-! ## generate-code.js -/

/-- The character class `[a-zA-Z0-9_-]` on one code unit. -/
def inRoomCodeClass (c : Nat) : Bool :=
  ('a'.toNat ≤ c && c ≤ 'z'.toNat) || ('A'.toNat ≤ c && c ≤ 'Z'.toNat) ||
    ('0'.toNat ≤ c && c ≤ '9'.toNat) || c == '_'.toNat || c == '-'.toNat

/-- The test `/^[a-zA-Z0-9_-]+$/.test(s)`: no flags, so `^` and `$` are the two
ends of the input and `+` asks for at least one code unit of the class. -/
def roomCodePatternTest (s : JSString) : Bool :=
  !s.isEmpty && s.all inRoomCodeClass

/-- The function `validateRoomCode(code)`. -/
def validateRoomCode (code : JSAny) : Bool :=
  match code with
  | .val (.str s) =>
    -- typeof code === 'string'
    if s.length ≠ 6 then false
    else roomCodePatternTest s
  | _ => false

/-- The default alphabet of `nanoid` (its `urlAlphabet`). -/
def urlAlphabet : JSString :=
  utf16 "useandom-26T198340PX75pxJACKVERYMINDBUSHWOLF_GQZbfghjklqvwyzrict"

/-- What the library promises of one call `nanoid(size)`: `size` symbols of the
default alphabet. -/
structure NanoidContract (nanoid : Nat → JSString) : Prop where
  size : ∀ n, (nanoid n).length = n
  symbols : ∀ n c, c ∈ nanoid n → c ∈ urlAlphabet

/-- The function `generateRoomCode(length = 6)`; `nanoid` is the library call and
`none` is a call without the argument. -/
def generateRoomCode (nanoid : Nat → JSString) (length : Option Nat) : JSString :=
  let code := nanoid (length.getD 6)
  code

/-! ## Values as the relay reads them -/

/-- The value of `data.type`, `data.room` on a value that is neither `null` nor
`undefined`: the own property of that name of an object, `undefined` otherwise
(no built-in prototype has a property of either name). -/
def JSVal.getProp (v : JSVal) (k : JSString) : JSVal :=
  match v with
  | .obj _ props =>
    match props.find? (fun p => p.1 == k) with
    | some p => p.2
    | none => .undefined
  | _ => .undefined

/-- The assignment `data[k] = x`: an own property keeps its place, a new one goes
last; on a primitive the assignment has no effect (the file is not in strict
mode), and a named property of an array is not part of what is serialised. -/
def JSVal.setProp (v : JSVal) (k : JSString) (x : JSVal) : JSVal :=
  match v with
  | .obj r props =>
    if props.any (fun p => p.1 == k) then
      .obj r (props.map fun p => if p.1 == k then (p.1, x) else p)
    else .obj r (props ++ [(k, x)])
  | other => other

/-- The truthiness of a value, as `!v` and `if (v)` test it. -/
def JSVal.truthy : JSVal → Bool
  | .undefined => false
  | .null => false
  | .bool b => b
  | .num (.finite q) => decide (q ≠ 0)
  | .num .nan => false
  | .num _ => true
  | .str s => !s.isEmpty
  | .obj _ _ => true
  | .arr _ _ => true

/-- Whether reading a property of the value throws a `TypeError`. -/
def JSVal.isNullish : JSVal → Bool
  | .undefined => true
  | .null => true
  | _ => false

mutual
/-- Whether the conversion to a string in a template literal throws: an object
parsed from JSON whose own `toString` is a parsed value, hence not callable, has
no primitive form; an array joins the string forms of its items. -/
def JSVal.toStringThrows : JSVal → Bool
  | .obj _ props => props.any fun p => p.1 == utf16 "toString"
  | .arr _ items => JSVal.joinThrows items
  | _ => false
/-- Whether `Array.prototype.join` throws on these items (`null` and `undefined`
items are joined as the empty string). -/
def JSVal.joinThrows : List JSVal → Bool
  | [] => false
  | x :: xs => (!x.isNullish && x.toStringThrows) || JSVal.joinThrows xs
end

/-- A value as a key of a `Map` (SameValueZero): primitives by value, objects and
arrays by identity. -/
inductive MapKey where
  | undefined
  | null
  | bool (b : Bool)
  | num (n : JSNumber)
  | str (s : JSString)
  | ref (r : Nat)
  deriving DecidableEq

/-- The key a value is in a `Map`. -/
def JSVal.toKey : JSVal → MapKey
  | .undefined => .undefined
  | .null => .null
  | .bool b => .bool b
  | .num n => .num n
  | .str s => .str s
  | .obj r _ => .ref r
  | .arr r _ => .ref r

/-- Whether the value is strictly equal to the string literal. -/
def JSVal.isLit (v : JSVal) (lit : String) : Bool :=
  match v with
  | .str s => s == utf16 lit
  | _ => false

/-- An object literal of the source with string keys. -/
def objLit (props : List (String × JSVal)) : JSVal :=
  .obj 0 (props.map fun p => (utf16 p.1, p.2))

/-! ## Map and Set -/

namespace JSMap

variable {κ : Type} {α : Type} [DecidableEq κ]

/-- The call `m.get(k)`; `none` is `undefined`. -/
def get : List (κ × α) → κ → Option α
  | [], _ => none
  | (k', v) :: m, k => if k' = k then some v else get m k

/-- The call `m.has(k)`. -/
def has (m : List (κ × α)) (k : κ) : Bool := (get m k).isSome

/-- The call `m.set(k, v)`: an existing key keeps its place. -/
def set : List (κ × α) → κ → α → List (κ × α)
  | [], k, v => [(k, v)]
  | (k', v') :: m, k, v => if k' = k then (k', v) :: m else (k', v') :: set m k v

/-- The call `m.delete(k)`. -/
def delete (m : List (κ × α)) (k : κ) : List (κ × α) := m.filter fun p => p.1 ≠ k

/-- The keys of the map, in insertion order. -/
def keys (m : List (κ × α)) : List κ := m.map Prod.fst

end JSMap

namespace JSSet

variable {α : Type} [DecidableEq α]

/-- The call `s.add(x)`. -/
def add (s : List α) (x : α) : List α := if x ∈ s then s else s ++ [x]

/-- The call `s.delete(x)`. -/
def delete (s : List α) (x : α) : List α := s.filter fun y => y ≠ x

end JSSet

/-! ## signaling-server.js: the registries -/

/-- The id of a connection (`nanoid()`), which also names its socket. -/
abbrev UserId := JSString

/-- The constant `WebSocket.OPEN`. -/
def WebSocket.OPEN : Nat := 1

/-- An entry `{ ws, roomId }` of `connections`: the `readyState` of the socket and
the recorded room (`null` before a join). -/
structure Connection where
  readyState : Nat
  roomId : JSVal

/-- The two registries: `connections` (userId to `{ ws, roomId }`) and `rooms`
(roomId to the Set of userIds). -/
structure Relay where
  connections : List (UserId × Connection)
  rooms : List (MapKey × List UserId)

/-- One call `ws.send(JSON.stringify(message))` on the socket of `dest`. -/
structure Send where
  dest : UserId
  message : JSVal

/-- What running a handler or a function leaves: the registries, the sends it
made in order, and whether an exception left it. -/
structure Outcome where
  state : Relay
  sends : List Send
  threw : Bool

/-- The registries when the server starts. -/
def Relay.empty : Relay := { connections := [], rooms := [] }

/-- The message `{ type: 'connection-established', userId }`. -/
def connectionEstablishedMsg (userId : UserId) : JSVal :=
  objLit [("type", .str (utf16 "connection-established")), ("userId", .str userId)]

/-- The message `{ type: 'error', message: 'Invalid room ID' }`. -/
def invalidRoomMsg : JSVal :=
  objLit [("type", .str (utf16 "error")), ("message", .str (utf16 "Invalid room ID"))]

/-- The message `{ type: 'joined', room: roomId, userId: userId }`. -/
def joinedMsg (roomId : JSVal) (userId : UserId) : JSVal :=
  objLit [("type", .str (utf16 "joined")), ("room", roomId), ("userId", .str userId)]

/-- The message `{ type: 'user-joined', userId: userId, room: roomId }`. -/
def userJoinedMsg (userId : UserId) (roomId : JSVal) : JSVal :=
  objLit [("type", .str (utf16 "user-joined")), ("userId", .str userId), ("room", roomId)]

/-- The message `{ type: 'user-left', userId: userId, room: roomId }`. -/
def userLeftMsg (userId : UserId) (roomId : JSVal) : JSVal :=
  objLit [("type", .str (utf16 "user-left")), ("userId", .str userId), ("room", roomId)]

/-! ## signaling-server.js: the functions -/

/-- The function `forwardMessageToRoom(senderId, data)`. -/
def forwardMessageToRoom (st : Relay) (senderId : UserId) (data : JSVal) : List Send :=
  let roomId := data.getProp (utf16 "room")
  -- if (!rooms.has(roomId)) return
  match JSMap.get st.rooms roomId.toKey with
  | none => []
  | some room =>
    room.flatMap fun userId =>
      if userId ≠ senderId then
        match JSMap.get st.connections userId with
        | some user =>
          if user.readyState = WebSocket.OPEN then [{ dest := userId, message := data }] else []
        | none => []
      else []

/-- The function `notifyUserJoined(userId, roomId)`. -/
def notifyUserJoined (st : Relay) (userId : UserId) (roomId : JSVal) : List Send :=
  match JSMap.get st.rooms roomId.toKey with
  | none => []
  | some room =>
    room.flatMap fun memberId =>
      if memberId ≠ userId ∧ JSMap.has st.connections memberId then
        match JSMap.get st.connections memberId with
        | some member =>
          if member.readyState = WebSocket.OPEN then
            [{ dest := memberId, message := userJoinedMsg userId roomId }]
          else []
        | none => []
      else []

/-- The function `notifyUserLeft(userId, roomId)`. -/
def notifyUserLeft (st : Relay) (userId : UserId) (roomId : JSVal) : List Send :=
  match JSMap.get st.rooms roomId.toKey with
  | none => []
  | some room =>
    room.flatMap fun memberId =>
      if memberId ≠ userId ∧ JSMap.has st.connections memberId then
        match JSMap.get st.connections memberId with
        | some member =>
          if member.readyState = WebSocket.OPEN then
            [{ dest := memberId, message := userLeftMsg userId roomId }]
          else []
        | none => []
      else []

/-- The function `handleJoinRoom(userId, roomId)`. With no entry for `userId`,
reading `connections.get(userId).ws` throws after the room was edited. -/
def handleJoinRoom (st : Relay) (userId : UserId) (roomId : JSVal) : Outcome :=
  -- create room if it doesn't exist
  let rooms1 := if !JSMap.has st.rooms roomId.toKey then JSMap.set st.rooms roomId.toKey [] else st.rooms
  -- rooms.get(roomId).add(userId)
  let rooms2 := JSMap.set rooms1 roomId.toKey
    (JSSet.add ((JSMap.get rooms1 roomId.toKey).getD []) userId)
  -- update user's room in connections map
  let connections1 :=
    match JSMap.get st.connections userId with
    | some user => JSMap.set st.connections userId { user with roomId := roomId }
    | none => st.connections
  let st1 : Relay := { connections := connections1, rooms := rooms2 }
  match JSMap.get connections1 userId with
  | none => { state := st1, sends := [], threw := true }
  | some user =>
    let joined : List Send :=
      if user.readyState = WebSocket.OPEN then
        [{ dest := userId, message := joinedMsg roomId userId }]
      else []
    { state := st1, sends := joined ++ notifyUserJoined st1 userId roomId, threw := false }

/-- The `try` block of the `message` handler of connection `userId`; `parsed` is
what `JSON.parse(message)` returned, `none` when it threw. -/
def messageBody (st : Relay) (userId : UserId) (parsed : Option JSVal) : Outcome :=
  match parsed with
  | none => { state := st, sends := [], threw := true }
  | some data0 =>
    -- console.log(..., data.type)
    if data0.isNullish then { state := st, sends := [], threw := true }
    else
      let data := data0.setProp (utf16 "senderId") (.str userId)
      let type := data.getProp (utf16 "type")
      if type.isLit "join" then
        let roomId := data.getProp (utf16 "room")
        if roomId.toStringThrows then { state := st, sends := [], threw := true }
        else if !roomId.truthy then
          { state := st, sends := [{ dest := userId, message := invalidRoomMsg }], threw := false }
        else handleJoinRoom st userId roomId
      else if type.isLit "offer" || type.isLit "answer" then
        let targetRoom := data.getProp (utf16 "room")
        if targetRoom.toStringThrows then { state := st, sends := [], threw := true }
        else if !targetRoom.truthy then { state := st, sends := [], threw := false }
        else { state := st, sends := forwardMessageToRoom st userId data, threw := false }
      else if type.isLit "ice-candidate" || type.isLit "candidate" then
        let candidateRoom := data.getProp (utf16 "room")
        if candidateRoom.toStringThrows then { state := st, sends := [], threw := true }
        else if !candidateRoom.truthy then { state := st, sends := [], threw := false }
        else { state := st, sends := forwardMessageToRoom st userId data, threw := false }
      else
        -- default
        if type.toStringThrows then { state := st, sends := [], threw := true }
        else if (data.getProp (utf16 "room")).truthy then
          if (data.getProp (utf16 "room")).toStringThrows then
            { state := st, sends := [], threw := true }
          else { state := st, sends := forwardMessageToRoom st userId data, threw := false }
        else { state := st, sends := [], threw := false }

/-- The `message` handler of connection `userId`: the `catch` only logs, so what
the `try` block did before an exception stays and nothing leaves the handler. -/
def onMessage (st : Relay) (userId : UserId) (parsed : Option JSVal) : Outcome :=
  let body := messageBody st userId parsed
  { state := body.state, sends := body.sends, threw := false }

/-- The `close` handler of connection `userId`. -/
def onClose (st : Relay) (userId : UserId) : Outcome :=
  let left : List Send × List (MapKey × List UserId) :=
    match JSMap.get st.connections userId with
    | some user =>
      if user.roomId.truthy then
        let sends := notifyUserLeft st userId user.roomId
        match JSMap.get st.rooms user.roomId.toKey with
        | some room =>
          let room1 := JSSet.delete room userId
          if room1.length = 0 then (sends, JSMap.delete st.rooms user.roomId.toKey)
          else (sends, JSMap.set st.rooms user.roomId.toKey room1)
        | none => (sends, st.rooms)
      else ([], st.rooms)
    | none => ([], st.rooms)
  { state := { connections := JSMap.delete st.connections userId, rooms := left.2 },
    sends := left.1, threw := false }

/-- The `connection` handler, up to the registration of the other handlers;
`userId` is the id `nanoid()` returned and the new socket is open. -/
def onConnection (st : Relay) (userId : UserId) : Outcome :=
  { state :=
      { connections :=
          JSMap.set st.connections userId { readyState := WebSocket.OPEN, roomId := .null },
        rooms := st.rooms },
    sends := [{ dest := userId, message := connectionEstablishedMsg userId }],
    threw := false }

/-! ## Events and reachable states -/

/-- What can happen to the relay: a client connects and is given `userId`, the
socket of `userId` delivers a message, it closes, or the library moves it to
another `readyState`. -/
inductive Event where
  | connect (userId : UserId)
  | message (userId : UserId) (parsed : Option JSVal)
  | close (userId : UserId)
  | readyState (userId : UserId) (value : Nat)

/-- The registries after the library set `ws.readyState` of `userId`. -/
def setReadyState (st : Relay) (userId : UserId) (value : Nat) : Relay :=
  match JSMap.get st.connections userId with
  | some user =>
    { connections := JSMap.set st.connections userId { user with readyState := value },
      rooms := st.rooms }
  | none => st

/-- One event, handled to completion. -/
def step (st : Relay) : Event → Outcome
  | .connect userId => onConnection st userId
  | .message userId parsed => onMessage st userId parsed
  | .close userId => onClose st userId
  | .readyState userId value => { state := setReadyState st userId value, sends := [], threw := false }

/-- The registries after a sequence of events from the start. -/
def run (events : List Event) : Relay :=
  events.foldl (fun st e => (step st e).state) Relay.empty

/-! ## Reading the registries -/

/-- The member set of a room, empty when the room is not in the map. -/
def membersOf (st : Relay) (k : MapKey) : List UserId := (JSMap.get st.rooms k).getD []

/-- The recorded room of a connection (`roomOf`), `none` when it is not registered. -/
def roomOf (st : Relay) (u : UserId) : Option JSVal :=
  (JSMap.get st.connections u).map Connection.roomId

/-- The connection is registered and its socket is open. -/
def isOpen (st : Relay) (u : UserId) : Bool :=
  match JSMap.get st.connections u with
  | some c => decide (c.readyState = WebSocket.OPEN)
  | none => false

/-- The sends made to one connection, in order. -/
def sendsTo (sends : List Send) (u : UserId) : List JSVal :=
  (sends.filter fun s => s.dest = u).map Send.message

/-- The envelope after `data.senderId = userId`. -/
def stamp (data : JSVal) (userId : UserId) : JSVal :=
  data.setProp (utf16 "senderId") (.str userId)

/-- The envelope `{ type: 'join', room: room }` a client sends. -/
def joinEnvelope (room : JSVal) : JSVal :=
  objLit [("type", .str (utf16 "join")), ("room", room)]

/-- Three connection ids. -/
def alice : UserId := utf16 "alice"

def bob : UserId := utf16 "bob"

def carol : UserId := utf16 "carol"

/-- The room code of Scenario A. -/
def roomCode : JSVal := .str (utf16 "AB12CD")

/-- Two clients have connected and neither has joined a room. -/
def hall : Relay := run [.connect alice, .connect bob]

/-- Two clients have connected and both have joined the room `AB12CD`. -/
def lobby : Relay :=
  run [.connect alice, .connect bob, .message alice (some (joinEnvelope roomCode)),
    .message bob (some (joinEnvelope roomCode))]

/-- An offer for the room `AB12CD` in which the client wrote a `senderId` itself. -/
def offerEnvelope : JSVal :=
  objLit [("type", .str (utf16 "offer")), ("room", roomCode),
    ("senderId", .str (utf16 "mallory")), ("data", .str (utf16 "sdp"))]

/-- No room of the map has an empty member set. -/
def NoEmptyRoom (st : Relay) : Prop := ∀ p ∈ st.rooms, p.2 ≠ []

/-- No key of a Map and no member of a Set is repeated. -/
structure Relay.WF (st : Relay) : Prop where
  connections : (JSMap.keys st.connections).Nodup
  rooms : (JSMap.keys st.rooms).Nodup
  members : ∀ p ∈ st.rooms, p.2.Nodup

/-- A second room code. -/
def otherRoom : JSVal := .str (utf16 "ZZ99ZZ")

/-- One client has connected, joined the room `AB12CD` and then joined the room
`ZZ99ZZ`. -/
def switched : Relay :=
  run [.connect alice, .message alice (some (joinEnvelope roomCode)),
    .message alice (some (joinEnvelope otherRoom))]

/-- Three clients have connected and all three have joined the room `AB12CD`. -/
def crowded : Relay :=
  run [.connect alice, .connect bob, .connect carol,
    .message alice (some (joinEnvelope roomCode)),
    .message bob (some (joinEnvelope roomCode)),
    .message carol (some (joinEnvelope roomCode))]

/-! ## utils.js and App.js: file ids -/

/-- A `File` of the browser as the transfer code reads it: its name, MIME type,
modification time, content, and the `uniqueId` the sender stores on it (the empty
string stands for a `uniqueId` that is not set). Its `size` is the number of its
bytes. Sizes and times are integers that a Number holds exactly. -/
structure File where
  name : JSString
  type : JSString
  lastModified : Int
  bytes : List Nat
  uniqueId : JSString

/-- The property `file.size`. -/
def File.size (file : File) : Nat := file.bytes.length

/-- The string form of an integer Number in a template literal. -/
def numberToString (n : Int) : JSString := utf16 (toString n)

/-- The conversion ToInt32: the integer wrapped into the signed 32-bit range. -/
def toInt32 (x : Int) : Int := (x + 2147483648) % 4294967296 - 2147483648

/-- One round of the loop of `generateFileId`:
`hash = ((hash << 5) - hash) + char; hash = hash & hash`. The shift works on
ToInt32 of its operand and gives a 32-bit integer; the subtraction and the
addition are exact; `hash & hash` is ToInt32. -/
def hashStep (hash : Int) (char : Nat) : Int :=
  let shifted := toInt32 (toInt32 hash * 32)
  let sum := (shifted - hash) + char
  toInt32 sum

/-- The string `${file.name}-${file.size}-${file.lastModified}`. -/
def idString (file : File) : JSString :=
  file.name ++ utf16 "-" ++ numberToString file.size ++ utf16 "-" ++
    numberToString file.lastModified

/-- The function `Utils.generateFileId(file)` of utils.js. -/
def Utils.generateFileId (file : File) : JSString :=
  let hash := (idString file).foldl hashStep 0
  utf16 "file-" ++ numberToString hash.natAbs

/-- The function `generateFileId(file)` of App.js. -/
def App.generateFileId (file : File) : JSString :=
  let hash := (idString file).foldl hashStep 0
  utf16 "file-" ++ numberToString hash.natAbs

/-- The hash as the specification words it: `h := 31 * h + charCode`, wrapped to
32 bits after each character. -/
def wrappedHash31 (s : JSString) : Int :=
  s.foldl (fun (h : Int) (c : Nat) => toInt32 (31 * h + c)) 0

/-! ## fileTransfer.js: frames -/

/-- The constant `CONFIG.CHUNK_SIZE` of config.js. -/
def CONFIG.CHUNK_SIZE : Nat := 16 * 1024

/-- The record `{ type: 'file-metadata', fileId, name, size, fileType, lastModified }`. -/
structure FileMetadata where
  fileId : JSString
  name : JSString
  size : Nat
  fileType : JSString
  lastModified : Int

/-- The record `{ type: 'file-chunk', fileId, index, total, size }`. -/
structure ChunkMetadata where
  fileId : JSString
  index : Nat
  total : Nat
  size : Nat

/-- The record `{ type: 'transfer-complete', fileId, name, size }`. -/
structure TransferComplete where
  fileId : JSString
  name : JSString
  size : Nat

/-- A parsed description frame, by its `type`; `other` is any other parsed
object. The fields have the types the sender gives them. -/
inductive Message where
  | fileMetadata (m : FileMetadata)
  | fileChunk (m : ChunkMetadata)
  | transferComplete (m : TransferComplete)
  | other (v : JSVal)

/-- What the sender hands to `connection.send`: the JSON text of a record, or
the bytes of a chunk. -/
inductive Frame where
  | message (m : Message)
  | payload (bytes : List Nat)

/-! ## fileTransfer.js: the sender -/

/-- The value of `Math.ceil(a / b)` for natural numbers. -/
def ceilDiv (a b : Nat) : Nat := (a + b - 1) / b

/-- The bytes of `file.slice(start, end)`. -/
def File.slice (file : File) (start stop : Nat) : List Nat :=
  (file.bytes.drop start).take (stop - start)

/-- The call `connection.send(frame)` at the channel access `t`: the frame goes
out when the channel is ready at that access, and is dropped (the call returns
`false`) when it is not. -/
def connectionSend (ready : Nat → Bool) (t : Nat) (frame : Frame) : List Frame :=
  if ready t then [frame] else []

/-- What a run of `sendFileChunks` leaves: the frames that went out in order,
the number of channel accesses made so far, whether the promise resolved (or was
rejected), and whether the file was added to the sent history. -/
structure ChunksOutcome where
  frames : List Frame
  accesses : Nat
  resolved : Bool
  addedToHistory : Bool

/-- The loop of `sendFileChunks` from `readNextChunk()` with `sentChunks` chunks
sent: read the chunk, and in `onload` test the channel, send the descriptor and
then the chunk, and either read the next chunk or send `transfer-complete` and
resolve. `ready t` is the state of the channel at its access number `t`. -/
def sendChunkLoop (ready : Nat → Bool) (file : File) (totalChunks sentChunks t : Nat) :
    ChunksOutcome :=
  -- readNextChunk
  let start := sentChunks * CONFIG.CHUNK_SIZE
  let stop := min (start + CONFIG.CHUNK_SIZE) file.size
  let chunkData := file.slice start stop
  -- fileReader.onload
  if !ready t then
    { frames := [], accesses := t + 1, resolved := false, addedToHistory := false }
  else
    let chunkMetadata : ChunkMetadata :=
      { fileId := file.uniqueId, index := sentChunks, total := totalChunks,
        size := chunkData.length }
    let sent := connectionSend ready (t + 1) (.message (.fileChunk chunkMetadata)) ++
      connectionSend ready (t + 2) (.payload chunkData)
    if sentChunks + 1 < totalChunks then
      let rest := sendChunkLoop ready file totalChunks (sentChunks + 1) (t + 3)
      { frames := sent ++ rest.frames, accesses := rest.accesses, resolved := rest.resolved,
        addedToHistory := rest.addedToHistory }
    else
      let completeMessage : TransferComplete :=
        { fileId := file.uniqueId, name := file.name, size := file.size }
      { frames := sent ++ connectionSend ready (t + 3) (.message (.transferComplete completeMessage)),
        accesses := t + 4, resolved := true, addedToHistory := true }
termination_by totalChunks - sentChunks
decreasing_by omega

/-- The function `sendFileChunks(file)`, started at the channel access `t`. -/
def sendFileChunks (ready : Nat → Bool) (t : Nat) (file : File) : ChunksOutcome :=
  let chunkSize := CONFIG.CHUNK_SIZE
  let totalChunks := ceilDiv file.size chunkSize
  sendChunkLoop ready file totalChunks 0 t

/-- The file after `if (!file.uniqueId) file.uniqueId = Utils.generateFileId(file)`. -/
def withUniqueId (file : File) : File :=
  if file.uniqueId.isEmpty then { file with uniqueId := Utils.generateFileId file } else file

/-- One round of `sendNextFile` for `file`: give it its id, send the
`file-metadata` frame, then run `sendFileChunks`. -/
def sendOneFile (ready : Nat → Bool) (t : Nat) (file : File) : ChunksOutcome :=
  let file := withUniqueId file
  let metadata : FileMetadata :=
    { fileId := file.uniqueId, name := file.name, size := file.size, fileType := file.type,
      lastModified := file.lastModified }
  let first := connectionSend ready t (.message (.fileMetadata metadata))
  let chunks := sendFileChunks ready (t + 1) file
  { frames := first ++ chunks.frames, accesses := chunks.accesses, resolved := chunks.resolved,
    addedToHistory := chunks.addedToHistory }

/-- A channel that is ready at every access. -/
def alwaysReady : Nat → Bool := fun _ => true

/-- The chunk `k` of a content: its bytes from `k * CHUNK_SIZE` up to
`min((k + 1) * CHUNK_SIZE, size)`. -/
def chunkOf (bytes : List Nat) (k : Nat) : List Nat :=
  (bytes.drop (k * CONFIG.CHUNK_SIZE)).take
    (min ((k + 1) * CONFIG.CHUNK_SIZE) bytes.length - k * CONFIG.CHUNK_SIZE)

/-- The descriptor of chunk `k` of a file of `n` chunks. -/
def descriptorOf (file : File) (n k : Nat) : ChunkMetadata :=
  { fileId := file.uniqueId, index := k, total := n, size := (chunkOf file.bytes k).length }

/-- The `file-metadata` record of a file. -/
def metadataOf (file : File) : FileMetadata :=
  { fileId := file.uniqueId, name := file.name, size := file.size, fileType := file.type,
    lastModified := file.lastModified }

/-- The `transfer-complete` record of a file. -/
def completeOf (file : File) : TransferComplete :=
  { fileId := file.uniqueId, name := file.name, size := file.size }

/-- An empty file, a file of three bytes, and a file of two chunks (16385 bytes). -/
def emptyFile : File :=
  { name := utf16 "empty.txt", type := utf16 "text/plain", lastModified := 1700000000000,
    bytes := [], uniqueId := [] }

def smallFile : File :=
  { name := utf16 "a.bin", type := [], lastModified := 1700000000000,
    bytes := [1, 2, 3], uniqueId := [] }

def twoChunkFile : File :=
  { name := utf16 "b.bin", type := [], lastModified := 1700000000000,
    bytes := List.replicate 16384 7 ++ [9], uniqueId := utf16 "file-1" }

/-! ## fileTransfer.js: the reassembler -/

/-- A `Uint8Array` as the reassembler reads it: its bytes, and what the attempt to
read it as a description frame gives: the record `JSON.parse` returns when the
decoded text starts with `{` and parses, `none` otherwise. -/
structure Binary where
  bytes : List Nat
  json : Option Message

/-- An entry `{ data, timestamp, metadata }` of `bufferedChunks`; `metadata` is
present on the entries that `processChunk` pushes. -/
structure BufferedChunk where
  data : Binary
  timestamp : Nat
  metadata : Option ChunkMetadata

/-- An entry of `incomingFiles`; `chunks` is the object from chunk index to bytes. -/
structure FileInfo where
  id : JSString
  name : JSString
  size : Nat
  fileType : JSString
  totalChunks : Nat
  receivedChunks : Nat
  chunks : List (Nat × List Nat)
  complete : Bool
  timestamp : Nat

/-- A `Blob`: the bytes of its parts in order, and its type. -/
structure Blob where
  bytes : List Nat
  type : JSString

/-- A call the reassembler makes to the application: `onFileReceptionStart`,
`addFileToHistory(…, 'received')`, `onFileComplete(fileId, blob)` and
`onSignalingMessage(message)`. Status and progress callbacks only drive the
display and are not recorded. -/
inductive Call where
  | fileReceptionStart (fileId : JSString)
  | historyReceived (name : JSString) (size : Nat) (type : JSString) (blob : Blob)
  | fileComplete (fileId : JSString) (blob : Blob)
  | signalingMessage (message : JSVal)

/-- The state of `FileTransfer` on the receiving side, and the calls made so far. -/
structure Reassembler where
  incomingFiles : List (JSString × FileInfo)
  pendingChunkMetadata : Option ChunkMetadata
  bufferedChunks : List BufferedChunk
  calls : List Call

/-- The state of a `FileTransfer` that has received nothing. -/
def Reassembler.empty : Reassembler :=
  { incomingFiles := [], pendingChunkMetadata := none, bufferedChunks := [], calls := [] }

/-- The loop of `finalizeFile` over `i = 0 … totalChunks - 1` from index `i` with
`remaining` rounds to go: the chunks in order, or `none` at the first missing one. -/
def collectChunks (chunks : List (Nat × List Nat)) : Nat → Nat → Option (List (List Nat))
  | _, 0 => some []
  | i, remaining + 1 =>
    match JSMap.get chunks i with
    | some chunk => (collectChunks chunks (i + 1) remaining).map (chunk :: ·)
    | none => none

/-- The function `finalizeFile(fileId)`. -/
def finalizeFile (st : Reassembler) (fileId : JSString) : Reassembler :=
  match JSMap.get st.incomingFiles fileId with
  | none => st
  | some file =>
    -- file.complete = true
    let st1 := { st with incomingFiles := JSMap.set st.incomingFiles fileId { file with complete := true } }
    match collectChunks file.chunks 0 file.totalChunks with
    | none => st1
    | some chunks =>
      let blob : Blob :=
        { bytes := chunks.flatten,
          type := if file.fileType.isEmpty then utf16 "application/octet-stream" else file.fileType }
      { st1 with calls := st1.calls ++
          [.historyReceived file.name file.size file.fileType blob, .fileComplete fileId blob] }

/-- The part of `processChunk(metadata, chunkData)` after the test for the file:
store the chunk, count it, and finalize when the count equals `metadata.total`. -/
def storeChunk (st : Reassembler) (metadata : ChunkMetadata) (chunkData : Binary) : Reassembler :=
  match JSMap.get st.incomingFiles metadata.fileId with
  | none => st
  | some fileInfo =>
    let fileInfo1 : FileInfo :=
      { fileInfo with
        chunks := JSMap.set fileInfo.chunks metadata.index chunkData.bytes,
        receivedChunks := fileInfo.receivedChunks + 1 }
    let st1 := { st with incomingFiles := JSMap.set st.incomingFiles metadata.fileId fileInfo1 }
    if fileInfo1.receivedChunks = metadata.total then finalizeFile st1 metadata.fileId else st1

/-- The function `findMatchingChunkInBuffer(metadata)`; `none` is `-1`. -/
def findMatchingChunkInBuffer (st : Reassembler) (metadata : ChunkMetadata) : Option Nat :=
  st.bufferedChunks.findIdx? fun chunk => chunk.data.bytes.length == metadata.size

/-- The first loop of `processBufferedChunks(fileId)` over the entries from index
`i` on: an entry with attached metadata of this file is processed and marked; an
entry that reads as a `file-chunk` record of this file is listed. The result is
the state, the marked indices and the listed entries. A chunk of this file is
processed by `storeChunk`, since the file is known. -/
def scanBuffered (fileId : JSString) :
    List BufferedChunk → Nat → Reassembler → List Nat → List (Nat × ChunkMetadata) →
      Reassembler × List Nat × List (Nat × ChunkMetadata)
  | [], _, st, processed, entries => (st, processed, entries)
  | chunk :: rest, i, st, processed, entries =>
    match chunk.metadata with
    | some metadata =>
      if metadata.fileId = fileId then
        scanBuffered fileId rest (i + 1) (storeChunk st metadata chunk.data)
          (processed ++ [i]) entries
      else
        match chunk.data.json with
        | some (.fileChunk chunkData) =>
          if chunkData.fileId = fileId then
            scanBuffered fileId rest (i + 1) st processed (entries ++ [(i, chunkData)])
          else scanBuffered fileId rest (i + 1) st processed entries
        | _ => scanBuffered fileId rest (i + 1) st processed entries
    | none =>
      match chunk.data.json with
      | some (.fileChunk chunkData) =>
        if chunkData.fileId = fileId then
          scanBuffered fileId rest (i + 1) st processed (entries ++ [(i, chunkData)])
        else scanBuffered fileId rest (i + 1) st processed entries
      | _ => scanBuffered fileId rest (i + 1) st processed entries

/-- The inner loop of `processBufferedChunks`: the first index `j` that is not
marked and whose data has the size the metadata gives. -/
def findUnprocessed (buffer : List BufferedChunk) (processed : List Nat) (size : Nat) :
    Option Nat :=
  (List.range buffer.length).find? fun j =>
    !processed.contains j &&
      (match buffer.get? j with
        | some binaryChunk => binaryChunk.data.bytes.length == size
        | none => false)

/-- The second loop of `processBufferedChunks`: each listed entry takes the first
unmarked entry of its size. -/
def matchEntries (buffer : List BufferedChunk) :
    List (Nat × ChunkMetadata) → Reassembler → List Nat → Reassembler × List Nat
  | [], st, processed => (st, processed)
  | entry :: entries, st, processed =>
    match findUnprocessed buffer processed entry.2.size with
    | some j =>
      match buffer.get? j with
      | some binaryChunk =>
        matchEntries buffer entries (storeChunk st entry.2 binaryChunk.data)
          (processed ++ [entry.1, j])
      | none => matchEntries buffer entries st processed
    | none => matchEntries buffer entries st processed

/-- The entries of the buffer whose index is not marked. -/
def removeIndices (buffer : List BufferedChunk) (processed : List Nat) : List BufferedChunk :=
  (buffer.enum.filter fun p => !processed.contains p.1).map Prod.snd

/-- The function `processBufferedChunks(fileId)`. -/
def processBufferedChunks (st : Reassembler) (fileId : JSString) : Reassembler :=
  if st.bufferedChunks.length = 0 then st
  else if (JSMap.get st.incomingFiles fileId).isNone then st
  else
    let buffer := st.bufferedChunks
    let (st1, processed1, entries) := scanBuffered fileId buffer 0 st [] []
    let (st2, processed2) := matchEntries buffer entries st1 processed1
    { st2 with bufferedChunks := removeIndices buffer processed2 }

/-- The function `initFileReception(metadata)` at the time `now`. -/
def initFileReception (st : Reassembler) (now : Nat) (metadata : FileMetadata) : Reassembler :=
  let fileInfo : FileInfo :=
    { id := metadata.fileId, name := metadata.name, size := metadata.size,
      fileType := metadata.fileType,
      totalChunks := ceilDiv metadata.size CONFIG.CHUNK_SIZE,
      receivedChunks := 0, chunks := [], complete := false, timestamp := now }
  { st with
    incomingFiles := JSMap.set st.incomingFiles metadata.fileId fileInfo,
    calls := st.calls ++ [.fileReceptionStart metadata.fileId] }

/-- The case `'file-metadata'` of `processJsonMessage`. -/
def processFileMetadata (st : Reassembler) (now : Nat) (metadata : FileMetadata) : Reassembler :=
  processBufferedChunks (initFileReception st now metadata) metadata.fileId

/-- The index of the first entry of the buffer that reads as a `file-metadata`
record, with the record. -/
def findMetadataInBuffer : List BufferedChunk → Nat → Option (Nat × FileMetadata)
  | [], _ => none
  | chunk :: rest, i =>
    match chunk.data.json with
    | some (.fileMetadata message) => some (i, message)
    | _ => findMetadataInBuffer rest (i + 1)

/-- The function `checkBufferForMetadata()`: the state after it and what it returns. -/
def checkBufferForMetadata (st : Reassembler) (now : Nat) : Reassembler × Bool :=
  if st.bufferedChunks.length = 0 then (st, false)
  else
    match findMetadataInBuffer st.bufferedChunks 0 with
    | some (i, message) =>
      let st1 := processFileMetadata st now message
      let st2 := { st1 with bufferedChunks := st1.bufferedChunks.eraseIdx i }
      (processBufferedChunks st2 message.fileId, true)
    | none => (st, false)

/-- The function `processChunk(metadata, chunkData)` at the time `now`. The call
of itself, made once the file is known, is the call of `storeChunk`. -/
def processChunk (st : Reassembler) (now : Nat) (metadata : ChunkMetadata) (chunkData : Binary) :
    Reassembler :=
  if (JSMap.get st.incomingFiles metadata.fileId).isNone then
    let st1 := { st with bufferedChunks := st.bufferedChunks ++
      [{ data := chunkData, timestamp := now, metadata := some metadata }] }
    let (st2, found) := checkBufferForMetadata st1 now
    if found then
      if (JSMap.get st2.incomingFiles metadata.fileId).isSome then storeChunk st2 metadata chunkData
      else st2
    else st2
  else storeChunk st metadata chunkData

/-- The function `processJsonMessage(message)` at the time `now`. -/
def processJsonMessage (st : Reassembler) (now : Nat) (message : Message) : Reassembler :=
  match message with
  | .fileMetadata metadata => processFileMetadata st now metadata
  | .fileChunk metadata =>
    let st1 := { st with pendingChunkMetadata := some metadata }
    match findMatchingChunkInBuffer st1 metadata with
    | some matchingChunkIndex =>
      match st1.bufferedChunks.get? matchingChunkIndex with
      | some chunk =>
        let st2 := processChunk st1 now metadata chunk.data
        { st2 with
          bufferedChunks := st2.bufferedChunks.eraseIdx matchingChunkIndex,
          pendingChunkMetadata := none }
      | none => st1
    | none => st1
  | .transferComplete m => finalizeFile st m.fileId
  | .other v => { st with calls := st.calls ++ [.signalingMessage v] }

/-- What arrives at `handleIncomingData`: binary data (an `ArrayBuffer` or a
`Uint8Array`), a string with what `JSON.parse` makes of it, or anything else. -/
inductive Incoming where
  | binary (data : Binary)
  | text (json : Option Message)
  | unknown

/-- The handling of a parsed description frame in `handleIncomingData`. -/
def handleJson (st : Reassembler) (now : Nat) (message : Message) : Reassembler :=
  let st1 := processJsonMessage st now message
  match message with
  | .fileMetadata metadata => processBufferedChunks st1 metadata.fileId
  | _ => st1

/-- The function `handleIncomingData(data)` at the time `now` (the value of
`Date.now()` throughout the call). -/
def handleIncomingData (st : Reassembler) (now : Nat) (data : Incoming) : Reassembler :=
  match data with
  | .binary data =>
    match data.json with
    | some message => handleJson st now message
    | none =>
      match st.pendingChunkMetadata with
      | some pending =>
        let st1 := processChunk st now pending data
        { st1 with pendingChunkMetadata := none }
      | none =>
        let pushed := st.bufferedChunks ++ [{ data := data, timestamp := now, metadata := none }]
        -- clean up old buffered chunks
        let cleaned :=
          pushed.filter fun chunk => decide ((chunk.timestamp : Int) > (now : Int) - 30000)
        let st1 := { st with bufferedChunks := cleaned }
        let (st2, found) := checkBufferForMetadata st1 now
        if found then
          (JSMap.keys st2.incomingFiles).foldl (fun st fileId => processBufferedChunks st fileId) st2
        else
          (JSMap.keys st2.incomingFiles).foldl
            (fun st fileId =>
              match st.pendingChunkMetadata with
              | some pending =>
                if pending.fileId = fileId then processBufferedChunks st fileId else st
              | none => st)
            st2
  | .text json =>
    match json with
    | some message => handleJson st now message
    | none => st
  | .unknown => st

/-- The delivery of a frame by the peer channel: every frame arrives as binary
data; the text of a record parses back to the record, and a payload reads as
`decodeJson` says. `wire` gives the bytes of the text of a record. -/
def deliver (wire : Message → List Nat) (decodeJson : List Nat → Option Message) :
    Frame → Incoming
  | .message m => .binary { bytes := wire m, json := some m }
  | .payload bytes => .binary { bytes := bytes, json := decodeJson bytes }

/-- The state after a sequence of arrivals, each with its time. -/
def receive (st : Reassembler) (arrivals : List (Nat × Incoming)) : Reassembler :=
  arrivals.foldl (fun st a => handleIncomingData st a.1 a.2) st

/-! ## Delivery orders -/

/-- One arrival of a delivery order: the descriptor of chunk `k`, or its payload. -/
inductive Item where
  | descriptor (k : Nat)
  | payload (k : Nat)
  deriving DecidableEq

/-- The frame of an arrival, for a file of `n` chunks. -/
def itemFrame (file : File) (n : Nat) : Item → Frame
  | .descriptor k => .message (.fileChunk (descriptorOf file n k))
  | .payload k => .payload (chunkOf file.bytes k)

/-- The arrivals of a timed order, as the channel delivers them. -/
def arrivals (wire : Message → List Nat) (decodeJson : List Nat → Option Message)
    (file : File) (n : Nat) (order : List (Nat × Item)) : List (Nat × Incoming) :=
  order.map fun a => (a.1, deliver wire decodeJson (itemFrame file n a.2))

/-- The emission order of the chunks `first, first + 1, …` (`count` of them):
each descriptor right before its payload. -/
def inOrderItems : Nat → Nat → List Item
  | _, 0 => []
  | first, count + 1 => .descriptor first :: .payload first :: inOrderItems (first + 1) count

/-- The emission order of `n` chunks except that the payload of chunk `k` arrives
right before its descriptor. -/
def swappedItems (n k : Nat) : List Item :=
  inOrderItems 0 k ++ [.payload k, .descriptor k] ++ inOrderItems (k + 1) (n - (k + 1))

/-- The frames of a file of `n` chunks when its chunk frames go in the order
`items`: the `file-metadata` frame, the chunk frames, the `transfer-complete` frame. -/
def framesOf (file : File) (n : Nat) (items : List Item) : List Frame :=
  [Frame.message (.fileMetadata (metadataOf file))] ++ items.map (itemFrame file n) ++
    [Frame.message (.transferComplete (completeOf file))]

/-- The slot discipline of an order, given the payloads that have arrived so far
(`seen`): every descriptor comes after its payload or right before it. -/
def disciplined : List Item → List Nat → Bool
  | [], _ => true
  | .payload k :: rest, seen => disciplined rest (k :: seen)
  | .descriptor k :: rest, seen =>
    if k ∈ seen then disciplined rest seen
    else
      match rest with
      | .payload j :: rest' => j == k && disciplined rest' seen
      | _ => false

/-- What the reassembler needs of a timed order, given the buffered payloads
(index and arrival time): a payload that is buffered finds every buffered payload
younger than 30 seconds; a descriptor finds its own payload as the first buffered
payload of its byte length, or finds none of that length and is followed at once
by its payload. `len k` is the byte length of payload `k`. -/
def accepted (len : Nat → Nat) : List (Nat × Item) → List (Nat × Nat) → Bool
  | [], _ => true
  | (t, .payload k) :: rest, buf =>
    buf.all (fun p => decide (t < p.2 + 30000)) && accepted len rest (buf ++ [(k, t)])
  | (_, .descriptor k) :: rest, buf =>
    match buf.findIdx? (fun p => len p.1 == len k) with
    | some i =>
      (match buf.get? i with
        | some p => p.1 == k
        | none => false) && accepted len rest (buf.eraseIdx i)
    | none =>
      match rest with
      | (_, .payload j) :: rest' => j == k && accepted len rest' buf
      | _ => false

/-- The indices of the descriptors of an order. -/
def descriptorsOf : List (Nat × Item) → List Nat
  | [] => []
  | (_, .descriptor k) :: rest => k :: descriptorsOf rest
  | (_, .payload _) :: rest => descriptorsOf rest

/-- The indices of the payloads of an order. -/
def payloadsOf : List (Nat × Item) → List Nat
  | [] => []
  | (_, .descriptor _) :: rest => payloadsOf rest
  | (_, .payload k) :: rest => k :: payloadsOf rest

/-- The two calls `finalizeFile` makes for a file whose chunks are all present. -/
def completionCalls (fileId : JSString) (info : FileInfo) (bytes : List Nat) : List Call :=
  [.historyReceived info.name info.size info.fileType
      { bytes := bytes,
        type := if info.fileType.isEmpty then utf16 "application/octet-stream" else info.fileType },
    .fileComplete fileId
      { bytes := bytes,
        type := if info.fileType.isEmpty then utf16 "application/octet-stream" else info.fileType }]

/-- The entry of `incomingFiles` that `initFileReception` makes for a file at the
time `now`. -/
def initialInfo (file : File) (now : Nat) : FileInfo :=
  { id := file.uniqueId, name := file.name, size := file.size, fileType := file.type,
    totalChunks := ceilDiv file.size CONFIG.CHUNK_SIZE, receivedChunks := 0, chunks := [],
    complete := false, timestamp := now }

/-- A decoder for which no payload reads as a description frame, and a wire form
of records (its bytes are never read). -/
def noJson : List Nat → Option Message := fun _ => none

def noWire : Message → List Nat := fun _ => []

/-- The buffered entry of payload `k` that arrived at the time `t`. -/
def bufferedPayload (pay : Nat → List Nat) (p : Nat × Nat) : BufferedChunk :=
  { data := { bytes := pay p.1, json := none }, timestamp := p.2, metadata := none }

/-- The state of the reassembler in the middle of the reception of one file
`fid` of `n` chunks with payloads `pay`, after the chunks `stored` were stored while
the payloads `buf` (index and arrival time) wait in the buffer: `info0` is the
entry made by the `file-metadata` frame and `calls0` the calls made before. -/
structure Mid (fid : JSString) (pay : Nat → List Nat) (n : Nat) (info0 : FileInfo)
    (calls0 : List Call) (stored : List Nat) (buf : List (Nat × Nat)) (st : Reassembler) :
    Prop where
  buffer : st.bufferedChunks = buf.map (bufferedPayload pay)
  files : ∃ chunks,
    st.incomingFiles =
      [(fid, { info0 with
        chunks := chunks, receivedChunks := stored.length,
        complete := decide (stored.length = n) })] ∧
    ∀ i, JSMap.get chunks i = if i ∈ stored then some (pay i) else none
  calls : st.calls = calls0 ++
    (if stored.length = n then completionCalls fid info0 ((List.range n).map pay).flatten
      else [])
  nodup : stored.Nodup
  bound : ∀ i ∈ stored, i < n

/-- The arrivals of a list of deliveries that all arrive at the time `t`. -/
def allAt (t : Nat) (l : List Incoming) : List (Nat × Incoming) :=
  l.map fun x => (t, x)


/-- The chunk index of a descriptor, and of a payload. -/
def Item.descriptorIndex : Item → Option Nat
  | .descriptor k => some k
  | .payload _ => none

def Item.payloadIndex : Item → Option Nat
  | .descriptor _ => none
  | .payload k => some k

/-- The chunk frames of a file of `n` chunks in the emission order, as items. -/
def emissionItems (n : Nat) : List Item :=
  (List.range n).flatMap fun k => [.descriptor k, .payload k]


/-! ## fileTransfer.js: the buffer of payloads -/

/-- The buffer in `handleIncomingData` right after a payload was pushed and the
entries older than 30 seconds were purged:
`bufferedChunks.push({ data, timestamp: Date.now() })`, then
`bufferedChunks.filter(chunk => chunk.timestamp > Date.now() - 30000)`. -/
def bufferAfterPurge (st : Reassembler) (now : Nat) (data : Binary) : List BufferedChunk :=
  let pushed := st.bufferedChunks ++ [{ data := data, timestamp := now, metadata := none }]
  pushed.filter fun chunk => decide ((chunk.timestamp : Int) > (now : Int) - 30000)

/-- The rest of `handleIncomingData` after the purge: the search of the buffer for
a `file-metadata` record and the processing of buffered chunks. -/
def afterPurge (st1 : Reassembler) (now : Nat) : Reassembler :=
  let (st2, found) := checkBufferForMetadata st1 now
  if found then
    (JSMap.keys st2.incomingFiles).foldl (fun st fileId => processBufferedChunks st fileId) st2
  else
    (JSMap.keys st2.incomingFiles).foldl
      (fun st fileId =>
        match st.pendingChunkMetadata with
        | some pending =>
          if pending.fileId = fileId then processBufferedChunks st fileId else st
        | none => st)
      st2

/-- The file of three bytes after the sender gave it an id. -/
def sentFile : File := { smallFile with uniqueId := utf16 "file-2" }

/-- A file whose content is the JSON text `{"a":1}` (one chunk), and the reading of
payloads under which exactly that text parses, to the object `{ a: 1 }`. -/
def jsonFile : File :=
  { name := utf16 "a.json", type := utf16 "application/json", lastModified := 1700000000000,
    bytes := [123, 34, 97, 34, 58, 49, 125], uniqueId := utf16 "file-3" }

def jsonDecoder : List Nat → Option Message := fun bytes =>
  if bytes = [123, 34, 97, 34, 58, 49, 125] then
    some (.other (objLit [("a", .num (.finite 1))]))
  else none

/-- Two files that differ in their names only: `Aa` and `BB`. -/
def fileAa : File :=
  { name := utf16 "Aa", type := [], lastModified := 1700000000000, bytes := [1, 2, 3],
    uniqueId := [] }

def fileBB : File :=
  { name := utf16 "BB", type := [], lastModified := 1700000000000, bytes := [1, 2, 3],
    uniqueId := [] }

/-- Two clients have joined the room `AB12CD` and a third has connected and
joined no room. -/
def lobbyWithGuest : Relay :=
  run [.connect alice, .connect bob, .connect carol,
    .message alice (some (joinEnvelope roomCode)),
    .message bob (some (joinEnvelope roomCode))]


/-! ## signaling-server.js: the liveness sweep -/

/-- A socket of `wss.clients` as the liveness sweep reads it: the flag
`ws.isAlive`, whether `ws.terminate()` was called on it, and the number of calls
of `ws.ping()` made on it. -/
structure Socket where
  isAlive : Bool
  terminated : Bool
  pings : Nat
  deriving DecidableEq

/-- The socket after `ws.isAlive = true` in the `connection` handler. -/
def Socket.connected : Socket := { isAlive := true, terminated := false, pings := 0 }

/-- The function `heartbeat`, the handler of `pong`: `this.isAlive = true`. -/
def heartbeat (ws : Socket) : Socket := { ws with isAlive := true }

/-- The callback of `wss.clients.forEach` in the interval:
`if (ws.isAlive === false) return ws.terminate(); ws.isAlive = false; ws.ping(() => {})`. -/
def sweepSocket (ws : Socket) : Socket :=
  if ws.isAlive = false then { ws with terminated := true }
  else { ws with isAlive := false, pings := ws.pings + 1 }

/-- The callback of `setInterval`: the sweep over all the sockets of `wss.clients`. -/
def sweepClients (clients : List Socket) : List Socket := clients.map sweepSocket

/-- What happens to one socket: a `pong` arrives, or the interval fires. -/
inductive Beat where
  | pong
  | sweep
  deriving DecidableEq

/-- One event on a socket. A socket that was terminated has left `wss.clients`
and emits no `pong`, so nothing happens to it any more. -/
def beat (ws : Socket) : Beat → Socket
  | .pong => if ws.terminated then ws else heartbeat ws
  | .sweep => if ws.terminated then ws else sweepSocket ws

/-- The socket after a sequence of events. -/
def Socket.after (ws : Socket) (beats : List Beat) : Socket := beats.foldl beat ws


/-! ## fileTransfer.js: sendFiles -/

/-- What a run of `sendFiles` leaves: the frames that went out in order, the names
of the files reported with `File … sent successfully`, the messages given to
`onError`, and the number of channel accesses made. -/
structure SendFilesOutcome where
  frames : List Frame
  sent : List JSString
  errors : List JSString
  accesses : Nat

/-- The function `sendNextFile` of `sendFiles` on the files from `fileIndex` on,
started at the channel access `t`: when the promise of `sendFileChunks` resolves
the file is reported as sent and the next file follows; when it is rejected
`onError` is called and no other file is taken. -/
def sendNextFile (ready : Nat → Bool) : List File → Nat → SendFilesOutcome
  | [], t => { frames := [], sent := [], errors := [], accesses := t }
  | file :: rest, t =>
    let chunks := sendOneFile ready t file
    if chunks.resolved then
      let next := sendNextFile ready rest chunks.accesses
      { frames := chunks.frames ++ next.frames, sent := file.name :: next.sent,
        errors := next.errors, accesses := next.accesses }
    else
      { frames := chunks.frames, sent := [],
        errors := [utf16 "Error sending file " ++ file.name], accesses := chunks.accesses }

/-- The function `sendFiles()` for the selected files; the test `isPeerReady()` at
its start is the channel access 0. -/
def sendFiles (ready : Nat → Bool) (selectedFiles : List File) : SendFilesOutcome :=
  if selectedFiles.length = 0 then
    { frames := [], sent := [], errors := [utf16 "Please select files to send"], accesses := 0 }
  else if !ready 0 then
    { frames := [], sent := [], errors := [utf16 "No connection to peer"], accesses := 1 }
  else sendNextFile ready selectedFiles 1


/-! ## fileTransfer.js: the count of received chunks -/

/-- The number of distinct chunk indices stored in the `chunks` object of an entry. -/
def FileInfo.storedIndices (info : FileInfo) : Nat := (JSMap.keys info.chunks).dedup.length

/-- Every entry of `incomingFiles` has at least as many counted chunks as its
`chunks` object has keys. -/
def Counted (files : List (JSString × FileInfo)) : Prop :=
  ∀ p ∈ files, (JSMap.keys p.2.chunks).length ≤ p.2.receivedChunks


/-! ## Lemmas on Map and Set -/

namespace JSMap

variable {κ : Type} {α : Type} [DecidableEq κ]

theorem get_set_same (m : List (κ × α)) (k : κ) (v : α) : get (set m k v) k = some v := by
  induction m with
  | nil => simp [set, get]
  | cons p m ih =>
    obtain ⟨k', v'⟩ := p
    by_cases h : k' = k
    · simp [set, get, h]
    · simp [set, get, h, ih]

theorem get_set_other (m : List (κ × α)) (k k' : κ) (v : α) (h : k' ≠ k) :
    get (set m k v) k' = get m k' := by
  induction m with
  | nil => simp [set, get, Ne.symm h]
  | cons p m ih =>
    obtain ⟨k₁, v₁⟩ := p
    by_cases h₁ : k₁ = k
    · subst h₁
      simp [set, get, Ne.symm h]
    · by_cases h₂ : k₁ = k'
      · subst h₂
        simp [set, get, h₁]
      · simp [set, get, h₁, h₂, ih]

theorem get_delete_same (m : List (κ × α)) (k : κ) : get (delete m k) k = none := by
  induction m with
  | nil => simp [delete, get]
  | cons p m ih =>
    obtain ⟨k₁, v₁⟩ := p
    by_cases h₁ : k₁ = k
    · simpa [delete, h₁] using ih
    · simpa [delete, List.filter_cons, h₁, get] using ih

theorem get_delete_other (m : List (κ × α)) (k k' : κ) (h : k' ≠ k) :
    get (delete m k) k' = get m k' := by
  induction m with
  | nil => simp [delete, get]
  | cons p m ih =>
    obtain ⟨k₁, v₁⟩ := p
    by_cases h₁ : k₁ = k
    · subst h₁
      simpa [delete, get, Ne.symm h] using ih
    · by_cases h₂ : k₁ = k'
      · subst h₂
        simp [delete, List.filter_cons, h₁, get]
      · simpa [delete, List.filter_cons, h₁, get, h₂] using ih

theorem mem_of_get {m : List (κ × α)} {k : κ} {v : α} (h : get m k = some v) : (k, v) ∈ m := by
  induction m with
  | nil => simp [get] at h
  | cons p m ih =>
    obtain ⟨k₁, v₁⟩ := p
    by_cases h₁ : k₁ = k
    · simp [get, h₁] at h
      simp [h₁, h]
    · simp [get, h₁] at h
      exact List.mem_cons_of_mem _ (ih h)

theorem get_isSome_iff (m : List (κ × α)) (k : κ) : (get m k).isSome = true ↔ k ∈ keys m := by
  induction m with
  | nil => simp [get, keys]
  | cons p m ih =>
    obtain ⟨k₁, v₁⟩ := p
    by_cases h₁ : k₁ = k
    · simp [get, keys, h₁]
    · have : ¬ k = k₁ := fun h => h₁ h.symm
      simpa [get, keys, h₁, this] using ih

theorem get_eq_none_iff (m : List (κ × α)) (k : κ) : get m k = none ↔ k ∉ keys m := by
  rw [← get_isSome_iff]
  cases get m k <;> simp

theorem get_of_mem {m : List (κ × α)} {k : κ} {v : α} (hn : (keys m).Nodup) (h : (k, v) ∈ m) :
    get m k = some v := by
  induction m with
  | nil => simp at h
  | cons p m ih =>
    obtain ⟨k₁, v₁⟩ := p
    simp only [keys, List.map_cons, List.nodup_cons] at hn
    rcases List.mem_cons.1 h with h | h
    · have hk : k₁ = k := (congrArg Prod.fst h).symm
      have hv : v₁ = v := (congrArg Prod.snd h).symm
      simp [get, hk, hv]
    · have hk : k₁ ≠ k := by
        rintro rfl
        exact hn.1 (List.mem_map_of_mem Prod.fst h)
      simpa [get, hk] using ih hn.2 h

theorem mem_set {m : List (κ × α)} {k : κ} {v : α} {p : κ × α} (h : p ∈ set m k v) :
    p = (k, v) ∨ p ∈ m := by
  induction m with
  | nil => simpa [set] using h
  | cons q m ih =>
    obtain ⟨k₁, v₁⟩ := q
    by_cases h₁ : k₁ = k
    · simp only [set, h₁, if_true, List.mem_cons] at h
      rcases h with h | h
      · exact Or.inl h
      · exact Or.inr (List.mem_cons_of_mem _ h)
    · simp only [set, h₁, if_false, List.mem_cons] at h
      rcases h with h | h
      · exact Or.inr (by simp [h])
      · rcases ih h with h | h
        · exact Or.inl h
        · exact Or.inr (List.mem_cons_of_mem _ h)

theorem set_set_new (m : List (κ × α)) (k : κ) (x v : α) (h : get m k = none) :
    set (set m k x) k v = set m k v := by
  induction m with
  | nil => simp [set]
  | cons p m ih =>
    obtain ⟨k₁, v₁⟩ := p
    by_cases h₁ : k₁ = k
    · simp [get, h₁] at h
    · simp only [get, h₁, if_false] at h
      simp [set, h₁, ih h]

theorem keys_set (m : List (κ × α)) (k : κ) (v : α) :
    keys (set m k v) = if k ∈ keys m then keys m else keys m ++ [k] := by
  induction m with
  | nil => simp [set, keys]
  | cons p m ih =>
    obtain ⟨k₁, v₁⟩ := p
    by_cases h₁ : k₁ = k
    · simp [set, keys, h₁]
    · have h₂ : ¬ k = k₁ := fun h => h₁ h.symm
      simp only [keys] at ih
      by_cases hk : k ∈ List.map Prod.fst m
      · simp [set, keys, h₁, h₂, hk, ih]
      · simp [set, keys, h₁, h₂, hk, ih]

theorem nodup_keys_set {m : List (κ × α)} (k : κ) (v : α) (h : (keys m).Nodup) :
    (keys (set m k v)).Nodup := by
  rw [keys_set]
  split
  · exact h
  · rename_i hk
    exact List.Nodup.append h (List.nodup_singleton k) (by simpa using hk)

theorem nodup_keys_delete {m : List (κ × α)} (k : κ) (h : (keys m).Nodup) :
    (keys (delete m k)).Nodup := by
  unfold keys delete
  unfold keys at h
  exact (List.filter_sublist m).map Prod.fst |>.nodup h

theorem mem_of_mem_delete {m : List (κ × α)} {k : κ} {p : κ × α} (h : p ∈ delete m k) : p ∈ m :=
  (List.mem_filter.1 h).1

end JSMap

namespace JSSet

variable {α : Type} [DecidableEq α]

theorem mem_add (s : List α) (x y : α) : y ∈ add s x ↔ y ∈ s ∨ y = x := by
  unfold add
  split
  · constructor
    · exact Or.inl
    · rintro (h | rfl)
      · exact h
      · assumption
  · simp

theorem nodup_add {s : List α} (x : α) (h : s.Nodup) : (add s x).Nodup := by
  unfold add
  split
  · exact h
  · rename_i hx
    exact List.Nodup.append h (List.nodup_singleton x) (by simpa using hx)

theorem mem_delete_iff (s : List α) (x y : α) : y ∈ delete s x ↔ y ∈ s ∧ y ≠ x := by
  simp [delete]

theorem nodup_delete {s : List α} (x : α) (h : s.Nodup) : (delete s x).Nodup :=
  h.filter _

theorem add_ne_nil (s : List α) (x : α) : add s x ≠ [] := by
  intro h
  have : x ∈ add s x := (mem_add s x x).2 (Or.inr rfl)
  rw [h] at this
  simp at this

end JSSet

/-! ## Lemmas on values -/

theorem find_update_same (props : List (JSString × JSVal)) (k : JSString) (x : JSVal)
    (h : props.any (fun p => p.1 == k) = true) :
    (props.map fun p => if p.1 == k then (p.1, x) else p).find? (fun p => p.1 == k) =
      some (k, x) := by
  induction props with
  | nil => simp at h
  | cons p props ih =>
    by_cases hp : p.1 = k
    · simp [List.find?_cons, hp]
    · have h' : props.any (fun p => p.1 == k) = true := by
        simpa [List.any_cons, hp] using h
      simpa [List.find?_cons, hp] using ih h'

theorem find_update_other (props : List (JSString × JSVal)) (k k' : JSString) (x : JSVal)
    (h : k' ≠ k) :
    ((props.map fun p => if p.1 == k then (p.1, x) else p).find? (fun p => p.1 == k')).map
        Prod.snd =
      (props.find? (fun p => p.1 == k')).map Prod.snd := by
  induction props with
  | nil => simp
  | cons p props ih =>
    by_cases hp : p.1 = k
    · have hp' : ¬ p.1 = k' := fun h' => h (h'.symm.trans hp)
      have hk : ¬ k = k' := fun h' => h h'.symm
      simpa [List.find?_cons, hp, hp', hk] using ih
    · by_cases hp' : p.1 = k'
      · have hk : ¬ k' = k := h
        simp [List.find?_cons, hp', hk]
      · simpa [List.find?_cons, hp, hp'] using ih

theorem find_append_new (props : List (JSString × JSVal)) (k : JSString) (x : JSVal)
    (h : ¬ props.any (fun p => p.1 == k) = true) :
    (props ++ [(k, x)]).find? (fun p => p.1 == k) = some (k, x) := by
  induction props with
  | nil => simp
  | cons p props ih =>
    have hp : ¬ p.1 = k := by
      intro hp
      exact h (by simp [List.any_cons, hp])
    have h' : ¬ props.any (fun p => p.1 == k) = true := by
      intro h'
      exact h (by simp [List.any_cons, h'])
    simpa [List.find?_cons, hp] using ih h'

theorem find_append_other (props : List (JSString × JSVal)) (k k' : JSString) (x : JSVal)
    (h : k' ≠ k) :
    (props ++ [(k, x)]).find? (fun p => p.1 == k') = props.find? (fun p => p.1 == k') := by
  induction props with
  | nil => simp [List.find?_cons, Ne.symm h]
  | cons p props ih =>
    by_cases hp : p.1 = k'
    · simp [List.find?_cons, hp]
    · simpa [List.find?_cons, hp] using ih

theorem getProp_of_find (r : Nat) (props : List (JSString × JSVal)) (k : JSString) :
    (JSVal.obj r props).getProp k =
      ((props.find? (fun p => p.1 == k)).map Prod.snd).getD .undefined := by
  simp only [JSVal.getProp]
  cases props.find? (fun p => p.1 == k) <;> rfl

/-- Reading the property just assigned on an object gives the assigned value. -/
theorem getProp_setProp_same (r : Nat) (props : List (JSString × JSVal)) (k : JSString)
    (x : JSVal) : ((JSVal.obj r props).setProp k x).getProp k = x := by
  simp only [JSVal.setProp]
  split
  · rename_i h
    rw [getProp_of_find, find_update_same props k x h]
    rfl
  · rename_i h
    rw [getProp_of_find, find_append_new props k x h]
    rfl

/-- An assignment leaves every other property as it was. -/
theorem getProp_setProp_other (v : JSVal) (k k' : JSString) (x : JSVal) (h : k' ≠ k) :
    (v.setProp k x).getProp k' = v.getProp k' := by
  cases v with
  | obj r props =>
    simp only [JSVal.setProp]
    split
    · rw [getProp_of_find, getProp_of_find, find_update_other props k k' x h]
    · rw [getProp_of_find, getProp_of_find, find_append_other props k k' x h]
  | _ => rfl

theorem obj_of_truthy_getProp {v : JSVal} {k : JSString} (h : (v.getProp k).truthy = true) :
    ∃ r props, v = .obj r props := by
  cases v with
  | obj r props => exact ⟨r, props, rfl⟩
  | _ => simp [JSVal.getProp, JSVal.truthy] at h

theorem toStringThrows_of_not_truthy {v : JSVal} (h : v.truthy = false) :
    v.toStringThrows = false := by
  cases v <;> simp_all [JSVal.truthy, JSVal.toStringThrows]

theorem isNullish_setProp (v : JSVal) (k : JSString) (x : JSVal) :
    (v.setProp k x).isNullish = v.isNullish := by
  cases v with
  | obj r props =>
    simp only [JSVal.setProp]
    split <;> rfl
  | _ => rfl

/-! ## Lemmas on sends -/

theorem sendsTo_nil (v : UserId) : sendsTo [] v = [] := rfl

theorem sendsTo_append (a b : List Send) (v : UserId) :
    sendsTo (a ++ b) v = sendsTo a v ++ sendsTo b v := by
  simp [sendsTo]

theorem sendsTo_single (u v : UserId) (msg : JSVal) :
    sendsTo [{ dest := u, message := msg }] v = if u = v then [msg] else [] := by
  by_cases h : u = v <;> simp [sendsTo, h]

/-- A fan-out over a room never reaches a connection that fails the test. -/
theorem sendsTo_fanOut_excluded (room : List UserId) (p : UserId → Bool) (msg : JSVal)
    (v : UserId) (h : p v = false) :
    sendsTo (room.flatMap fun m =>
      if p m = true then [{ dest := m, message := msg }] else []) v = [] := by
  induction room with
  | nil => rfl
  | cons m room ih =>
    rw [List.flatMap_cons, sendsTo_append, ih]
    by_cases hm : p m = true
    · have hmv : m ≠ v := by
        rintro rfl
        rw [h] at hm
        exact Bool.noConfusion hm
      simp [hm, sendsTo_single, hmv]
    · simp [hm, sendsTo_nil]

/-- A fan-out over a room without repetition reaches each member that passes the
test exactly once, and nobody else. -/
theorem sendsTo_fanOut (room : List UserId) (p : UserId → Bool) (msg : JSVal)
    (v : UserId) (h : room.Nodup) :
    sendsTo (room.flatMap fun m =>
      if p m = true then [{ dest := m, message := msg }] else []) v =
      if v ∈ room ∧ p v = true then [msg] else [] := by
  induction room with
  | nil => simp [sendsTo_nil]
  | cons m room ih =>
    rw [List.nodup_cons] at h
    rw [List.flatMap_cons, sendsTo_append, ih h.2]
    by_cases hmv : m = v
    · subst hmv
      by_cases hm : p m = true
      · simp [hm, sendsTo_single, h.1]
      · simp [hm, sendsTo_nil]
    · have hvm : ¬ v = m := fun h' => hmv h'.symm
      by_cases hm : p m = true
      · simp [hm, sendsTo_single, hmv, hvm]
      · simp [hm, sendsTo_nil, hvm]

theorem forwardMessageToRoom_eq (st : Relay) (senderId : UserId) (data : JSVal) :
    forwardMessageToRoom st senderId data =
      (membersOf st (data.getProp (utf16 "room")).toKey).flatMap fun m =>
        if (decide (m ≠ senderId) && isOpen st m) = true then
          [{ dest := m, message := data }] else [] := by
  simp only [forwardMessageToRoom, membersOf]
  cases JSMap.get st.rooms (data.getProp (utf16 "room")).toKey with
  | none => rfl
  | some room =>
    simp only [Option.getD_some]
    congr 1
    funext m
    unfold isOpen
    by_cases hm : m = senderId
    · simp [hm]
    · cases JSMap.get st.connections m <;> simp [hm]

theorem notifyUserJoined_eq (st : Relay) (userId : UserId) (roomId : JSVal) :
    notifyUserJoined st userId roomId =
      (membersOf st roomId.toKey).flatMap fun m =>
        if (decide (m ≠ userId) && isOpen st m) = true then
          [{ dest := m, message := userJoinedMsg userId roomId }] else [] := by
  unfold notifyUserJoined membersOf
  cases JSMap.get st.rooms roomId.toKey with
  | none => rfl
  | some room =>
    simp only [Option.getD_some]
    congr 1
    funext m
    unfold isOpen JSMap.has
    by_cases hm : m = userId
    · simp [hm]
    · cases JSMap.get st.connections m <;> simp [hm]

theorem notifyUserLeft_eq (st : Relay) (userId : UserId) (roomId : JSVal) :
    notifyUserLeft st userId roomId =
      (membersOf st roomId.toKey).flatMap fun m =>
        if (decide (m ≠ userId) && isOpen st m) = true then
          [{ dest := m, message := userLeftMsg userId roomId }] else [] := by
  unfold notifyUserLeft membersOf
  cases JSMap.get st.rooms roomId.toKey with
  | none => rfl
  | some room =>
    simp only [Option.getD_some]
    congr 1
    funext m
    unfold isOpen JSMap.has
    by_cases hm : m = userId
    · simp [hm]
    · cases JSMap.get st.connections m <;> simp [hm]

theorem nodup_membersOf {st : Relay} (h : st.WF) (k : MapKey) :
    (membersOf st k).Nodup := by
  unfold membersOf
  cases hg : JSMap.get st.rooms k with
  | none => simp
  | some room => exact h.members _ (JSMap.mem_of_get hg)

/-! ## The room-code validator -/

theorem urlAlphabet_inRoomCodeClass : ∀ c ∈ urlAlphabet, inRoomCodeClass c = true := by
  decide

theorem inRoomCodeClass_iff (c : Nat) :
    inRoomCodeClass c = true ↔
      (65 ≤ c ∧ c ≤ 90) ∨ (97 ≤ c ∧ c ≤ 122) ∨ (48 ≤ c ∧ c ≤ 57) ∨ c = 95 ∨ c = 45 := by
  simp only [inRoomCodeClass, Bool.or_eq_true, Bool.and_eq_true, decide_eq_true_eq, beq_iff_eq]
  have ha : 'a'.toNat = 97 := by decide
  have hz : 'z'.toNat = 122 := by decide
  have hA : 'A'.toNat = 65 := by decide
  have hZ : 'Z'.toNat = 90 := by decide
  have h0 : '0'.toNat = 48 := by decide
  have h9 : '9'.toNat = 57 := by decide
  have hu : '_'.toNat = 95 := by decide
  have hm : '-'.toNat = 45 := by decide
  rw [ha, hz, hA, hZ, h0, h9, hu, hm]
  omega

theorem validateRoomCode_str (s : JSString) :
    validateRoomCode (.val (.str s)) = true ↔
      s.length = 6 ∧ ∀ c ∈ s, inRoomCodeClass c = true := by
  unfold validateRoomCode roomCodePatternTest
  by_cases h : s.length = 6
  · have hne : s ≠ [] := by
      intro h0
      rw [h0] at h
      simp at h
    simp [h, hne, List.all_eq_true]
  · simp [h]

/-- C1: `validateRoomCode(code)` is true exactly when `code` is a string of
length 6 all of whose code units are in `[A-Za-z0-9_-]`; for every other value
(in particular a string that ends in a newline) it is false. The function is
total, so it never throws. -/
theorem validateRoomCode_iff (code : JSAny) :
    (validateRoomCode code = true ↔
      ∃ s : JSString, code = .val (.str s) ∧ s.length = 6 ∧
        ∀ c ∈ s, (65 ≤ c ∧ c ≤ 90) ∨ (97 ≤ c ∧ c ≤ 122) ∨ (48 ≤ c ∧ c ≤ 57) ∨
          c = 95 ∨ c = 45) ∧
    (∀ s : JSString, validateRoomCode (.val (.str (s ++ utf16 "\n"))) = false) := by
  constructor
  · constructor
    · intro h
      match code, h with
      | .val (.str s), h =>
        rw [validateRoomCode_str] at h
        exact ⟨s, rfl, h.1, fun c hc => (inRoomCodeClass_iff c).1 (h.2 c hc)⟩
    · rintro ⟨s, rfl, hlen, hall⟩
      rw [validateRoomCode_str]
      exact ⟨hlen, fun c hc => (inRoomCodeClass_iff c).2 (hall c hc)⟩
  · intro s
    cases hv : validateRoomCode (.val (.str (s ++ utf16 "\n"))) with
    | false => rfl
    | true =>
      rw [validateRoomCode_str] at hv
      have h10 := hv.2 10 (by
        have : utf16 "\n" = [10] := by decide
        simp [this])
      exact absurd h10 (by decide)

/-- C2: whatever `generateRoomCode()` returns when called without a length (six
symbols of the alphabet of nanoid) passes `validateRoomCode`. -/
theorem generateRoomCode_valid (nanoid : Nat → JSString) (h : NanoidContract nanoid) :
    (generateRoomCode nanoid none).length = 6 ∧
    (∀ c ∈ generateRoomCode nanoid none, c ∈ urlAlphabet) ∧
    validateRoomCode (.val (.str (generateRoomCode nanoid none))) = true := by
  have hlen : (generateRoomCode nanoid none).length = 6 := h.size 6
  have hsym : ∀ c ∈ generateRoomCode nanoid none, c ∈ urlAlphabet := h.symbols 6
  refine ⟨hlen, hsym, ?_⟩
  rw [validateRoomCode_str]
  exact ⟨hlen, fun c hc => urlAlphabet_inRoomCodeClass c (hsym c hc)⟩

theorem generateRoomCode_valid_witness :
    NanoidContract (fun n => List.replicate n 65) ∧
    validateRoomCode (.val (.str (generateRoomCode (fun n => List.replicate n 65) none))) = true :=
  ⟨⟨fun n => by simp, fun n c hc => by
      have : c = 65 := (List.mem_replicate.1 hc).2
      subst this
      decide⟩,
   (generateRoomCode_valid (fun n => List.replicate n 65)
      ⟨fun n => by simp, fun n c hc => by
        have : c = 65 := (List.mem_replicate.1 hc).2
        subst this
        decide⟩).2.2⟩

/-! ## Forwarding -/

theorem type_ne_senderId : utf16 "type" ≠ utf16 "senderId" := by decide

theorem room_ne_senderId : utf16 "room" ≠ utf16 "senderId" := by decide

theorem getProp_type_stamp (data : JSVal) (u : UserId) :
    (stamp data u).getProp (utf16 "type") = data.getProp (utf16 "type") :=
  getProp_setProp_other data _ _ _ type_ne_senderId

theorem getProp_room_stamp (data : JSVal) (u : UserId) :
    (stamp data u).getProp (utf16 "room") = data.getProp (utf16 "room") :=
  getProp_setProp_other data _ _ _ room_ne_senderId

theorem not_nullish_of_truthy_room {data : JSVal}
    (h : (data.getProp (utf16 "room")).truthy = true) : data.isNullish = false := by
  obtain ⟨r, props, rfl⟩ := obj_of_truthy_getProp h
  rfl

/-- An envelope that is not a join and names a room is handed, stamped, to
`forwardMessageToRoom`; the registries stay as they are. -/
theorem messageBody_forward (st : Relay) (s : UserId) (data : JSVal)
    (hjoin : (data.getProp (utf16 "type")).isLit "join" = false)
    (htype : (data.getProp (utf16 "type")).toStringThrows = false)
    (hroom : (data.getProp (utf16 "room")).truthy = true)
    (hlog : (data.getProp (utf16 "room")).toStringThrows = false) :
    messageBody st s (some data) =
      { state := st, sends := forwardMessageToRoom st s (stamp data s), threw := false } := by
  have hn := not_nullish_of_truthy_room hroom
  have ht := getProp_type_stamp data s
  have hr := getProp_room_stamp data s
  unfold stamp at ht hr
  simp only [messageBody, hn, ht, hr, hjoin, htype, hroom, hlog, stamp]
  by_cases h1 : ((data.getProp (utf16 "type")).isLit "offer" ||
      (data.getProp (utf16 "type")).isLit "answer") = true
  · simp [h1]
  · by_cases h2 : ((data.getProp (utf16 "type")).isLit "ice-candidate" ||
        (data.getProp (utf16 "type")).isLit "candidate") = true
    · simp [h1, h2]
    · simp [h1, h2]

theorem sendsTo_forwardMessageToRoom (st : Relay) (hWF : st.WF) (s : UserId) (data : JSVal)
    (v : UserId) :
    sendsTo (forwardMessageToRoom st s data) v =
      if v ∈ membersOf st (data.getProp (utf16 "room")).toKey ∧ v ≠ s ∧ isOpen st v = true
      then [data] else [] := by
  rw [forwardMessageToRoom_eq, sendsTo_fanOut _ _ _ _ (nodup_membersOf hWF _)]
  simp

theorem forwardMessageToRoom_excludes (st : Relay) (s : UserId) (data : JSVal) :
    sendsTo (forwardMessageToRoom st s data) s = [] := by
  rw [forwardMessageToRoom_eq]
  exact sendsTo_fanOut_excluded _ _ _ _ (by simp)

theorem notifyUserJoined_excludes (st : Relay) (u : UserId) (r : JSVal) :
    sendsTo (notifyUserJoined st u r) u = [] := by
  rw [notifyUserJoined_eq]
  exact sendsTo_fanOut_excluded _ _ _ _ (by simp)

theorem notifyUserLeft_excludes (st : Relay) (u : UserId) (r : JSVal) :
    sendsTo (notifyUserLeft st u r) u = [] := by
  rw [notifyUserLeft_eq]
  exact sendsTo_fanOut_excluded _ _ _ _ (by simp)

/-- C3: broadcast exclusion. Whatever the registries, the sender and the
envelope, `forwardMessageToRoom(s, envelope)` makes no send to the connection `s`
(member of the room or not), and `notifyUserJoined(u, r)` and
`notifyUserLeft(u, r)` make no send to `u`. -/
theorem broadcast_exclusion (st : Relay) (s u : UserId) (envelope r : JSVal) :
    sendsTo (forwardMessageToRoom st s envelope) s = [] ∧
    sendsTo (notifyUserJoined st u r) u = [] ∧
    sendsTo (notifyUserLeft st u r) u = [] := by
  exact ⟨forwardMessageToRoom_excludes st s envelope, notifyUserJoined_excludes st u r,
    notifyUserLeft_excludes st u r⟩

/-- C4: an inbound envelope whose type is not `join` (offer, answer,
ice-candidate, candidate or any other type that can be logged) and whose room is
non-empty and names an existing room leaves the registries as they are and makes
exactly one send to each member of that room other than the sender that is
registered and open, and no send to anyone else; the message of each send is the
inbound envelope with `senderId` set to the id of the sending connection, every
other property as the client sent it. -/
theorem forward_spec (st : Relay) (hWF : st.WF) (s : UserId) (data : JSVal)
    (hjoin : (data.getProp (utf16 "type")).isLit "join" = false)
    (htype : (data.getProp (utf16 "type")).toStringThrows = false)
    (hroom : (data.getProp (utf16 "room")).truthy = true)
    (hlog : (data.getProp (utf16 "room")).toStringThrows = false) :
    (onMessage st s (some data)).state = st ∧
    (onMessage st s (some data)).threw = false ∧
    (∀ v, sendsTo (onMessage st s (some data)).sends v =
      if v ∈ membersOf st (data.getProp (utf16 "room")).toKey ∧ v ≠ s ∧ isOpen st v = true
      then [stamp data s] else []) ∧
    (stamp data s).getProp (utf16 "senderId") = .str s ∧
    (∀ k, k ≠ utf16 "senderId" → (stamp data s).getProp k = data.getProp k) := by
  obtain ⟨r, props, rfl⟩ := obj_of_truthy_getProp hroom
  refine ⟨?_, rfl, ?_, ?_, ?_⟩
  · simp only [onMessage, messageBody_forward st s _ hjoin htype hroom hlog]
  · intro v
    simp only [onMessage, messageBody_forward st s _ hjoin htype hroom hlog]
    rw [sendsTo_forwardMessageToRoom st hWF, getProp_room_stamp]
  · exact getProp_setProp_same r props _ _
  · intro k hk
    exact getProp_setProp_other _ _ _ _ hk

/-! ## Joining -/

theorem handleJoinRoom_state (st : Relay) (u : UserId) (r : JSVal) :
    (handleJoinRoom st u r).state =
      { connections :=
          match JSMap.get st.connections u with
          | some user => JSMap.set st.connections u { user with roomId := r }
          | none => st.connections,
        rooms :=
          JSMap.set
            (if !JSMap.has st.rooms r.toKey then JSMap.set st.rooms r.toKey [] else st.rooms)
            r.toKey
            (JSSet.add
              ((JSMap.get
                (if !JSMap.has st.rooms r.toKey then JSMap.set st.rooms r.toKey []
                  else st.rooms) r.toKey).getD []) u) } := by
  simp only [handleJoinRoom]
  split <;> rfl

theorem get_created (st : Relay) (k : MapKey) :
    JSMap.get (if !JSMap.has st.rooms k then JSMap.set st.rooms k [] else st.rooms) k =
      some (membersOf st k) := by
  unfold membersOf JSMap.has
  cases hg : JSMap.get st.rooms k with
  | none => simp [JSMap.get_set_same]
  | some room => simp [hg]

theorem get_created_other (st : Relay) (k k' : MapKey) (h : k' ≠ k) :
    JSMap.get (if !JSMap.has st.rooms k then JSMap.set st.rooms k [] else st.rooms) k' =
      JSMap.get st.rooms k' := by
  split
  · exact JSMap.get_set_other _ _ _ _ h
  · rfl

theorem handleJoinRoom_rooms_same (st : Relay) (u : UserId) (r : JSVal) :
    JSMap.get (handleJoinRoom st u r).state.rooms r.toKey =
      some (JSSet.add (membersOf st r.toKey) u) := by
  rw [handleJoinRoom_state]
  simp only [JSMap.get_set_same, get_created, Option.getD_some]

theorem handleJoinRoom_rooms_other (st : Relay) (u : UserId) (r : JSVal) (k : MapKey)
    (h : k ≠ r.toKey) :
    JSMap.get (handleJoinRoom st u r).state.rooms k = JSMap.get st.rooms k := by
  rw [handleJoinRoom_state]
  simp only [JSMap.get_set_other _ _ _ _ h, get_created_other _ _ _ h]

theorem membersOf_handleJoinRoom (st : Relay) (u : UserId) (r : JSVal) :
    membersOf (handleJoinRoom st u r).state r.toKey = JSSet.add (membersOf st r.toKey) u := by
  unfold membersOf
  rw [handleJoinRoom_rooms_same]
  rfl

theorem handleJoinRoom_connections_same (st : Relay) (u : UserId) (r : JSVal)
    (c : Connection) (h : JSMap.get st.connections u = some c) :
    JSMap.get (handleJoinRoom st u r).state.connections u =
      some { readyState := c.readyState, roomId := r } := by
  rw [handleJoinRoom_state]
  simp only [h, JSMap.get_set_same]

theorem handleJoinRoom_connections_other (st : Relay) (u v : UserId) (r : JSVal)
    (h : v ≠ u) :
    JSMap.get (handleJoinRoom st u r).state.connections v = JSMap.get st.connections v := by
  rw [handleJoinRoom_state]
  cases hg : JSMap.get st.connections u with
  | none => rfl
  | some c => exact JSMap.get_set_other _ _ _ _ h

theorem isOpen_handleJoinRoom (st : Relay) (u v : UserId) (r : JSVal) :
    isOpen (handleJoinRoom st u r).state v = isOpen st v := by
  unfold isOpen
  by_cases h : v = u
  · subst h
    cases hg : JSMap.get st.connections v with
    | none =>
      have : JSMap.get (handleJoinRoom st v r).state.connections v = none := by
        rw [handleJoinRoom_state]
        simp only [hg]
      rw [this]
    | some c => rw [handleJoinRoom_connections_same st v r c hg]
  · rw [handleJoinRoom_connections_other st u v r h]

theorem handleJoinRoom_WF (st : Relay) (u : UserId) (r : JSVal) (h : st.WF) :
    (handleJoinRoom st u r).state.WF := by
  rw [handleJoinRoom_state]
  refine ⟨?_, ?_, ?_⟩
  · show (JSMap.keys (match JSMap.get st.connections u with
      | some user => JSMap.set st.connections u { user with roomId := r }
      | none => st.connections)).Nodup
    cases JSMap.get st.connections u with
    | none => exact h.connections
    | some c => exact JSMap.nodup_keys_set _ _ h.connections
  · apply JSMap.nodup_keys_set
    split
    · exact JSMap.nodup_keys_set _ _ h.rooms
    · exact h.rooms
  · intro p hp
    rcases JSMap.mem_set hp with hp | hp
    · rw [hp, get_created]
      exact JSSet.nodup_add _ (nodup_membersOf h _)
    · split at hp
      · rcases JSMap.mem_set hp with hp | hp
        · rw [hp]
          exact List.nodup_nil
        · exact h.members p hp
      · exact h.members p hp

theorem handleJoinRoom_sends (st : Relay) (u : UserId) (r : JSVal)
    (h : isOpen st u = true) :
    (handleJoinRoom st u r).sends =
      { dest := u, message := joinedMsg r u } ::
        notifyUserJoined (handleJoinRoom st u r).state u r := by
  have h' : isOpen (handleJoinRoom st u r).state u = true := by
    rw [isOpen_handleJoinRoom]
    exact h
  rw [handleJoinRoom_state] at h' ⊢
  unfold isOpen at h'
  simp only [handleJoinRoom]
  split
  · rename_i hg
    rw [hg] at h'
    exact Bool.noConfusion h'
  · rename_i c hg
    rw [hg] at h'
    have hc : c.readyState = WebSocket.OPEN := by simpa using h'
    simp [hc]

/-- A join envelope with a room that is truthy and can be logged reaches
`handleJoinRoom`. -/
theorem messageBody_join (st : Relay) (u : UserId) (data : JSVal)
    (htype : (data.getProp (utf16 "type")).isLit "join" = true)
    (hroom : (data.getProp (utf16 "room")).truthy = true)
    (hlog : (data.getProp (utf16 "room")).toStringThrows = false) :
    messageBody st u (some data) = handleJoinRoom st u (data.getProp (utf16 "room")) := by
  have hn := not_nullish_of_truthy_room hroom
  have ht := getProp_type_stamp data u
  have hr := getProp_room_stamp data u
  unfold stamp at ht hr
  simp only [messageBody, hn, ht, hr, htype, hroom, hlog]
  simp

/-- What one join does, for a registered and open connection. -/
theorem join_effect (st : Relay) (hWF : st.WF) (u : UserId) (data : JSVal)
    (hopen : isOpen st u = true)
    (htype : (data.getProp (utf16 "type")).isLit "join" = true)
    (hroom : (data.getProp (utf16 "room")).truthy = true)
    (hlog : (data.getProp (utf16 "room")).toStringThrows = false) :
    u ∈ membersOf (onMessage st u (some data)).state (data.getProp (utf16 "room")).toKey ∧
    roomOf (onMessage st u (some data)).state u = some (data.getProp (utf16 "room")) ∧
    sendsTo (onMessage st u (some data)).sends u =
      [joinedMsg (data.getProp (utf16 "room")) u] ∧
    (∀ v, v ≠ u → sendsTo (onMessage st u (some data)).sends v =
      if v ∈ membersOf (onMessage st u (some data)).state (data.getProp (utf16 "room")).toKey ∧
          isOpen st v = true
      then [userJoinedMsg u (data.getProp (utf16 "room"))] else []) := by
  simp only [onMessage, messageBody_join st u data htype hroom hlog]
  generalize data.getProp (utf16 "room") = r
  have hsends := handleJoinRoom_sends st u r hopen
  have hWF' := handleJoinRoom_WF st u r hWF
  refine ⟨?_, ?_, ?_, ?_⟩
  · rw [membersOf_handleJoinRoom]
    exact (JSSet.mem_add _ _ _).2 (Or.inr rfl)
  · unfold isOpen at hopen
    cases hg : JSMap.get st.connections u with
    | none =>
      rw [hg] at hopen
      exact Bool.noConfusion hopen
    | some c =>
      unfold roomOf
      rw [handleJoinRoom_connections_same st u r c hg]
      rfl
  · rw [hsends]
    have := notifyUserJoined_excludes (handleJoinRoom st u r).state u r
    rw [show ({ dest := u, message := joinedMsg r u } ::
        notifyUserJoined (handleJoinRoom st u r).state u r) =
        [{ dest := u, message := joinedMsg r u }] ++
        notifyUserJoined (handleJoinRoom st u r).state u r from rfl,
      sendsTo_append, this, sendsTo_single]
    simp
  · intro v hv
    rw [hsends]
    rw [show ({ dest := u, message := joinedMsg r u } ::
        notifyUserJoined (handleJoinRoom st u r).state u r) =
        [{ dest := u, message := joinedMsg r u }] ++
        notifyUserJoined (handleJoinRoom st u r).state u r from rfl,
      sendsTo_append, sendsTo_single, notifyUserJoined_eq,
      sendsTo_fanOut _ _ _ _ (nodup_membersOf hWF' _), isOpen_handleJoinRoom]
    simp [Ne.symm hv, hv]

theorem lobby_WF : lobby.WF := ⟨by decide, by decide, by decide⟩

theorem hall_WF : hall.WF := ⟨by decide, by decide, by decide⟩

theorem forward_spec_witness :
    (onMessage lobby alice (some offerEnvelope)).state = lobby ∧
    sendsTo (onMessage lobby alice (some offerEnvelope)).sends bob =
      [objLit [("type", .str (utf16 "offer")), ("room", roomCode),
        ("senderId", .str alice), ("data", .str (utf16 "sdp"))]] ∧
    sendsTo (onMessage lobby alice (some offerEnvelope)).sends alice = [] :=
  have h := forward_spec lobby lobby_WF alice offerEnvelope (by decide) (by decide)
    (by decide) (by decide)
  ⟨h.1, (h.2.2.1 bob).trans (by rfl), (h.2.2.1 alice).trans (by rfl)⟩

theorem onMessage_join_state (st : Relay) (u : UserId) (data : JSVal)
    (htype : (data.getProp (utf16 "type")).isLit "join" = true)
    (hroom : (data.getProp (utf16 "room")).truthy = true)
    (hlog : (data.getProp (utf16 "room")).toStringThrows = false) :
    (onMessage st u (some data)).state =
      (handleJoinRoom st u (data.getProp (utf16 "room"))).state := by
  simp only [onMessage, messageBody_join st u data htype hroom hlog]

/-- Scenario A in any registries: two open connections join, one after the
other, a room that does not exist. -/
theorem join_twice (st : Relay) (hWF : st.WF) (x y : UserId) (dx dy : JSVal) (hxy : x ≠ y)
    (hx : isOpen st x = true) (hy : isOpen st y = true)
    (htx : (dx.getProp (utf16 "type")).isLit "join" = true)
    (hty : (dy.getProp (utf16 "type")).isLit "join" = true)
    (hsame : dy.getProp (utf16 "room") = dx.getProp (utf16 "room"))
    (hroom : (dx.getProp (utf16 "room")).truthy = true)
    (hlog : (dx.getProp (utf16 "room")).toStringThrows = false)
    (hnew : JSMap.has st.rooms (dx.getProp (utf16 "room")).toKey = false) :
    sendsTo ((onMessage st x (some dx)).sends ++
        (onMessage (onMessage st x (some dx)).state y (some dy)).sends) x =
      [joinedMsg (dx.getProp (utf16 "room")) x, userJoinedMsg y (dx.getProp (utf16 "room"))] ∧
    sendsTo ((onMessage st x (some dx)).sends ++
        (onMessage (onMessage st x (some dx)).state y (some dy)).sends) y =
      [joinedMsg (dx.getProp (utf16 "room")) y] := by
  have hroom' : (dy.getProp (utf16 "room")).truthy = true := by rw [hsame]; exact hroom
  have hlog' : (dy.getProp (utf16 "room")).toStringThrows = false := by rw [hsame]; exact hlog
  have hst1 := onMessage_join_state st x dx htx hroom hlog
  have hWF1 : (onMessage st x (some dx)).state.WF := by
    rw [hst1]
    exact handleJoinRoom_WF st x _ hWF
  have hx1 : isOpen (onMessage st x (some dx)).state x = true := by
    rw [hst1, isOpen_handleJoinRoom]
    exact hx
  have hy1 : isOpen (onMessage st x (some dx)).state y = true := by
    rw [hst1, isOpen_handleJoinRoom]
    exact hy
  have hm0 : membersOf st (dx.getProp (utf16 "room")).toKey = [] := by
    unfold membersOf
    unfold JSMap.has at hnew
    cases hg : JSMap.get st.rooms (dx.getProp (utf16 "room")).toKey with
    | none => rfl
    | some room => simp [hg] at hnew
  have hm1 : membersOf (onMessage st x (some dx)).state (dx.getProp (utf16 "room")).toKey =
      [x] := by
    rw [hst1, membersOf_handleJoinRoom, hm0]
    rfl
  have hst2 := onMessage_join_state (onMessage st x (some dx)).state y dy hty hroom' hlog'
  have hm2 : x ∈ membersOf (onMessage (onMessage st x (some dx)).state y (some dy)).state
      (dx.getProp (utf16 "room")).toKey := by
    rw [hst2, hsame, membersOf_handleJoinRoom, hm1]
    exact (JSSet.mem_add _ _ _).2 (Or.inl (List.mem_singleton_self x))
  obtain ⟨-, -, h1x, h1o⟩ := join_effect st hWF x dx hx htx hroom hlog
  obtain ⟨-, -, h2y, h2o⟩ :=
    join_effect (onMessage st x (some dx)).state hWF1 y dy hy1 hty hroom' hlog'
  rw [hsame] at h2y h2o
  constructor
  · rw [sendsTo_append, h1x, h2o x hxy, if_pos ⟨hm2, hx1⟩]
    rfl
  · have hy_not : ¬ (y ∈ membersOf (onMessage st x (some dx)).state
        (dx.getProp (utf16 "room")).toKey ∧ isOpen st y = true) := by
      rw [hm1]
      rintro ⟨hmem, -⟩
      exact hxy (List.mem_singleton.1 hmem).symm
    rw [sendsTo_append, h1o y (Ne.symm hxy), if_neg hy_not, h2y]
    rfl

/-- C5: a join by a registered, open connection `u` with a non-empty room id `r`
puts `u` in the member set of `r` and records `r` as the room of `u`; `u` is sent
exactly one message, `joined` for `r` and `u`; every other member of `r` that is
registered and open is sent exactly one `user-joined` for `u` and `r`; nobody else
is sent anything. Scenario A: when `x` and then `y` join a room that does not
exist, `x` is sent one `joined` and one `user-joined`, and `y` one `joined` and no
`user-joined`. -/
theorem join_spec :
    (∀ (st : Relay) (u : UserId) (data : JSVal), st.WF → isOpen st u = true →
      (data.getProp (utf16 "type")).isLit "join" = true →
      (data.getProp (utf16 "room")).truthy = true →
      (data.getProp (utf16 "room")).toStringThrows = false →
      u ∈ membersOf (onMessage st u (some data)).state (data.getProp (utf16 "room")).toKey ∧
      roomOf (onMessage st u (some data)).state u = some (data.getProp (utf16 "room")) ∧
      sendsTo (onMessage st u (some data)).sends u =
        [joinedMsg (data.getProp (utf16 "room")) u] ∧
      (∀ v, v ≠ u → sendsTo (onMessage st u (some data)).sends v =
        if v ∈ membersOf (onMessage st u (some data)).state
              (data.getProp (utf16 "room")).toKey ∧ isOpen st v = true
        then [userJoinedMsg u (data.getProp (utf16 "room"))] else [])) ∧
    (∀ (st : Relay) (x y : UserId) (r : JSVal), st.WF → x ≠ y →
      isOpen st x = true → isOpen st y = true →
      r.truthy = true → r.toStringThrows = false → JSMap.has st.rooms r.toKey = false →
      sendsTo ((onMessage st x (some (joinEnvelope r))).sends ++
          (onMessage (onMessage st x (some (joinEnvelope r))).state y
            (some (joinEnvelope r))).sends) x = [joinedMsg r x, userJoinedMsg y r] ∧
      sendsTo ((onMessage st x (some (joinEnvelope r))).sends ++
          (onMessage (onMessage st x (some (joinEnvelope r))).state y
            (some (joinEnvelope r))).sends) y = [joinedMsg r y]) := by
  constructor
  · intro st u data hWF hopen htype hroom hlog
    exact join_effect st hWF u data hopen htype hroom hlog
  · intro st x y r hWF hxy hx hy hroom hlog hnew
    have hr : (joinEnvelope r).getProp (utf16 "room") = r := by rfl
    have ht : ((joinEnvelope r).getProp (utf16 "type")).isLit "join" = true := by rfl
    have := join_twice st hWF x y (joinEnvelope r) (joinEnvelope r) hxy hx hy ht ht rfl
      (by rw [hr]; exact hroom) (by rw [hr]; exact hlog) (by rw [hr]; exact hnew)
    rw [hr] at this
    exact this

theorem join_spec_witness :
    (alice ∈ membersOf (onMessage hall alice (some (joinEnvelope roomCode))).state
        roomCode.toKey ∧
      roomOf (onMessage hall alice (some (joinEnvelope roomCode))).state alice =
        some roomCode) ∧
    sendsTo ((onMessage hall alice (some (joinEnvelope roomCode))).sends ++
        (onMessage (onMessage hall alice (some (joinEnvelope roomCode))).state bob
          (some (joinEnvelope roomCode))).sends) alice =
      [joinedMsg roomCode alice, userJoinedMsg bob roomCode] ∧
    sendsTo ((onMessage hall alice (some (joinEnvelope roomCode))).sends ++
        (onMessage (onMessage hall alice (some (joinEnvelope roomCode))).state bob
          (some (joinEnvelope roomCode))).sends) bob = [joinedMsg roomCode bob] :=
  have h1 := join_spec.1 hall alice (joinEnvelope roomCode) hall_WF (by decide) (by decide)
    (by decide) (by decide)
  have h2 := join_spec.2 hall alice bob roomCode hall_WF (by decide) (by decide) (by decide)
    (by decide) (by decide) (by decide)
  ⟨⟨h1.1, h1.2.1⟩, h2.1, h2.2⟩

/-! ## Rejected joins and unreadable messages -/

theorem obj_of_isLit_getProp {v : JSVal} {k : JSString} {lit : String}
    (h : (v.getProp k).isLit lit = true) : v.isNullish = false := by
  cases v with
  | obj r props => rfl
  | _ => simp [JSVal.getProp, JSVal.isLit] at h

/-- C6: whatever the registries, a join envelope whose room is missing or empty
(`undefined`, `null`, the empty string, and likewise `false` and `0`) makes
exactly one send, `{ type: 'error', message: 'Invalid room ID' }` to the sender,
and leaves `connections` and `rooms` as they are. -/
theorem join_without_room (st : Relay) (u : UserId) (data : JSVal)
    (htype : (data.getProp (utf16 "type")).isLit "join" = true)
    (hroom : data.getProp (utf16 "room") = .undefined ∨ data.getProp (utf16 "room") = .null ∨
      data.getProp (utf16 "room") = .str [] ∨ (data.getProp (utf16 "room")).truthy = false) :
    (onMessage st u (some data)).sends = [{ dest := u, message := invalidRoomMsg }] ∧
    (onMessage st u (some data)).state = st ∧
    (onMessage st u (some data)).threw = false := by
  have hfalsy : (data.getProp (utf16 "room")).truthy = false := by
    rcases hroom with h | h | h | h
    · rw [h]; rfl
    · rw [h]; rfl
    · rw [h]; rfl
    · exact h
  have hn := obj_of_isLit_getProp htype
  have ht := getProp_type_stamp data u
  have hr := getProp_room_stamp data u
  unfold stamp at ht hr
  have hlog := toStringThrows_of_not_truthy hfalsy
  simp [onMessage, messageBody, hn, ht, hr, htype, hfalsy, hlog]

theorem join_without_room_witness :
    (onMessage lobby carol (some (objLit [("type", .str (utf16 "join"))]))).sends =
      [{ dest := carol, message := invalidRoomMsg }] ∧
    (onMessage lobby carol (some (joinEnvelope (.str [])))).sends =
      [{ dest := carol, message := invalidRoomMsg }] ∧
    (onMessage lobby carol (some (joinEnvelope .null))).state = lobby :=
  ⟨(join_without_room lobby carol (objLit [("type", .str (utf16 "join"))]) (by decide)
      (Or.inl (by rfl))).1,
    (join_without_room lobby carol (joinEnvelope (.str [])) (by decide)
      (Or.inr (Or.inr (Or.inl (by rfl))))).1,
    (join_without_room lobby carol (joinEnvelope .null) (by decide)
      (Or.inr (Or.inl (by rfl)))).2.1⟩

/-- C7 (what the code does): the join handler never calls `validateRoomCode`. A
join with the room id `abc`, which the validator rejects, is accepted: the room
`abc` is created with the sender as its member, the sender is told `joined`, and
no error is sent. -/
theorem join_invalid_code_accepted :
    validateRoomCode (.val (.str (utf16 "abc"))) = false ∧
    (onMessage hall alice (some (joinEnvelope (.str (utf16 "abc"))))).sends =
      [{ dest := alice, message := joinedMsg (.str (utf16 "abc")) alice }] ∧
    (onMessage hall alice (some (joinEnvelope (.str (utf16 "abc"))))).state.rooms =
      [(.str (utf16 "abc"), [alice])] ∧
    roomOf (onMessage hall alice (some (joinEnvelope (.str (utf16 "abc"))))).state alice =
      some (.str (utf16 "abc")) :=
  ⟨by decide, by rfl, by decide, by rfl⟩

/-- C8 (what the code does): a message that is not valid JSON, and the JSON text
`null`, make no send at all: the sender is sent no error envelope. -/
theorem unparseable_not_reported :
    (onMessage lobby alice none).sends = [] ∧
    (onMessage lobby alice (some .null)).sends = [] ∧
    sendsTo (onMessage lobby alice none).sends alice ≠ [invalidRoomMsg] :=
  ⟨by rfl, by rfl, by
    intro h
    exact absurd (congrArg List.length h) (by decide)⟩

theorem messageBody_state_sends_of_no_type (st : Relay) (u : UserId) (v : JSVal)
    (h : v.getProp (utf16 "type") = .undefined) :
    (messageBody st u (some v)).state = st ∧
    ((messageBody st u (some v)).sends = [] ∨
      ((v.getProp (utf16 "room")).truthy = true ∧
        (messageBody st u (some v)).sends = forwardMessageToRoom st u (stamp v u))) := by
  have ht := getProp_type_stamp v u
  have hr := getProp_room_stamp v u
  unfold stamp at ht hr
  rw [h] at ht
  by_cases hn : v.isNullish = true
  · simp [messageBody, hn]
  · have hn' : v.isNullish = false := by simpa using hn
    by_cases hroom : (v.getProp (utf16 "room")).truthy = true
    · by_cases hlog : (v.getProp (utf16 "room")).toStringThrows = true
      · simp [messageBody, hn', ht, hr, hroom, hlog, JSVal.isLit, JSVal.toStringThrows]
      · have hlog' : (v.getProp (utf16 "room")).toStringThrows = false := by simpa using hlog
        simp [messageBody, hn', ht, hr, hroom, hlog', JSVal.isLit, JSVal.toStringThrows, stamp]
    · have hroom' : (v.getProp (utf16 "room")).truthy = false := by simpa using hroom
      simp [messageBody, hn', ht, hr, hroom', JSVal.isLit, JSVal.toStringThrows]

/-- C8 (amended): a message that cannot be read as an envelope (text that is not
valid JSON, or JSON without a type field, such as `null`) leaves both registries
as they are, makes no send to the sender, and does not make the handler throw;
unless the value has a non-empty room, it makes no send at all. -/
theorem unparseable_dropped (st : Relay) (u : UserId) (parsed : Option JSVal)
    (h : parsed = none ∨ ∃ v, parsed = some v ∧ v.getProp (utf16 "type") = .undefined) :
    (onMessage st u parsed).state = st ∧
    (onMessage st u parsed).threw = false ∧
    sendsTo (onMessage st u parsed).sends u = [] ∧
    ((parsed = none ∨ ∃ v, parsed = some v ∧ (v.getProp (utf16 "room")).truthy = false) →
      (onMessage st u parsed).sends = []) := by
  rcases h with rfl | ⟨v, rfl, hv⟩
  · exact ⟨rfl, rfl, rfl, fun _ => rfl⟩
  · obtain ⟨hst, hsends⟩ := messageBody_state_sends_of_no_type st u v hv
    refine ⟨hst, rfl, ?_, ?_⟩
    · rcases hsends with hs | ⟨-, hs⟩
      · simp only [onMessage, hs]
        rfl
      · simp only [onMessage, hs]
        exact forwardMessageToRoom_excludes st u _
    · rintro (h0 | ⟨w, hw, hroom⟩)
      · exact absurd h0 (by simp)
      · have hwv : v = w := Option.some.inj hw
        subst hwv
        rcases hsends with hs | ⟨ht, -⟩
        · simp only [onMessage, hs]
        · rw [hroom] at ht
          exact Bool.noConfusion ht

theorem unparseable_dropped_witness :
    (onMessage lobby alice none).state = lobby ∧
    (onMessage lobby alice (some .null)).sends = [] ∧
    (onMessage lobby alice (some (.num (.finite 5)))).sends = [] :=
  ⟨(unparseable_dropped lobby alice none (Or.inl rfl)).1,
    (unparseable_dropped lobby alice (some .null) (Or.inr ⟨.null, rfl, by rfl⟩)).2.2.2
      (Or.inr ⟨.null, rfl, by rfl⟩),
    (unparseable_dropped lobby alice (some (.num (.finite 5)))
      (Or.inr ⟨.num (.finite 5), rfl, by rfl⟩)).2.2.2
      (Or.inr ⟨.num (.finite 5), rfl, by rfl⟩)⟩

/-! ## Closing -/

/-- The `close` handler of a connection with a recorded room, spelled out. -/
theorem onClose_recorded (st : Relay) (u : UserId) (c : Connection)
    (hc : JSMap.get st.connections u = some c) (hr : c.roomId.truthy = true) :
    onClose st u =
      { state :=
          { connections := JSMap.delete st.connections u,
            rooms :=
              match JSMap.get st.rooms c.roomId.toKey with
              | some room =>
                if (JSSet.delete room u).length = 0 then JSMap.delete st.rooms c.roomId.toKey
                else JSMap.set st.rooms c.roomId.toKey (JSSet.delete room u)
              | none => st.rooms },
        sends := notifyUserLeft st u c.roomId, threw := false } := by
  simp only [onClose, hc, hr, if_true]
  cases JSMap.get st.rooms c.roomId.toKey with
  | none => rfl
  | some room =>
    by_cases h : (JSSet.delete room u).length = 0
    · simp only [h, if_true]
    · simp only [h, if_false]

/-- The `close` handler of a connection without a recorded room, spelled out. -/
theorem onClose_unrecorded (st : Relay) (u : UserId)
    (h : JSMap.get st.connections u = none ∨
      ∃ c, JSMap.get st.connections u = some c ∧ c.roomId.truthy = false) :
    onClose st u =
      { state := { connections := JSMap.delete st.connections u, rooms := st.rooms },
        sends := [], threw := false } := by
  rcases h with h | ⟨c, hc, hr⟩
  · simp only [onClose, h]
  · simp [onClose, hc, hr]

theorem membersOf_onClose (st : Relay) (u : UserId) (c : Connection)
    (hc : JSMap.get st.connections u = some c) (hr : c.roomId.truthy = true) :
    membersOf (onClose st u).state c.roomId.toKey =
      JSSet.delete (membersOf st c.roomId.toKey) u := by
  rw [onClose_recorded st u c hc hr]
  unfold membersOf
  cases hg : JSMap.get st.rooms c.roomId.toKey with
  | none => simp [hg, JSSet.delete]
  | some room =>
    by_cases h : (JSSet.delete room u).length = 0
    · simp only [h, if_true, JSMap.get_delete_same, Option.getD_none, Option.getD_some]
      exact (List.length_eq_zero.1 h).symm
    · simp only [h, if_false, JSMap.get_set_same, Option.getD_some]

theorem has_onClose (st : Relay) (u : UserId) (c : Connection)
    (hc : JSMap.get st.connections u = some c) (hr : c.roomId.truthy = true) :
    JSMap.has (onClose st u).state.rooms c.roomId.toKey = false ↔
      JSSet.delete (membersOf st c.roomId.toKey) u = [] := by
  rw [onClose_recorded st u c hc hr]
  unfold membersOf JSMap.has
  cases hg : JSMap.get st.rooms c.roomId.toKey with
  | none => simp [hg, JSSet.delete]
  | some room =>
    by_cases h : (JSSet.delete room u).length = 0
    · simp only [h, if_true, JSMap.get_delete_same, Option.getD_some]
      simpa using List.length_eq_zero.1 h
    · simp only [h, if_false, JSMap.get_set_same, Option.getD_some]
      have : JSSet.delete room u ≠ [] := fun h0 => h (by rw [h0]; rfl)
      simpa using this

theorem rooms_onClose_other (st : Relay) (u : UserId) (c : Connection)
    (hc : JSMap.get st.connections u = some c) (hr : c.roomId.truthy = true) (k : MapKey)
    (hk : k ≠ c.roomId.toKey) :
    JSMap.get (onClose st u).state.rooms k = JSMap.get st.rooms k := by
  rw [onClose_recorded st u c hc hr]
  cases hg : JSMap.get st.rooms c.roomId.toKey with
  | none => rfl
  | some room =>
    by_cases h : (JSSet.delete room u).length = 0
    · simp only [h, if_true]
      exact JSMap.get_delete_other _ _ _ hk
    · simp only [h, if_false]
      exact JSMap.get_set_other _ _ _ _ hk

theorem connections_onClose (st : Relay) (u : UserId) :
    (onClose st u).state.connections = JSMap.delete st.connections u := rfl

theorem sendsTo_notifyUserLeft (st : Relay) (hWF : st.WF) (u v : UserId) (r : JSVal) :
    sendsTo (notifyUserLeft st u r) v =
      if v ∈ membersOf st r.toKey ∧ v ≠ u ∧ isOpen st v = true
      then [userLeftMsg u r] else [] := by
  rw [notifyUserLeft_eq, sendsTo_fanOut _ _ _ _ (nodup_membersOf hWF _)]
  simp

/-- C9: when a connection `u` whose recorded room is `r` closes, every other
member of `r` that is registered and open is sent exactly one `user-left` for `u`
and `r`, and `u` and everybody else nothing; afterwards `u` is not a member of
`r` and not a key of `connections`, `r` is out of `rooms` exactly when its member
set became empty, and every other room and every other connection entry is as
before. When `u` has no recorded room, closing sends nothing and only removes `u`
from `connections`. -/
theorem close_spec :
    (∀ (st : Relay) (u : UserId) (c : Connection), st.WF →
      JSMap.get st.connections u = some c → c.roomId.truthy = true →
      (∀ v, v ≠ u → sendsTo (onClose st u).sends v =
        if v ∈ membersOf st c.roomId.toKey ∧ isOpen st v = true
        then [userLeftMsg u c.roomId] else []) ∧
      sendsTo (onClose st u).sends u = [] ∧
      u ∉ membersOf (onClose st u).state c.roomId.toKey ∧
      JSMap.get (onClose st u).state.connections u = none ∧
      (JSMap.has (onClose st u).state.rooms c.roomId.toKey = false ↔
        JSSet.delete (membersOf st c.roomId.toKey) u = []) ∧
      membersOf (onClose st u).state c.roomId.toKey =
        JSSet.delete (membersOf st c.roomId.toKey) u ∧
      (∀ k, k ≠ c.roomId.toKey →
        JSMap.get (onClose st u).state.rooms k = JSMap.get st.rooms k) ∧
      (∀ v, v ≠ u →
        JSMap.get (onClose st u).state.connections v = JSMap.get st.connections v)) ∧
    (∀ (st : Relay) (u : UserId),
      (JSMap.get st.connections u = none ∨
        ∃ c, JSMap.get st.connections u = some c ∧ c.roomId.truthy = false) →
      (onClose st u).sends = [] ∧
      (onClose st u).state.rooms = st.rooms ∧
      (onClose st u).state.connections = JSMap.delete st.connections u) := by
  constructor
  · intro st u c hWF hc hr
    have hsends : (onClose st u).sends = notifyUserLeft st u c.roomId := by
      rw [onClose_recorded st u c hc hr]
    refine ⟨?_, ?_, ?_, ?_, has_onClose st u c hc hr, membersOf_onClose st u c hc hr,
      fun k hk => rooms_onClose_other st u c hc hr k hk, ?_⟩
    · intro v hv
      rw [hsends, sendsTo_notifyUserLeft st hWF]
      simp [hv]
    · rw [hsends]
      exact notifyUserLeft_excludes st u c.roomId
    · rw [membersOf_onClose st u c hc hr, JSSet.mem_delete_iff]
      exact fun h => h.2 rfl
    · rw [connections_onClose]
      exact JSMap.get_delete_same _ _
    · intro v hv
      rw [connections_onClose]
      exact JSMap.get_delete_other _ _ _ hv
  · intro st u h
    rw [onClose_unrecorded st u h]
    exact ⟨rfl, rfl, rfl⟩

theorem close_spec_witness :
    sendsTo (onClose lobby alice).sends bob = [userLeftMsg alice roomCode] ∧
    sendsTo (onClose lobby alice).sends alice = [] ∧
    membersOf (onClose lobby alice).state roomCode.toKey = [bob] ∧
    (onClose hall alice).sends = [] ∧
    (onClose hall alice).state.rooms = hall.rooms :=
  have h := close_spec.1 lobby alice ⟨1, roomCode⟩ lobby_WF (by rfl) (by rfl)
  have h' := close_spec.2 hall alice (Or.inr ⟨⟨1, .null⟩, by rfl, by rfl⟩)
  ⟨(h.1 bob (by decide)).trans (by rfl), h.2.1, h.2.2.2.2.2.1.trans (by rfl), h'.1, h'.2.1⟩

/-! ## Rooms exist exactly while they have members -/

theorem handleJoinRoom_rooms_mem (st : Relay) (u : UserId) (r : JSVal)
    (p : MapKey × List UserId) (hp : p ∈ (handleJoinRoom st u r).state.rooms) :
    p = (r.toKey, JSSet.add (membersOf st r.toKey) u) ∨ p ∈ st.rooms := by
  rw [handleJoinRoom_state] at hp
  simp only [get_created, Option.getD_some] at hp
  cases hg : JSMap.get st.rooms r.toKey with
  | none =>
    have hhas : JSMap.has st.rooms r.toKey = false := by simp [JSMap.has, hg]
    simp only [hhas, Bool.not_false, if_true, JSMap.set_set_new _ _ _ _ hg] at hp
    exact JSMap.mem_set hp
  | some room =>
    have hhas : JSMap.has st.rooms r.toKey = true := by simp [JSMap.has, hg]
    simp only [hhas, Bool.not_true] at hp
    exact JSMap.mem_set hp

theorem noEmptyRoom_handleJoinRoom {st : Relay} (h : NoEmptyRoom st) (u : UserId) (r : JSVal) :
    NoEmptyRoom (handleJoinRoom st u r).state := by
  intro p hp
  rcases handleJoinRoom_rooms_mem st u r p hp with hp | hp
  · rw [hp]
    exact JSSet.add_ne_nil _ _
  · exact h p hp

theorem noEmptyRoom_onClose {st : Relay} (h : NoEmptyRoom st) (u : UserId) :
    NoEmptyRoom (onClose st u).state := by
  cases hc : JSMap.get st.connections u with
  | none =>
    rw [onClose_unrecorded st u (Or.inl hc)]
    exact h
  | some c =>
    by_cases hr : c.roomId.truthy = true
    · rw [onClose_recorded st u c hc hr]
      intro p hp
      simp only at hp
      cases hg : JSMap.get st.rooms c.roomId.toKey with
      | none =>
        rw [hg] at hp
        exact h p hp
      | some room =>
        rw [hg] at hp
        simp only at hp
        split at hp
        · exact h p (JSMap.mem_of_mem_delete hp)
        · rename_i hlen
          rcases JSMap.mem_set hp with hp | hp
          · rw [hp]
            intro h0
            have h0' : JSSet.delete room u = [] := h0
            exact hlen (by rw [h0']; rfl)
          · exact h p hp
    · rw [onClose_unrecorded st u (Or.inr ⟨c, hc, by simpa using hr⟩)]
      exact h

theorem messageBody_state (st : Relay) (u : UserId) (parsed : Option JSVal) :
    (messageBody st u parsed).state = st ∨
      ∃ r, (messageBody st u parsed).state = (handleJoinRoom st u r).state := by
  simp only [messageBody]
  split
  · exact Or.inl rfl
  · split_ifs <;> first | exact Or.inl rfl | exact Or.inr ⟨_, rfl⟩

theorem noEmptyRoom_step {st : Relay} (h : NoEmptyRoom st) (e : Event) :
    NoEmptyRoom (step st e).state := by
  cases e with
  | connect u => exact h
  | message u parsed =>
    show NoEmptyRoom (messageBody st u parsed).state
    rcases messageBody_state st u parsed with hs | ⟨r, hs⟩
    · rw [hs]
      exact h
    · rw [hs]
      exact noEmptyRoom_handleJoinRoom h u r
  | close u => exact noEmptyRoom_onClose h u
  | readyState u value =>
    show NoEmptyRoom (setReadyState st u value)
    unfold setReadyState
    split
    · exact h
    · exact h

theorem noEmptyRoom_foldl (events : List Event) {st : Relay} (h : NoEmptyRoom st) :
    NoEmptyRoom (events.foldl (fun st e => (P2P.step st e).state) st) := by
  induction events generalizing st with
  | nil => exact h
  | cons e events ih => exact ih (noEmptyRoom_step h e)

theorem noEmptyRoom_run (events : List Event) : NoEmptyRoom (run events) :=
  noEmptyRoom_foldl events (fun _ hp => absurd hp (List.not_mem_nil _))

/-- C10: in every state the relay reaches from the empty registries by connect,
message and close events, a room id is a key of `rooms` exactly when its member
set is not empty, no room of the map has an empty member set, and a join with a
room id that is not in the map creates the room with the joiner as its only
member. -/
theorem room_exists_iff_members (events : List Event) :
    (∀ k, JSMap.has (run events).rooms k = true ↔ membersOf (run events) k ≠ []) ∧
    (∀ p ∈ (run events).rooms, p.2 ≠ []) ∧
    (∀ (u : UserId) (r : JSVal), r.truthy = true → r.toStringThrows = false →
      JSMap.has (run events).rooms r.toKey = false →
      JSMap.get (onMessage (run events) u (some (joinEnvelope r))).state.rooms r.toKey =
        some [u]) := by
  have hinv := noEmptyRoom_run events
  refine ⟨?_, hinv, ?_⟩
  · intro k
    unfold JSMap.has membersOf
    cases hg : JSMap.get (run events).rooms k with
    | none => simp
    | some room =>
      have := hinv _ (JSMap.mem_of_get hg)
      simpa using this
  · intro u r hroom hlog hnew
    have hr : (joinEnvelope r).getProp (utf16 "room") = r := by rfl
    have ht : ((joinEnvelope r).getProp (utf16 "type")).isLit "join" = true := by rfl
    rw [onMessage_join_state _ u (joinEnvelope r) ht (by rw [hr]; exact hroom)
      (by rw [hr]; exact hlog), hr, handleJoinRoom_rooms_same]
    have hm0 : membersOf (run events) r.toKey = [] := by
      unfold membersOf
      unfold JSMap.has at hnew
      cases hg : JSMap.get (run events).rooms r.toKey with
      | none => rfl
      | some room => simp [hg] at hnew
    rw [hm0]
    rfl

theorem room_exists_iff_members_witness :
    (JSMap.has lobby.rooms roomCode.toKey = true ↔ membersOf lobby roomCode.toKey ≠ []) ∧
    JSMap.get (onMessage hall carol (some (joinEnvelope roomCode))).state.rooms
      roomCode.toKey = some [carol] :=
  ⟨(room_exists_iff_members [.connect alice, .connect bob,
      .message alice (some (joinEnvelope roomCode)),
      .message bob (some (joinEnvelope roomCode))]).1 roomCode.toKey,
    (room_exists_iff_members [.connect alice, .connect bob]).2.2 carol roomCode
      (by decide) (by decide) (by decide)⟩

/-! ## One room per connection -/

/-- C11 (what the code does): `handleJoinRoom` adds the joiner to the new room and
overwrites its recorded room, but does not take it out of the room it was in.
After `alice` joins `AB12CD` and then `ZZ99ZZ` she is a member of both rooms while
her recorded room is `ZZ99ZZ`, so membership in `AB12CD` has no matching record. -/
theorem join_second_room_keeps_first :
    alice ∈ membersOf switched roomCode.toKey ∧
    alice ∈ membersOf switched otherRoom.toKey ∧
    roomOf switched alice = some otherRoom ∧
    otherRoom.toKey ≠ roomCode.toKey :=
  ⟨by decide, by decide, by rfl, by decide⟩

/-- C12 (what the code does): the `close` handler removes the connection from its
recorded room only. After `alice` joined `AB12CD` and then `ZZ99ZZ`, her close
leaves her in the member set of `AB12CD`, a room that then stays in the map
though no registered connection is in it. -/
theorem close_leaves_earlier_room :
    alice ∈ membersOf (onClose switched alice).state roomCode.toKey ∧
    (onClose switched alice).state.rooms = [(roomCode.toKey, [alice])] ∧
    JSMap.has (onClose switched alice).state.connections alice = false :=
  ⟨by decide, by decide, by decide⟩

/-! ## Registries without repetition -/

theorem onConnection_WF (st : Relay) (u : UserId) (h : st.WF) : (onConnection st u).state.WF :=
  ⟨JSMap.nodup_keys_set _ _ h.connections, h.rooms, h.members⟩

theorem onClose_WF (st : Relay) (u : UserId) (h : st.WF) : (onClose st u).state.WF := by
  cases hc : JSMap.get st.connections u with
  | none =>
    rw [onClose_unrecorded st u (Or.inl hc)]
    exact ⟨JSMap.nodup_keys_delete _ h.connections, h.rooms, h.members⟩
  | some c =>
    by_cases hr : c.roomId.truthy = true
    · rw [onClose_recorded st u c hc hr]
      cases hg : JSMap.get st.rooms c.roomId.toKey with
      | none => exact ⟨JSMap.nodup_keys_delete _ h.connections, h.rooms, h.members⟩
      | some room =>
        have hroom : room.Nodup := h.members _ (JSMap.mem_of_get hg)
        by_cases hlen : (JSSet.delete room u).length = 0
        · simp only [hlen, if_true]
          exact ⟨JSMap.nodup_keys_delete _ h.connections, JSMap.nodup_keys_delete _ h.rooms,
            fun p hp => h.members p (JSMap.mem_of_mem_delete hp)⟩
        · simp only [hlen, if_false]
          refine ⟨JSMap.nodup_keys_delete _ h.connections, JSMap.nodup_keys_set _ _ h.rooms, ?_⟩
          intro p hp
          rcases JSMap.mem_set hp with hp | hp
          · rw [hp]
            exact JSSet.nodup_delete _ hroom
          · exact h.members p hp
    · rw [onClose_unrecorded st u (Or.inr ⟨c, hc, by simpa using hr⟩)]
      exact ⟨JSMap.nodup_keys_delete _ h.connections, h.rooms, h.members⟩

theorem step_WF (st : Relay) (e : Event) (h : st.WF) : (step st e).state.WF := by
  cases e with
  | connect u => exact onConnection_WF st u h
  | message u parsed =>
    show (messageBody st u parsed).state.WF
    rcases messageBody_state st u parsed with hs | ⟨r, hs⟩
    · rw [hs]
      exact h
    · rw [hs]
      exact handleJoinRoom_WF st u r h
  | close u => exact onClose_WF st u h
  | readyState u value =>
    show (setReadyState st u value).WF
    unfold setReadyState
    split
    · exact ⟨JSMap.nodup_keys_set _ _ h.connections, h.rooms, h.members⟩
    · exact h

theorem foldl_WF (events : List Event) {st : Relay} (h : st.WF) :
    (events.foldl (fun st e => (step st e).state) st).WF := by
  induction events generalizing st with
  | nil => exact h
  | cons e events ih => exact ih (step_WF st e h)

theorem run_WF (events : List Event) : (run events).WF :=
  foldl_WF events ⟨List.nodup_nil, List.nodup_nil, fun _ hp => absurd hp (List.not_mem_nil _)⟩

/-- C13 (what the code does): the relay has no limit on the size of a room. When
three connections join `AB12CD` its member set holds three distinct ids. -/
theorem room_of_three :
    membersOf crowded roomCode.toKey = [alice, bob, carol] ∧
    (membersOf crowded roomCode.toKey).Nodup ∧
    ¬ (membersOf crowded roomCode.toKey).length ≤ 2 :=
  ⟨by decide, by decide, by decide⟩

/-- C13 (amended): in every state the relay reaches by connect, join and close
events the ids of a room's member set are pairwise distinct, and their number is
not bounded: a join adds the joiner to the member set whatever its size, so a
room that the joiner is not in grows by one. -/
theorem members_distinct_unbounded (events : List Event) :
    (∀ k, (membersOf (run events) k).Nodup) ∧
    (∀ (u : UserId) (r : JSVal), r.truthy = true → r.toStringThrows = false →
      membersOf (onMessage (run events) u (some (joinEnvelope r))).state r.toKey =
        JSSet.add (membersOf (run events) r.toKey) u ∧
      (u ∉ membersOf (run events) r.toKey →
        (membersOf (onMessage (run events) u (some (joinEnvelope r))).state r.toKey).length =
          (membersOf (run events) r.toKey).length + 1)) := by
  refine ⟨fun k => nodup_membersOf (run_WF events) k, ?_⟩
  intro u r hroom hlog
  have hr : (joinEnvelope r).getProp (utf16 "room") = r := by rfl
  have ht : ((joinEnvelope r).getProp (utf16 "type")).isLit "join" = true := by rfl
  have hst := onMessage_join_state (run events) u (joinEnvelope r) ht (by rw [hr]; exact hroom)
    (by rw [hr]; exact hlog)
  rw [hr] at hst
  rw [hst, membersOf_handleJoinRoom]
  refine ⟨rfl, ?_⟩
  intro hu
  simp [JSSet.add, hu]

theorem members_distinct_unbounded_witness :
    (membersOf lobby roomCode.toKey).Nodup ∧
    (membersOf (onMessage lobby carol (some (joinEnvelope roomCode))).state
      roomCode.toKey).length = 3 :=
  have h := members_distinct_unbounded [.connect alice, .connect bob,
    .message alice (some (joinEnvelope roomCode)), .message bob (some (joinEnvelope roomCode))]
  ⟨h.1 roomCode.toKey, ((h.2 carol roomCode (by decide) (by decide)).2 (by decide)).trans
    (by decide)⟩

/-! ## Dropped envelopes -/

theorem forwardMessageToRoom_unknown_room (st : Relay) (s : UserId) (data : JSVal)
    (h : JSMap.has st.rooms (data.getProp (utf16 "room")).toKey = false) :
    forwardMessageToRoom st s data = [] := by
  unfold JSMap.has at h
  simp only [forwardMessageToRoom]
  cases hg : JSMap.get st.rooms (data.getProp (utf16 "room")).toKey with
  | none => rfl
  | some room => simp [hg] at h

theorem messageBody_dropped (st : Relay) (u : UserId) (data : JSVal)
    (hjoin : (data.getProp (utf16 "type")).isLit "join" = false)
    (hdrop : (data.getProp (utf16 "room")).truthy = false ∨
      JSMap.has st.rooms (data.getProp (utf16 "room")).toKey = false) :
    (messageBody st u (some data)).state = st ∧ (messageBody st u (some data)).sends = [] := by
  have ht := getProp_type_stamp data u
  have hr := getProp_room_stamp data u
  unfold stamp at ht hr
  have hfwd : (data.getProp (utf16 "room")).truthy = true →
      forwardMessageToRoom st u (data.setProp (utf16 "senderId") (.str u)) = [] := by
    intro htruthy
    rcases hdrop with h | h
    · rw [h] at htruthy
      exact Bool.noConfusion htruthy
    · exact forwardMessageToRoom_unknown_room st u _ (by rw [hr]; exact h)
  simp only [messageBody, ht, hr, hjoin, Bool.false_eq_true, if_false]
  split_ifs <;> first
    | exact ⟨rfl, rfl⟩
    | (refine ⟨rfl, ?_⟩
       apply hfwd
       simp_all)

/-- C14: a non-join envelope that is dropped has no effect. Whatever the
registries, an envelope of any type other than `join` (unrecognized, offer,
answer, ice-candidate or candidate) that has no room, or whose room is not in the
rooms map, makes no send to any connection (so no error envelope to the sender)
and leaves both registries as they are. -/
theorem dropped_no_effect (st : Relay) (u : UserId) (data : JSVal)
    (hjoin : (data.getProp (utf16 "type")).isLit "join" = false)
    (hdrop : (data.getProp (utf16 "room")).truthy = false ∨
      JSMap.has st.rooms (data.getProp (utf16 "room")).toKey = false) :
    (onMessage st u (some data)).sends = [] ∧
    (onMessage st u (some data)).state = st ∧
    (onMessage st u (some data)).threw = false := by
  obtain ⟨hst, hsends⟩ := messageBody_dropped st u data hjoin hdrop
  exact ⟨hsends, hst, rfl⟩

theorem dropped_no_effect_witness :
    (onMessage lobby alice (some (objLit [("type", .str (utf16 "hello"))]))).sends = [] ∧
    (onMessage lobby alice (some (objLit [("type", .str (utf16 "offer"))]))).sends = [] ∧
    (onMessage lobby alice (some (objLit [("type", .str (utf16 "ice-candidate")),
      ("room", otherRoom)]))).state = lobby :=
  ⟨(dropped_no_effect lobby alice (objLit [("type", .str (utf16 "hello"))]) (by decide)
      (Or.inl (by decide))).1,
    (dropped_no_effect lobby alice (objLit [("type", .str (utf16 "offer"))]) (by decide)
      (Or.inl (by decide))).1,
    (dropped_no_effect lobby alice (objLit [("type", .str (utf16 "ice-candidate")),
      ("room", otherRoom)]) (by decide) (Or.inr (by decide))).2.1⟩

/-! ## File ids -/

theorem hashStep_eq (h : Int) (c : Nat) : hashStep h c = toInt32 (31 * h + c) := by
  simp only [hashStep, toInt32]
  omega

theorem foldl_hashStep_eq (s : JSString) (h : Int) :
    s.foldl hashStep h = s.foldl (fun (h : Int) (c : Nat) => toInt32 (31 * h + c)) h := by
  induction s generalizing h with
  | nil => rfl
  | cons c s ih => simp only [List.foldl_cons, hashStep_eq, ih]

theorem idString_congr (f g : File) (hname : f.name = g.name) (hsize : f.size = g.size)
    (hmod : f.lastModified = g.lastModified) : idString f = idString g := by
  unfold idString
  rw [hname, hsize, hmod]

/-- C15: the file id is a function of the name, the size and the modification
time only. Two files that agree on the three have the same `Utils.generateFileId`,
whatever their content and other fields; `generateFileId` of App.js gives the same
string; and the string is `file-` followed by the absolute value of the hash
`h := 31 * h + charCode`, wrapped to 32 bits, of the string name-size-lastModified. -/
theorem fileId_deterministic (f g : File) (hname : f.name = g.name) (hsize : f.size = g.size)
    (hmod : f.lastModified = g.lastModified) :
    Utils.generateFileId f = Utils.generateFileId g ∧
    App.generateFileId f = Utils.generateFileId f ∧
    App.generateFileId g = Utils.generateFileId f ∧
    Utils.generateFileId f =
      utf16 "file-" ++ numberToString
        (wrappedHash31 (f.name ++ utf16 "-" ++ numberToString f.size ++ utf16 "-" ++
          numberToString f.lastModified)).natAbs := by
  have hid := idString_congr f g hname hsize hmod
  refine ⟨?_, rfl, ?_, ?_⟩
  · unfold Utils.generateFileId
    rw [hid]
  · unfold Utils.generateFileId App.generateFileId
    rw [hid]
  · unfold Utils.generateFileId wrappedHash31
    rw [foldl_hashStep_eq]
    rfl

theorem fileId_deterministic_witness :
    Utils.generateFileId smallFile =
      Utils.generateFileId { smallFile with bytes := [4, 5, 6], type := utf16 "text/plain" } ∧
    App.generateFileId smallFile = Utils.generateFileId smallFile :=
  have h := fileId_deterministic smallFile
    { smallFile with bytes := [4, 5, 6], type := utf16 "text/plain" } rfl rfl rfl
  ⟨h.1, h.2.1⟩

/-! ## The frames of the sender -/

theorem chunkSize_eq : CONFIG.CHUNK_SIZE = 16384 := rfl

theorem length_chunkOf (bytes : List Nat) (k : Nat) :
    (chunkOf bytes k).length = min ((k + 1) * 16384) bytes.length - k * 16384 := by
  unfold chunkOf
  rw [chunkSize_eq, List.length_take, List.length_drop]
  omega

theorem slice_eq_chunkOf (file : File) (k : Nat) :
    file.slice (k * CONFIG.CHUNK_SIZE) (min (k * CONFIG.CHUNK_SIZE + CONFIG.CHUNK_SIZE) file.size) =
      chunkOf file.bytes k := by
  unfold File.slice chunkOf File.size
  rw [Nat.succ_mul]

/-- The two frames of chunk `k`: its descriptor, then its bytes. -/
theorem sendChunkLoop_ready (file : File) (total : Nat) (t : Nat) :
    ∀ (d sent : Nat), sent + d + 1 = max total (sent + 1) →
      (sendChunkLoop alwaysReady file total sent t).frames =
        ((List.range' sent (d + 1)).flatMap fun k =>
          [Frame.message (.fileChunk (descriptorOf file total k)),
            Frame.payload (chunkOf file.bytes k)]) ++
          [Frame.message (.transferComplete (completeOf file))] ∧
      (sendChunkLoop alwaysReady file total sent t).resolved = true := by
  intro d
  induction d generalizing t with
  | zero =>
    intro sent h
    have hlast : ¬ sent + 1 < total := by omega
    rw [sendChunkLoop]
    simp [alwaysReady, connectionSend, hlast, slice_eq_chunkOf, descriptorOf, completeOf,
      List.range'_succ]
  | succ d ih =>
    intro sent h
    have hmore : sent + 1 < total := by omega
    obtain ⟨hf, hr⟩ := ih (t + 3) (sent + 1) (by omega)
    rw [sendChunkLoop]
    simp only [alwaysReady, connectionSend, hmore, slice_eq_chunkOf, hf, hr]
    simp [descriptorOf, List.range'_succ]

theorem flatten_chunks (bytes : List Nat) (m : Nat) :
    ((List.range m).map (chunkOf bytes)).flatten = bytes.take (m * 16384) := by
  induction m with
  | zero => simp
  | succ m ih =>
    rw [List.range_succ, List.map_append, List.flatten_append, ih]
    simp only [List.map_cons, List.map_nil, List.flatten_cons, List.flatten_nil,
      List.append_nil]
    unfold chunkOf
    rw [chunkSize_eq, ← List.take_add]
    rw [List.take_eq_take]
    omega

theorem ceilDiv_chunk (size : Nat) : ceilDiv size CONFIG.CHUNK_SIZE = (size + 16383) / 16384 := by
  unfold ceilDiv
  rw [chunkSize_eq]
  omega

theorem withUniqueId_bytes (file : File) : (withUniqueId file).bytes = file.bytes := by
  unfold withUniqueId
  split <;> rfl

/-- C16: for a file of `S ≥ 1` bytes and a channel that is ready throughout, with
`n = ceil(S / 16384)`, the frames the sender emits are, in this order: the
`file-metadata` frame; for `k = 0 … n-1` the `file-chunk` descriptor
`{ fileId, index: k, total: n, size: len(p_k) }` and right after it the payload
`p_k`, the bytes `[k * C, min((k+1) * C, S))` of the file; and the
`transfer-complete` frame. Every payload but the last has `C` bytes, the last has
`S - (n-1) * C`, and the payloads in order make up the file. -/
theorem sender_frames (file : File) (t : Nat) (hS : 1 ≤ file.size) :
    (sendOneFile alwaysReady t file).frames =
      [Frame.message (.fileMetadata (metadataOf (withUniqueId file)))] ++
        ((List.range (ceilDiv file.size 16384)).flatMap fun k =>
          [Frame.message (.fileChunk
              { fileId := (withUniqueId file).uniqueId, index := k,
                total := ceilDiv file.size 16384,
                size := ((file.bytes.drop (k * 16384)).take
                  (min ((k + 1) * 16384) file.size - k * 16384)).length }),
            Frame.payload ((file.bytes.drop (k * 16384)).take
              (min ((k + 1) * 16384) file.size - k * 16384))]) ++
        [Frame.message (.transferComplete (completeOf (withUniqueId file)))] ∧
    (sendOneFile alwaysReady t file).resolved = true ∧
    (∀ k, k + 1 < ceilDiv file.size 16384 → (chunkOf file.bytes k).length = 16384) ∧
    (chunkOf file.bytes (ceilDiv file.size 16384 - 1)).length =
      file.size - (ceilDiv file.size 16384 - 1) * 16384 ∧
    ((List.range (ceilDiv file.size 16384)).map (chunkOf file.bytes)).flatten = file.bytes := by
  have hn : ceilDiv file.size 16384 = (file.size + 16383) / 16384 := ceilDiv_chunk file.size
  have hsize : (withUniqueId file).size = file.size := by
    unfold File.size
    rw [withUniqueId_bytes]
  have hpos : 1 ≤ ceilDiv file.size 16384 := by
    rw [hn]
    omega
  obtain ⟨hf, hr⟩ := sendChunkLoop_ready (withUniqueId file) (ceilDiv file.size 16384) (t + 1)
    (ceilDiv file.size 16384 - 1) 0 (by omega)
  have hd : ceilDiv file.size 16384 - 1 + 1 = ceilDiv file.size 16384 := by omega
  rw [hd, ← List.range_eq_range'] at hf
  refine ⟨?_, ?_, ?_, ?_, ?_⟩
  · simp only [sendOneFile, sendFileChunks, hsize, alwaysReady, connectionSend, if_true]
    rw [show CONFIG.CHUNK_SIZE = 16384 from rfl]
    rw [hf]
    simp only [descriptorOf, chunkOf, chunkSize_eq, withUniqueId_bytes, metadataOf, File.size,
      List.append_assoc]
  · simp only [sendOneFile, sendFileChunks, hsize]
    rw [show CONFIG.CHUNK_SIZE = 16384 from rfl]
    exact hr
  · intro k hk
    rw [length_chunkOf]
    rw [hn] at hk
    unfold File.size at hk
    omega
  · rw [length_chunkOf, hn]
    unfold File.size at hS ⊢
    omega
  · rw [flatten_chunks]
    apply List.take_of_length_le
    rw [hn]
    unfold File.size
    omega

theorem sender_frames_witness :
    (sendOneFile alwaysReady 0 twoChunkFile).resolved = true ∧
    (chunkOf twoChunkFile.bytes 0).length = 16384 ∧
    (chunkOf twoChunkFile.bytes 1).length = 1 :=
  have hsize : twoChunkFile.size = 16385 := by
    unfold File.size twoChunkFile
    simp only [List.length_append, List.length_replicate, List.length_singleton]
  have hn : ceilDiv twoChunkFile.size 16384 = 2 := by rw [hsize]; rfl
  have h := sender_frames twoChunkFile 0 (by rw [hsize]; decide)
  ⟨h.2.1, h.2.2.1 0 (by rw [hn]; decide), by
    have h1 := h.2.2.2.1
    rw [hn, hsize] at h1
    exact h1⟩

/-- C17 (what the code does): `sendFileChunks` reads and sends a first chunk
before it compares `sentChunks` with `totalChunks`. For the empty file, where
`totalChunks` is 0, it still emits one `file-chunk` descriptor, with index 0,
total 0 and size 0, and one empty payload, before `transfer-complete`. -/
theorem empty_file_sends_a_chunk :
    ceilDiv emptyFile.size CONFIG.CHUNK_SIZE = 0 ∧
    (sendFileChunks alwaysReady 0 emptyFile).frames =
      [Frame.message (.fileChunk { fileId := [], index := 0, total := 0, size := 0 }),
        Frame.payload [],
        Frame.message (.transferComplete
          { fileId := [], name := utf16 "empty.txt", size := 0 })] := by
  refine ⟨by decide, ?_⟩
  simp only [sendFileChunks]
  rw [show ceilDiv emptyFile.size CONFIG.CHUNK_SIZE = 0 by decide, sendChunkLoop]
  simp [alwaysReady, connectionSend, File.slice, emptyFile, File.size]

/-! ## The reassembler: storing a chunk -/

/-- Distinct indices below `n` are at most `n`, and `n` of them are all of them. -/
theorem indices_pigeonhole (l : List Nat) (n : Nat) (hnd : l.Nodup) (hb : ∀ i ∈ l, i < n) :
    l.length ≤ n ∧ (l.length = n → ∀ i, i < n → i ∈ l) := by
  have hsub : l.toFinset ⊆ Finset.range n := by
    intro i hi
    exact Finset.mem_range.2 (hb i (List.mem_toFinset.1 hi))
  have hcard : l.toFinset.card = l.length := List.toFinset_card_of_nodup hnd
  have hle : l.toFinset.card ≤ n := by
    simpa using Finset.card_le_card hsub
  refine ⟨by omega, ?_⟩
  intro hlen i hi
  have heq : l.toFinset = Finset.range n :=
    Finset.eq_of_subset_of_card_le hsub (by rw [Finset.card_range]; omega)
  have : i ∈ l.toFinset := by
    rw [heq]
    exact Finset.mem_range.2 hi
  exact List.mem_toFinset.1 this

theorem collectChunks_present (chunks : List (Nat × List Nat)) (pay : Nat → List Nat) (n : Nat)
    (h : ∀ i, i < n → JSMap.get chunks i = some (pay i)) :
    ∀ (r a : Nat), a + r ≤ n →
      collectChunks chunks a r = some ((List.range' a r).map pay) := by
  intro r
  induction r with
  | zero =>
    intro a _
    rfl
  | succ r ih =>
    intro a ha
    rw [collectChunks, h a (by omega), ih (a + 1) (by omega)]
    simp [List.range'_succ]

theorem collectChunks_missing (chunks : List (Nat × List Nat)) (m : Nat) :
    ∀ (r a : Nat), a ≤ m → m < a + r → JSMap.get chunks m = none →
      collectChunks chunks a r = none := by
  intro r
  induction r with
  | zero =>
    intro a h1 h2
    omega
  | succ r ih =>
    intro a h1 h2 hm
    rw [collectChunks]
    by_cases ha : a = m
    · subst ha
      rw [hm]
    · cases JSMap.get chunks a with
      | none => rfl
      | some chunk =>
        simp only
        rw [ih (a + 1) (by omega) (by omega) hm]
        rfl

theorem storeChunk_mid {fid : JSString} {pay : Nat → List Nat} {n : Nat} {info0 : FileInfo}
    {calls0 : List Call} {stored : List Nat} {buf : List (Nat × Nat)} {st : Reassembler}
    (h : Mid fid pay n info0 calls0 stored buf st) (htotal : info0.totalChunks = n)
    (k : Nat) (hk : k ∉ stored) (hkn : k < n) (sz : Nat) (j : Option Message) :
    Mid fid pay n info0 calls0 (k :: stored) buf
      (storeChunk st { fileId := fid, index := k, total := n, size := sz }
        { bytes := pay k, json := j }) ∧
    (storeChunk st { fileId := fid, index := k, total := n, size := sz }
        { bytes := pay k, json := j }).pendingChunkMetadata = st.pendingChunkMetadata := by
  obtain ⟨chunks, hfiles, hget⟩ := h.files
  have hnd : (k :: stored).Nodup := List.nodup_cons.2 ⟨hk, h.nodup⟩
  have hb : ∀ i ∈ k :: stored, i < n := by
    intro i hi
    rcases List.mem_cons.1 hi with rfl | hi
    · exact hkn
    · exact h.bound i hi
  obtain ⟨hle, hall⟩ := indices_pigeonhole (k :: stored) n hnd hb
  have hlt : stored.length < n := by simpa using hle
  have hne : ¬ stored.length = n := by omega
  have hget' : ∀ i, JSMap.get (JSMap.set chunks k (pay k)) i =
      if i ∈ k :: stored then some (pay i) else none := by
    intro i
    by_cases hik : i = k
    · subst hik
      simp [JSMap.get_set_same]
    · rw [JSMap.get_set_other _ _ _ _ hik, hget i]
      simp [hik]
  have hcalls := h.calls
  simp only [hne, if_false, List.append_nil] at hcalls
  by_cases hlast : stored.length + 1 = n
  · have hpresent : ∀ i, i < n → JSMap.get (JSMap.set chunks k (pay k)) i = some (pay i) := by
      intro i hi
      rw [hget' i, if_pos (hall (by simpa using hlast) i hi)]
    have hcollect := collectChunks_present _ pay n hpresent n 0 (by omega)
    rw [← List.range_eq_range'] at hcollect
    refine ⟨⟨?_, ⟨JSMap.set chunks k (pay k), ?_, hget'⟩, ?_, hnd, hb⟩, ?_⟩
    · simp [storeChunk, hfiles, JSMap.get, JSMap.set, hlast, finalizeFile, htotal, hcollect,
        h.buffer]
    · simp [storeChunk, hfiles, JSMap.get, JSMap.set, hlast, finalizeFile, htotal, hcollect]
    · simp [storeChunk, hfiles, JSMap.get, JSMap.set, hlast, finalizeFile, htotal, hcollect,
        hcalls, completionCalls]
    · simp [storeChunk, hfiles, JSMap.get, JSMap.set, hlast, finalizeFile, htotal, hcollect]
  · have hne' : ¬ (k :: stored).length = n := by simpa using hlast
    refine ⟨⟨?_, ⟨JSMap.set chunks k (pay k), ?_, hget'⟩, ?_, hnd, hb⟩, ?_⟩
    · simp [storeChunk, hfiles, JSMap.get, JSMap.set, hlast, h.buffer]
    · simp [storeChunk, hfiles, JSMap.get, JSMap.set, hlast, hne]
    · simp [storeChunk, hfiles, JSMap.get, JSMap.set, hlast, hcalls]
    · simp [storeChunk, hfiles, JSMap.get, JSMap.set, hlast]

/-! ## The reassembler: one arrival -/

theorem map_eraseIdx {α β : Type} (f : α → β) (l : List α) (i : Nat) :
    (l.map f).eraseIdx i = (l.eraseIdx i).map f := by
  induction l generalizing i with
  | nil => rfl
  | cons a l ih =>
    cases i with
    | zero => rfl
    | succ i => simp [ih]

theorem findMetadataInBuffer_payloads (pay : Nat → List Nat) (buf : List (Nat × Nat)) (i : Nat) :
    findMetadataInBuffer (buf.map (bufferedPayload pay)) i = none := by
  induction buf generalizing i with
  | nil => rfl
  | cons p buf ih =>
    simp only [List.map_cons, findMetadataInBuffer, bufferedPayload]
    exact ih (i + 1)

theorem checkBufferForMetadata_payloads (pay : Nat → List Nat) (buf : List (Nat × Nat))
    (st : Reassembler) (now : Nat) (h : st.bufferedChunks = buf.map (bufferedPayload pay)) :
    checkBufferForMetadata st now = (st, false) := by
  unfold checkBufferForMetadata
  split
  · rfl
  · rw [h, findMetadataInBuffer_payloads]

theorem foldl_without_pending (keys : List JSString) (st : Reassembler)
    (h : st.pendingChunkMetadata = none) :
    keys.foldl
      (fun st fileId =>
        match st.pendingChunkMetadata with
        | some pending =>
          if pending.fileId = fileId then processBufferedChunks st fileId else st
        | none => st)
      st = st := by
  induction keys with
  | nil => rfl
  | cons key keys ih =>
    simp only [List.foldl_cons, h]
    exact ih

theorem Mid.with_pending {fid : JSString} {pay : Nat → List Nat} {n : Nat} {info0 : FileInfo}
    {calls0 : List Call} {stored : List Nat} {buf : List (Nat × Nat)} {st : Reassembler}
    (h : Mid fid pay n info0 calls0 stored buf st) (pending : Option ChunkMetadata) :
    Mid fid pay n info0 calls0 stored buf { st with pendingChunkMetadata := pending } :=
  ⟨h.buffer, h.files, h.calls, h.nodup, h.bound⟩

theorem Mid.known {fid : JSString} {pay : Nat → List Nat} {n : Nat} {info0 : FileInfo}
    {calls0 : List Call} {stored : List Nat} {buf : List (Nat × Nat)} {st : Reassembler}
    (h : Mid fid pay n info0 calls0 stored buf st) :
    (JSMap.get st.incomingFiles fid).isNone = false := by
  obtain ⟨chunks, hfiles, -⟩ := h.files
  simp [hfiles, JSMap.get]

/-- A payload that arrives while no descriptor is waiting is put in the buffer,
and nothing else changes. -/
theorem handle_payload_buffered {fid : JSString} {pay : Nat → List Nat} {n : Nat}
    {info0 : FileInfo} {calls0 : List Call} {stored : List Nat} {buf : List (Nat × Nat)}
    {st : Reassembler} (h : Mid fid pay n info0 calls0 stored buf st)
    (hp : st.pendingChunkMetadata = none) (k t : Nat)
    (hfresh : ∀ p ∈ buf, t < p.2 + 30000) :
    Mid fid pay n info0 calls0 stored (buf ++ [(k, t)])
      (handleIncomingData st t (.binary { bytes := pay k, json := none })) ∧
    (handleIncomingData st t (.binary { bytes := pay k, json := none })).pendingChunkMetadata =
      none := by
  have hkeep : (st.bufferedChunks ++ [(⟨⟨pay k, none⟩, t, none⟩ : BufferedChunk)]).filter
        (fun chunk => decide ((chunk.timestamp : Int) > (t : Int) - 30000)) =
      (buf ++ [(k, t)]).map (bufferedPayload pay) := by
    rw [List.filter_eq_self.2, h.buffer]
    · simp [bufferedPayload]
    · intro a ha
      rw [h.buffer] at ha
      rcases List.mem_append.1 ha with ha | ha
      · obtain ⟨p, hp', rfl⟩ := List.mem_map.1 ha
        have := hfresh p hp'
        simp only [bufferedPayload, decide_eq_true_eq]
        omega
      · rw [List.mem_singleton.1 ha]
        simp only [decide_eq_true_eq]
        omega
  have hcheck := checkBufferForMetadata_payloads pay (buf ++ [(k, t)])
    ⟨st.incomingFiles, none, (buf ++ [(k, t)]).map (bufferedPayload pay), st.calls⟩ t rfl
  have hstate : handleIncomingData st t (.binary { bytes := pay k, json := none }) =
      ⟨st.incomingFiles, none, (buf ++ [(k, t)]).map (bufferedPayload pay), st.calls⟩ := by
    simp only [handleIncomingData, hp, hkeep, hcheck]
    exact foldl_without_pending _ _ rfl
  rw [hstate]
  exact ⟨⟨rfl, h.files, h.calls, h.nodup, h.bound⟩, rfl⟩

/-- A descriptor that finds its payload in the buffer stores it and takes it out
of the buffer. -/
theorem handle_descriptor_matched {fid : JSString} {pay : Nat → List Nat} {n : Nat}
    {info0 : FileInfo} {calls0 : List Call} {stored : List Nat} {buf : List (Nat × Nat)}
    {st : Reassembler} (h : Mid fid pay n info0 calls0 stored buf st)
    (htotal : info0.totalChunks = n) (k t i : Nat) (p : Nat × Nat) (w : List Nat)
    (hfind : buf.findIdx? (fun p => (pay p.1).length == (pay k).length) = some i)
    (hget : buf.get? i = some p) (hpk : p.1 = k) (hk : k ∉ stored) (hkn : k < n) :
    Mid fid pay n info0 calls0 (k :: stored) (buf.eraseIdx i)
      (handleIncomingData st t (.binary
        { bytes := w,
          json := some (.fileChunk (⟨fid, k, n, (pay k).length⟩ : ChunkMetadata)) })) ∧
    (handleIncomingData st t (.binary
        { bytes := w,
          json := some (.fileChunk (⟨fid, k, n, (pay k).length⟩ : ChunkMetadata)) })
      ).pendingChunkMetadata = none := by
  subst hpk
  obtain ⟨ifs, pend, bufc, calls⟩ := st
  obtain rfl : bufc = buf.map (bufferedPayload pay) := h.buffer
  have hfind' : findMatchingChunkInBuffer
      ⟨ifs, some ⟨fid, p.1, n, (pay p.1).length⟩, buf.map (bufferedPayload pay), calls⟩
      (⟨fid, p.1, n, (pay p.1).length⟩ : ChunkMetadata) = some i := by
    simp only [findMatchingChunkInBuffer, List.findIdx?_map]
    exact hfind
  have hget' : (buf.map (bufferedPayload pay)).get? i = some (bufferedPayload pay p) := by
    simp only [List.get?_eq_getElem?, List.getElem?_map] at hget ⊢
    rw [hget]
    rfl
  have hmid : Mid fid pay n info0 calls0 stored buf
      ⟨ifs, some ⟨fid, p.1, n, (pay p.1).length⟩, buf.map (bufferedPayload pay), calls⟩ :=
    ⟨rfl, h.files, h.calls, h.nodup, h.bound⟩
  obtain ⟨hstore, -⟩ := storeChunk_mid hmid htotal p.1 hk hkn (pay p.1).length none
  have hknown := hmid.known
  simp only [handleIncomingData, handleJson, processJsonMessage, hfind', hget',
    processChunk, hknown, Bool.false_eq_true, if_false]
  refine ⟨⟨?_, hstore.files, hstore.calls, hstore.nodup, hstore.bound⟩, trivial⟩
  show List.eraseIdx _ i = _
  have hb := hstore.buffer
  simp only [bufferedPayload] at hb ⊢
  rw [hb, map_eraseIdx]

/-- A descriptor that finds no payload of its size in the buffer waits, and the
payload that arrives next is stored under it. -/
theorem handle_descriptor_then_payload {fid : JSString} {pay : Nat → List Nat} {n : Nat}
    {info0 : FileInfo} {calls0 : List Call} {stored : List Nat} {buf : List (Nat × Nat)}
    {st : Reassembler} (h : Mid fid pay n info0 calls0 stored buf st)
    (htotal : info0.totalChunks = n) (k t t' : Nat) (w : List Nat)
    (hfind : buf.findIdx? (fun p => (pay p.1).length == (pay k).length) = none)
    (hk : k ∉ stored) (hkn : k < n) :
    Mid fid pay n info0 calls0 (k :: stored) buf
      (handleIncomingData
        (handleIncomingData st t (.binary
          { bytes := w,
            json := some (.fileChunk (⟨fid, k, n, (pay k).length⟩ : ChunkMetadata)) }))
        t' (.binary { bytes := pay k, json := none })) ∧
    (handleIncomingData
        (handleIncomingData st t (.binary
          { bytes := w,
            json := some (.fileChunk (⟨fid, k, n, (pay k).length⟩ : ChunkMetadata)) }))
        t' (.binary { bytes := pay k, json := none })).pendingChunkMetadata = none := by
  obtain ⟨ifs, pend, bufc, calls⟩ := st
  obtain rfl : bufc = buf.map (bufferedPayload pay) := h.buffer
  have hfind' : findMatchingChunkInBuffer
      ⟨ifs, some ⟨fid, k, n, (pay k).length⟩, buf.map (bufferedPayload pay), calls⟩
      (⟨fid, k, n, (pay k).length⟩ : ChunkMetadata) = none := by
    simp only [findMatchingChunkInBuffer, List.findIdx?_map]
    exact hfind
  have hfirst : handleIncomingData ⟨ifs, pend, buf.map (bufferedPayload pay), calls⟩ t (.binary
      { bytes := w,
        json := some (.fileChunk (⟨fid, k, n, (pay k).length⟩ : ChunkMetadata)) }) =
      ⟨ifs, some ⟨fid, k, n, (pay k).length⟩, buf.map (bufferedPayload pay), calls⟩ := by
    simp only [handleIncomingData, handleJson, processJsonMessage, hfind']
  have hmid : Mid fid pay n info0 calls0 stored buf
      ⟨ifs, some ⟨fid, k, n, (pay k).length⟩, buf.map (bufferedPayload pay), calls⟩ :=
    ⟨rfl, h.files, h.calls, h.nodup, h.bound⟩
  obtain ⟨hstore, -⟩ := storeChunk_mid hmid htotal k hk hkn (pay k).length none
  have hknown := hmid.known
  rw [hfirst]
  simp only [handleIncomingData, processChunk, hknown, Bool.false_eq_true, if_false]
  exact ⟨⟨hstore.buffer, hstore.files, hstore.calls, hstore.nodup, hstore.bound⟩, trivial⟩

/-! ## The reassembler: a whole order -/

theorem receive_cons (st : Reassembler) (a : Nat × Incoming) (l : List (Nat × Incoming)) :
    receive st (a :: l) = receive (handleIncomingData st a.1 a.2) l := rfl

theorem receive_append (st : Reassembler) (l₁ l₂ : List (Nat × Incoming)) :
    receive st (l₁ ++ l₂) = receive (receive st l₁) l₂ := by
  simp [receive, List.foldl_append]

theorem nodup_move {stored ds : List Nat} {k : Nat} (h : (stored ++ k :: ds).Nodup) :
    k ∉ stored ∧ ((k :: stored) ++ ds).Nodup := by
  have hperm : (stored ++ k :: ds).Perm ((k :: stored) ++ ds) := List.perm_middle
  have h' := hperm.nodup_iff.1 h
  refine ⟨?_, h'⟩
  simp only [List.cons_append, List.nodup_cons, List.mem_append, not_or] at h'
  exact h'.1.1

theorem accepted_payload (len : Nat → Nat) (t k : Nat) (rest : List (Nat × Item))
    (buf : List (Nat × Nat)) :
    accepted len ((t, .payload k) :: rest) buf =
      (buf.all (fun p => decide (t < p.2 + 30000)) && accepted len rest (buf ++ [(k, t)])) := by
  rw [accepted]

theorem accepted_descriptor_found (len : Nat → Nat) (t k i : Nat) (rest : List (Nat × Item))
    (buf : List (Nat × Nat)) (h : buf.findIdx? (fun p => len p.1 == len k) = some i) :
    accepted len ((t, .descriptor k) :: rest) buf =
      ((match buf.get? i with
        | some p => p.1 == k
        | none => false) && accepted len rest (buf.eraseIdx i)) := by
  cases rest with
  | nil => simp [accepted, h]
  | cons a rest =>
    obtain ⟨t', item⟩ := a
    cases item <;> simp [accepted, h]

theorem accepted_descriptor_alone (len : Nat → Nat) (t k : Nat) (rest : List (Nat × Item))
    (buf : List (Nat × Nat)) (h : buf.findIdx? (fun p => len p.1 == len k) = none) :
    accepted len ((t, .descriptor k) :: rest) buf =
      (match rest with
        | (_, .payload j) :: rest' => j == k && accepted len rest' buf
        | _ => false) := by
  cases rest with
  | nil => simp [accepted, h]
  | cons a rest =>
    obtain ⟨t', item⟩ := a
    cases item <;> simp [accepted, h]

/-- A timed order that the reassembler accepts, from the middle of the reception
of a file: every descriptor of the order ends with its chunk stored. -/
theorem receive_accepted (wire : Message → List Nat) (decodeJson : List Nat → Option Message)
    (file : File) (n : Nat) (info0 : FileInfo) (calls0 : List Call)
    (htotal : info0.totalChunks = n)
    (hjson : ∀ k, k < n → decodeJson (chunkOf file.bytes k) = none) :
    ∀ (m : Nat) (order : List (Nat × Item)), order.length ≤ m →
      ∀ (stored : List Nat) (buf : List (Nat × Nat)) (st : Reassembler),
        Mid file.uniqueId (chunkOf file.bytes) n info0 calls0 stored buf st →
        st.pendingChunkMetadata = none →
        accepted (fun k => (chunkOf file.bytes k).length) order buf = true →
        (stored ++ descriptorsOf order).Nodup →
        (∀ k ∈ descriptorsOf order, k < n) →
        (∀ k ∈ payloadsOf order, k < n) →
        ∃ stored' buf',
          Mid file.uniqueId (chunkOf file.bytes) n info0 calls0 stored' buf'
            (receive st (arrivals wire decodeJson file n order)) ∧
          (receive st (arrivals wire decodeJson file n order)).pendingChunkMetadata = none ∧
          stored'.length = stored.length + (descriptorsOf order).length := by
  intro m
  induction m with
  | zero =>
    intro order hlen stored buf st hmid hp _ _ _ _
    have : order = [] := List.length_eq_zero.1 (Nat.le_zero.1 hlen)
    subst this
    exact ⟨stored, buf, hmid, hp, rfl⟩
  | succ m ih =>
    intro order hlen stored buf st hmid hp hacc hnd hdb hpb
    match order, hlen, hacc, hnd, hdb, hpb with
    | [], _, _, _, _, _ => exact ⟨stored, buf, hmid, hp, rfl⟩
    | (t, .payload k) :: rest, hlen, hacc, hnd, hdb, hpb =>
      rw [accepted_payload] at hacc
      simp only [Bool.and_eq_true, List.all_eq_true, decide_eq_true_eq] at hacc
      have hk : k < n := hpb k (by simp [payloadsOf])
      obtain ⟨hmid', hp'⟩ := handle_payload_buffered hmid hp k t hacc.1
      have hstep : arrivals wire decodeJson file n ((t, Item.payload k) :: rest) =
          (t, .binary { bytes := chunkOf file.bytes k, json := none }) ::
            arrivals wire decodeJson file n rest := by
        simp [arrivals, deliver, itemFrame, hjson k hk]
      rw [hstep, receive_cons]
      obtain ⟨stored', buf', h1, h2, h3⟩ := ih rest (by simpa using hlen) stored
        (buf ++ [(k, t)]) _ hmid' hp' hacc.2 (by simpa [descriptorsOf] using hnd)
        (fun j hj => hdb j (by simpa [descriptorsOf] using hj))
        (fun j hj => hpb j (by simp [payloadsOf, hj]))
      exact ⟨stored', buf', h1, h2, by simpa [descriptorsOf] using h3⟩
    | (t, .descriptor k) :: rest, hlen, hacc, hnd, hdb, hpb =>
      have hk : k < n := hdb k (by simp [descriptorsOf])
      have hnd' : (stored ++ k :: descriptorsOf rest).Nodup := by
        simpa [descriptorsOf] using hnd
      obtain ⟨hks, hnd''⟩ := nodup_move hnd'
      cases hfind : buf.findIdx?
          (fun p => (chunkOf file.bytes p.1).length == (chunkOf file.bytes k).length) with
      | some i =>
        rw [accepted_descriptor_found _ _ _ _ _ _ hfind] at hacc
        simp only [Bool.and_eq_true] at hacc
        obtain ⟨hgot, hrest⟩ := hacc
        cases hget : buf.get? i with
        | none =>
          have hget2 := hget
          simp only [List.get?_eq_getElem?] at hget2
          try simp only [List.get?_eq_getElem?] at hgot
          rw [hget2] at hgot
          exact absurd hgot (by simp)
        | some p =>
          have hget2 := hget
          simp only [List.get?_eq_getElem?] at hget2
          try simp only [List.get?_eq_getElem?] at hgot
          rw [hget2] at hgot
          have hpk : p.1 = k := by simpa using hgot
          obtain ⟨hmid', hp'⟩ := handle_descriptor_matched hmid htotal k t i p
            (wire (.fileChunk (descriptorOf file n k))) hfind hget hpk hks hk
          have hstep : arrivals wire decodeJson file n ((t, Item.descriptor k) :: rest) =
              (t, .binary
                { bytes := wire (.fileChunk (descriptorOf file n k)),
                  json := some (.fileChunk
                    (⟨file.uniqueId, k, n, (chunkOf file.bytes k).length⟩ : ChunkMetadata)) }) ::
                arrivals wire decodeJson file n rest := by
            simp [arrivals, deliver, itemFrame, descriptorOf]
          rw [hstep, receive_cons]
          obtain ⟨stored', buf', h1, h2, h3⟩ := ih rest (by simpa using hlen) (k :: stored)
            (buf.eraseIdx i) _ hmid' hp' hrest hnd''
            (fun j hj => hdb j (by simp [descriptorsOf, hj]))
            (fun j hj => hpb j (by simpa [payloadsOf] using hj))
          exact ⟨stored', buf', h1, h2, by
            simp only [descriptorsOf, List.length_cons] at h3 ⊢
            omega⟩
      | none =>
        rw [accepted_descriptor_alone _ _ _ _ _ hfind] at hacc
        cases rest with
        | nil => simp at hacc
        | cons a rest' =>
          obtain ⟨t', item⟩ := a
          cases item with
          | descriptor j => simp at hacc
          | payload j =>
            simp only [Bool.and_eq_true, beq_iff_eq] at hacc
            obtain ⟨hjk, hrest⟩ := hacc
            subst hjk
            obtain ⟨hmid', hp'⟩ := handle_descriptor_then_payload hmid htotal j t t'
              (wire (.fileChunk (descriptorOf file n j))) hfind hks hk
            have hstep : arrivals wire decodeJson file n
                  ((t, Item.descriptor j) :: (t', Item.payload j) :: rest') =
                (t, .binary
                  { bytes := wire (.fileChunk (descriptorOf file n j)),
                    json := some (.fileChunk
                      (⟨file.uniqueId, j, n, (chunkOf file.bytes j).length⟩ : ChunkMetadata)) }) ::
                  (t', .binary { bytes := chunkOf file.bytes j, json := none }) ::
                  arrivals wire decodeJson file n rest' := by
              simp [arrivals, deliver, itemFrame, descriptorOf, hjson j hk]
            rw [hstep, receive_cons, receive_cons]
            obtain ⟨stored', buf', h1, h2, h3⟩ := ih rest'
              (by simp only [List.length_cons] at hlen; omega) (j :: stored) buf _ hmid' hp'
              hrest (by simpa [descriptorsOf] using hnd'')
              (fun i hi => hdb i (by simp [descriptorsOf, hi]))
              (fun i hi => hpb i (by simp [payloadsOf, hi]))
            exact ⟨stored', buf', h1, h2, by
              simp only [descriptorsOf, List.length_cons] at h3 ⊢
              omega⟩

/-! ## The reassembler: first and last frame -/

/-- The `file-metadata` frame, received in the empty state, opens the reception. -/
theorem receive_metadata (wire : Message → List Nat) (decodeJson : List Nat → Option Message)
    (file : File) (t0 : Nat) (hn : 1 ≤ ceilDiv file.size CONFIG.CHUNK_SIZE) :
    Mid file.uniqueId (chunkOf file.bytes) (ceilDiv file.size CONFIG.CHUNK_SIZE)
      (initialInfo file t0) [.fileReceptionStart file.uniqueId] [] []
      (handleIncomingData Reassembler.empty t0
        (deliver wire decodeJson (.message (.fileMetadata (metadataOf file))))) ∧
    (handleIncomingData Reassembler.empty t0
        (deliver wire decodeJson (.message (.fileMetadata (metadataOf file))))
      ).pendingChunkMetadata = none := by
  have hstate : handleIncomingData Reassembler.empty t0
      (deliver wire decodeJson (.message (.fileMetadata (metadataOf file)))) =
      ⟨[(file.uniqueId, initialInfo file t0)], none, [], [.fileReceptionStart file.uniqueId]⟩ := by
    simp [handleIncomingData, deliver, handleJson, processJsonMessage, processFileMetadata,
      processBufferedChunks, initFileReception, Reassembler.empty, JSMap.set, metadataOf,
      initialInfo]
  rw [hstate]
  have hne : ¬ 0 = ceilDiv file.size CONFIG.CHUNK_SIZE := by omega
  refine ⟨⟨rfl, ⟨[], ?_, fun i => by simp [JSMap.get]⟩, ?_, List.nodup_nil,
    fun i hi => absurd hi (List.not_mem_nil i)⟩, rfl⟩
  · simp [initialInfo, hne]
  · simp [hne]

/-- The `transfer-complete` frame, received when every chunk is stored,
finalizes the file once more. -/
theorem receive_complete {fid : JSString} {pay : Nat → List Nat} {n : Nat} {info0 : FileInfo}
    {calls0 : List Call} {stored : List Nat} {buf : List (Nat × Nat)} {st : Reassembler}
    (h : Mid fid pay n info0 calls0 stored buf st) (htotal : info0.totalChunks = n)
    (hlen : stored.length = n) :
    (finalizeFile st fid).incomingFiles = st.incomingFiles ∧
    (finalizeFile st fid).calls =
      calls0 ++ completionCalls fid info0 ((List.range n).map pay).flatten ++
        completionCalls fid info0 ((List.range n).map pay).flatten ∧
    (finalizeFile st fid).bufferedChunks = st.bufferedChunks ∧
    (finalizeFile st fid).pendingChunkMetadata = st.pendingChunkMetadata := by
  obtain ⟨chunks, hfiles, hget⟩ := h.files
  obtain ⟨-, hall⟩ := indices_pigeonhole stored n h.nodup h.bound
  have hpresent : ∀ i, i < n → JSMap.get chunks i = some (pay i) := by
    intro i hi
    rw [hget i, if_pos (hall hlen i hi)]
  have hcollect := collectChunks_present _ pay n hpresent n 0 (by omega)
  rw [← List.range_eq_range'] at hcollect
  have hcalls := h.calls
  simp only [hlen, if_true] at hcalls
  refine ⟨?_, ?_, ?_, ?_⟩
  · simp [finalizeFile, hfiles, JSMap.get, JSMap.set, htotal, hcollect, hlen]
  · simp [finalizeFile, hfiles, JSMap.get, JSMap.set, htotal, hcollect, hcalls,
      completionCalls]
  · simp [finalizeFile, hfiles, JSMap.get, JSMap.set, htotal, hcollect]
  · simp [finalizeFile, hfiles, JSMap.get, JSMap.set, htotal, hcollect]

theorem chunks_make_file (bytes : List Nat) :
    ((List.range (ceilDiv bytes.length CONFIG.CHUNK_SIZE)).map (chunkOf bytes)).flatten =
      bytes := by
  rw [flatten_chunks]
  apply List.take_of_length_le
  rw [ceilDiv_chunk]
  omega

/-! ## Timed arrivals -/

/-- Arrivals that carry the images of a list carry them at some times. -/
theorem exists_timed {α β : Type} (g : α → β) :
    ∀ (items : List α) (arr : List (Nat × β)), arr.map Prod.snd = items.map g →
      ∃ order : List (Nat × α), order.map Prod.snd = items ∧
        arr = order.map (fun a => (a.1, g a.2)) ∧ order.map Prod.fst = arr.map Prod.fst := by
  intro items
  induction items with
  | nil =>
    intro arr h
    have : arr = [] := by simpa using h
    subst this
    exact ⟨[], rfl, rfl, rfl⟩
  | cons x items ih =>
    intro arr h
    match arr, h with
    | [], h => simp at h
    | (t, b) :: arr, h =>
      simp only [List.map_cons, List.cons.injEq] at h
      obtain ⟨order, h1, h2, h3⟩ := ih arr h.2
      refine ⟨(t, x) :: order, by simp [h1], ?_, by simp [h3]⟩
      simp only [List.map_cons, ← h2, ← h.1]

/-- Arrivals that carry the frames of a file split into the first frame, the
timed order of the chunk frames, and the last frame. -/
theorem split_arrivals (wire : Message → List Nat) (decodeJson : List Nat → Option Message)
    (file : File) (n : Nat) (items : List Item) (arr : List (Nat × Incoming))
    (h : arr.map Prod.snd = (framesOf file n items).map (deliver wire decodeJson)) :
    ∃ (t0 t1 : Nat) (order : List (Nat × Item)),
      order.map Prod.snd = items ∧
      arr = (t0, deliver wire decodeJson (.message (.fileMetadata (metadataOf file)))) ::
        arrivals wire decodeJson file n order ++
        [(t1, deliver wire decodeJson (.message (.transferComplete (completeOf file))))] ∧
      (∀ a ∈ order, a.1 ∈ arr.map Prod.fst) := by
  obtain ⟨timed, h1, h2, h3⟩ := exists_timed (deliver wire decodeJson) (framesOf file n items)
    arr h
  unfold framesOf at h1
  obtain ⟨l₁, l₂, hsplit, hl₁, hl₂⟩ := List.map_eq_append_iff.1 h1
  obtain ⟨l₀, l₃, hsplit₁, hl₀, hl₃⟩ := List.map_eq_append_iff.1 hl₁
  obtain ⟨order, ho1, ho2, -⟩ := exists_timed (itemFrame file n) items l₃ hl₃
  match l₀, hl₀ with
  | [(t0, f0)], hl₀ =>
    match l₂, hl₂ with
    | [(t1, f1)], hl₂ =>
      simp only [List.map_cons, List.map_nil, List.cons.injEq, and_true] at hl₀ hl₂
      subst hl₀ hl₂
      refine ⟨t0, t1, order, ho1, ?_, ?_⟩
      · rw [h2, hsplit, hsplit₁, ho2]
        simp [arrivals]
      · intro a ha
        rw [h2, hsplit, hsplit₁, ho2]
        simp only [List.map_append, List.map_map, List.mem_append, List.mem_map,
          Function.comp]
        exact Or.inl (Or.inr ⟨a, ha, rfl⟩)

/-! ## The reassembler: the emission order -/

theorem inOrder_frames (file : File) (n : Nat) :
    ∀ (count first : Nat),
      ((List.range' first count).flatMap fun k =>
          [Frame.message (.fileChunk (descriptorOf file n k)),
            Frame.payload (chunkOf file.bytes k)]) =
        (inOrderItems first count).map (itemFrame file n) := by
  intro count
  induction count with
  | zero =>
    intro first
    rfl
  | succ count ih =>
    intro first
    rw [List.range'_succ, List.flatMap_cons, ih (first + 1)]
    rfl

/-- The frames of `sendOneFile` on a ready channel are the frames of the file in
the emission order. -/
theorem sendOneFile_frames (file : File) (t : Nat) (hS : 1 ≤ file.size) :
    (sendOneFile alwaysReady t file).frames =
      framesOf (withUniqueId file) (ceilDiv file.size CONFIG.CHUNK_SIZE)
        (inOrderItems 0 (ceilDiv file.size CONFIG.CHUNK_SIZE)) := by
  have hn : ceilDiv file.size CONFIG.CHUNK_SIZE = (file.size + 16383) / 16384 :=
    ceilDiv_chunk file.size
  have hsize : (withUniqueId file).size = file.size := by
    unfold File.size
    rw [withUniqueId_bytes]
  have hpos : 1 ≤ ceilDiv file.size CONFIG.CHUNK_SIZE := by
    rw [hn]
    omega
  obtain ⟨hf, -⟩ := sendChunkLoop_ready (withUniqueId file)
    (ceilDiv file.size CONFIG.CHUNK_SIZE) (t + 1) (ceilDiv file.size CONFIG.CHUNK_SIZE - 1) 0
    (by omega)
  have hd : ceilDiv file.size CONFIG.CHUNK_SIZE - 1 + 1 = ceilDiv file.size CONFIG.CHUNK_SIZE := by
    omega
  rw [hd, inOrder_frames] at hf
  simp only [sendOneFile, sendFileChunks, hsize, alwaysReady, connectionSend, if_true]
  rw [hf]
  simp only [framesOf, metadataOf, List.append_assoc, hsize]

theorem inOrder_timed (first count : Nat) (order : List (Nat × Item))
    (h : order.map Prod.snd = inOrderItems first (count + 1)) :
    ∃ (t t' : Nat) (rest : List (Nat × Item)),
      order = (t, .descriptor first) :: (t', .payload first) :: rest ∧
      rest.map Prod.snd = inOrderItems (first + 1) count := by
  match order, h with
  | (t, a) :: (t', b) :: rest, h =>
    simp only [inOrderItems, List.map_cons, List.cons.injEq] at h
    obtain ⟨rfl, rfl, hrest⟩ := h
    exact ⟨t, t', rest, rfl, hrest⟩

theorem arrivals_pair (wire : Message → List Nat) (decodeJson : List Nat → Option Message)
    (file : File) (n k t t' : Nat) (rest : List (Nat × Item))
    (hjson : decodeJson (chunkOf file.bytes k) = none) :
    arrivals wire decodeJson file n ((t, .descriptor k) :: (t', .payload k) :: rest) =
      (t, .binary
        { bytes := wire (.fileChunk (descriptorOf file n k)),
          json := some (.fileChunk
            (⟨file.uniqueId, k, n, (chunkOf file.bytes k).length⟩ : ChunkMetadata)) }) ::
        (t', .binary { bytes := chunkOf file.bytes k, json := none }) ::
        arrivals wire decodeJson file n rest := by
  simp [arrivals, deliver, itemFrame, descriptorOf, hjson]

/-- The chunks `first … first + count - 1` in the emission order, received with
an empty buffer: each of them is stored and the buffer stays empty. -/
theorem receive_inOrder (wire : Message → List Nat) (decodeJson : List Nat → Option Message)
    (file : File) (n : Nat) (info0 : FileInfo) (calls0 : List Call)
    (htotal : info0.totalChunks = n)
    (hjson : ∀ k, k < n → decodeJson (chunkOf file.bytes k) = none) :
    ∀ (count first : Nat) (order : List (Nat × Item)) (stored : List Nat) (st : Reassembler),
      order.map Prod.snd = inOrderItems first count →
      Mid file.uniqueId (chunkOf file.bytes) n info0 calls0 stored [] st →
      st.pendingChunkMetadata = none →
      (∀ k ∈ stored, k < first) → first + count ≤ n →
      ∃ stored',
        Mid file.uniqueId (chunkOf file.bytes) n info0 calls0 stored' []
          (receive st (arrivals wire decodeJson file n order)) ∧
        (receive st (arrivals wire decodeJson file n order)).pendingChunkMetadata = none ∧
        stored'.length = stored.length + count ∧ (∀ k ∈ stored', k < first + count) := by
  intro count
  induction count with
  | zero =>
    intro first order stored st horder hmid hp hlt _
    have : order = [] := by simpa [inOrderItems] using horder
    subst this
    exact ⟨stored, hmid, hp, rfl, hlt⟩
  | succ count ih =>
    intro first order stored st horder hmid hp hlt hle
    obtain ⟨t, t', rest, rfl, hrest⟩ := inOrder_timed first count order horder
    have hk : first < n := by omega
    have hks : first ∉ stored := fun hmem => Nat.lt_irrefl _ (hlt first hmem)
    obtain ⟨hmid', hp'⟩ := handle_descriptor_then_payload hmid htotal first t t'
      (wire (.fileChunk (descriptorOf file n first))) rfl hks hk
    rw [arrivals_pair wire decodeJson file n first t t' rest (hjson first hk), receive_cons,
      receive_cons]
    obtain ⟨stored', h1, h2, h3, h4⟩ := ih (first + 1) rest (first :: stored) _ hrest hmid' hp'
      (by
        intro k hk'
        rcases List.mem_cons.1 hk' with rfl | hk'
        · omega
        · have := hlt k hk'
          omega)
      (by omega)
    refine ⟨stored', h1, h2, ?_, ?_⟩
    · simp only [List.length_cons] at h3
      omega
    · intro k hk'
      have := h4 k hk'
      omega

theorem receive_first_last (st : Reassembler) (a b : Nat × Incoming)
    (l : List (Nat × Incoming)) :
    receive st (a :: l ++ [b]) =
      handleIncomingData (receive (handleIncomingData st a.1 a.2) l) b.1 b.2 := by
  simp [receive, List.foldl_append]

/-- The whole reception of a file whose chunk frames arrive in the emission
order. -/
theorem receive_emission (wire : Message → List Nat) (decodeJson : List Nat → Option Message)
    (file : File) (hn : 1 ≤ ceilDiv file.size CONFIG.CHUNK_SIZE)
    (hjson : ∀ k, k < ceilDiv file.size CONFIG.CHUNK_SIZE →
      decodeJson (chunkOf file.bytes k) = none)
    (arr : List (Nat × Incoming))
    (harr : arr.map Prod.snd =
      (framesOf file (ceilDiv file.size CONFIG.CHUNK_SIZE)
        (inOrderItems 0 (ceilDiv file.size CONFIG.CHUNK_SIZE))).map (deliver wire decodeJson)) :
    ∃ (t0 : Nat) (chunks : List (Nat × List Nat)),
      (receive Reassembler.empty arr).incomingFiles =
        [(file.uniqueId, { initialInfo file t0 with
          chunks := chunks, receivedChunks := ceilDiv file.size CONFIG.CHUNK_SIZE,
          complete := true })] ∧
      (∀ k, k < ceilDiv file.size CONFIG.CHUNK_SIZE →
        JSMap.get chunks k = some (chunkOf file.bytes k)) ∧
      (receive Reassembler.empty arr).calls =
        [.fileReceptionStart file.uniqueId] ++
          completionCalls file.uniqueId (initialInfo file t0) file.bytes ++
          completionCalls file.uniqueId (initialInfo file t0) file.bytes ∧
      (receive Reassembler.empty arr).bufferedChunks = [] := by
  obtain ⟨t0, t1, order, horder, rfl, -⟩ := split_arrivals wire decodeJson file _ _ arr harr
  obtain ⟨hmid0, hp0⟩ := receive_metadata wire decodeJson file t0 hn
  obtain ⟨stored, hmid, hp, hlen, -⟩ := receive_inOrder wire decodeJson file
    (ceilDiv file.size CONFIG.CHUNK_SIZE)
    (initialInfo file t0) [.fileReceptionStart file.uniqueId] rfl hjson _ 0 order [] _ horder
    hmid0 hp0 (fun k hk => absurd hk (List.not_mem_nil k)) (by omega)
  have hlen' : stored.length = ceilDiv file.size CONFIG.CHUNK_SIZE := by simpa using hlen
  obtain ⟨hf, hc, hb, -⟩ := receive_complete hmid rfl hlen'
  obtain ⟨chunks, hfiles, hget⟩ := hmid.files
  obtain ⟨-, hall⟩ := indices_pigeonhole stored _ hmid.nodup hmid.bound
  have hbytes : ((List.range (ceilDiv file.size CONFIG.CHUNK_SIZE)).map
      (chunkOf file.bytes)).flatten = file.bytes := chunks_make_file file.bytes
  rw [hbytes] at hc
  have hlast : ∀ st : Reassembler, handleIncomingData st t1
      (deliver wire decodeJson (.message (.transferComplete (completeOf file)))) =
      finalizeFile st file.uniqueId := by
    intro st
    simp [handleIncomingData, deliver, handleJson, processJsonMessage, completeOf]
  refine ⟨t0, chunks, ?_, ?_, ?_, ?_⟩
  · rw [receive_first_last, hlast]
    show (finalizeFile _ _).incomingFiles = _
    rw [hf, hfiles, hlen']
    simp
  · intro k hk
    rw [hget k, if_pos (hall hlen' k hk)]
  · rw [receive_first_last, hlast]
    exact hc
  · rw [receive_first_last, hlast]
    show (finalizeFile _ _).bufferedChunks = _
    rw [hb, hmid.buffer]
    rfl

/-! ## The round trip in the emission order -/

theorem withUniqueId_name (file : File) : (withUniqueId file).name = file.name := by
  unfold withUniqueId
  split <;> rfl

theorem withUniqueId_type (file : File) : (withUniqueId file).type = file.type := by
  unfold withUniqueId
  split <;> rfl

theorem withUniqueId_size (file : File) : (withUniqueId file).size = file.size := by
  unfold File.size
  rw [withUniqueId_bytes]

theorem map_snd_allAt (t : Nat) (l : List Incoming) : (allAt t l).map Prod.snd = l := by
  simp [allAt, List.map_map, Function.comp]

/-- C18: for a file of `S ≥ 1` bytes none of whose chunk payloads reads as a JSON
record, the frames that the sender emits for the file on a ready channel,
delivered in the emission order (at any times) to `handleIncomingData` from the
empty state, leave one reception entry for the file, with
`receivedChunks = ceil(S / 16384)`, every chunk stored under its index and the
entry complete, and `onFileComplete` is called with a blob whose bytes are the
bytes of the file (the calls made are `onFileReceptionStart`, then twice the
pair of the history entry and `onFileComplete`); the buffer ends empty. A file of
40960 bytes has 3 chunks, of 16384, 16384 and 8192 bytes. -/
theorem in_order_round_trip (wire : Message → List Nat)
    (decodeJson : List Nat → Option Message) (file : File) (t : Nat) (hS : 1 ≤ file.size)
    (hjson : ∀ k, k < ceilDiv file.size CONFIG.CHUNK_SIZE →
      decodeJson (chunkOf file.bytes k) = none)
    (arr : List (Nat × Incoming))
    (harr : arr.map Prod.snd =
      (sendOneFile alwaysReady t file).frames.map (deliver wire decodeJson)) :
    (∃ info,
      (receive Reassembler.empty arr).incomingFiles = [((withUniqueId file).uniqueId, info)] ∧
      info.receivedChunks = ceilDiv file.size CONFIG.CHUNK_SIZE ∧ info.complete = true ∧
      info.totalChunks = ceilDiv file.size CONFIG.CHUNK_SIZE ∧
      ∀ k, k < ceilDiv file.size CONFIG.CHUNK_SIZE →
        JSMap.get info.chunks k = some (chunkOf file.bytes k)) ∧
    (receive Reassembler.empty arr).calls =
      [.fileReceptionStart (withUniqueId file).uniqueId,
        .historyReceived file.name file.size file.type
          { bytes := file.bytes,
            type := if file.type.isEmpty then utf16 "application/octet-stream" else file.type },
        .fileComplete (withUniqueId file).uniqueId
          { bytes := file.bytes,
            type := if file.type.isEmpty then utf16 "application/octet-stream" else file.type },
        .historyReceived file.name file.size file.type
          { bytes := file.bytes,
            type := if file.type.isEmpty then utf16 "application/octet-stream" else file.type },
        .fileComplete (withUniqueId file).uniqueId
          { bytes := file.bytes,
            type := if file.type.isEmpty then utf16 "application/octet-stream" else file.type }] ∧
    (receive Reassembler.empty arr).bufferedChunks = [] ∧
    (file.size = 40960 →
      ceilDiv file.size CONFIG.CHUNK_SIZE = 3 ∧ (chunkOf file.bytes 0).length = 16384 ∧
      (chunkOf file.bytes 1).length = 16384 ∧ (chunkOf file.bytes 2).length = 8192) := by
  have hn : ceilDiv file.size CONFIG.CHUNK_SIZE = (file.size + 16383) / 16384 :=
    ceilDiv_chunk file.size
  have hpos : 1 ≤ ceilDiv file.size CONFIG.CHUNK_SIZE := by
    rw [hn]
    omega
  rw [sendOneFile_frames file t hS, ← withUniqueId_size file] at harr
  rw [← withUniqueId_size file, ← withUniqueId_bytes file] at hjson
  rw [← withUniqueId_size file] at hpos
  obtain ⟨t0, chunks, hfiles, hget, hcalls, hbuf⟩ :=
    receive_emission wire decodeJson (withUniqueId file) hpos hjson arr harr
  simp only [withUniqueId_size, withUniqueId_bytes] at hfiles hget hcalls
  refine ⟨⟨_, hfiles, rfl, rfl, ?_, hget⟩, ?_, hbuf, ?_⟩
  · simp [initialInfo, withUniqueId_size]
  · rw [hcalls]
    simp [completionCalls, initialInfo, withUniqueId_name, withUniqueId_type, withUniqueId_size]
  · intro h40
    rw [hn, length_chunkOf, length_chunkOf, length_chunkOf]
    unfold File.size at h40 ⊢
    omega

theorem in_order_round_trip_witness :
    1 ≤ smallFile.size ∧
    (receive Reassembler.empty
      (allAt 5 ((sendOneFile alwaysReady 0 smallFile).frames.map (deliver noWire noJson)))
      ).bufferedChunks = [] :=
  ⟨by decide,
    (in_order_round_trip noWire noJson smallFile 0 (by decide) (fun _ _ => rfl)
      (allAt 5 ((sendOneFile alwaysReady 0 smallFile).frames.map (deliver noWire noJson)))
      (map_snd_allAt 5 _)).2.2.1⟩

/-! ## The round trip with one payload ahead of its descriptor -/

theorem Mid.lookup {fid : JSString} {pay : Nat → List Nat} {n : Nat} {info0 : FileInfo}
    {calls0 : List Call} {stored : List Nat} {buf : List (Nat × Nat)} {st : Reassembler}
    (h : Mid fid pay n info0 calls0 stored buf st) :
    ∃ info, JSMap.get st.incomingFiles fid = some info ∧
      ∀ i, JSMap.get info.chunks i = if i ∈ stored then some (pay i) else none := by
  obtain ⟨chunks, hfiles, hget⟩ := h.files
  have hg : JSMap.get st.incomingFiles fid = some { info0 with
      chunks := chunks, receivedChunks := stored.length,
      complete := decide (stored.length = n) } := by
    simp [hfiles, JSMap.get]
  exact ⟨_, hg, hget⟩

theorem take_around {α : Type} (l r : List α) (a b : α) (m m₁ m₂ : Nat) (h : l.length = m)
    (h₁ : m₁ = m + 1) (h₂ : m₂ = m + 2) :
    (l ++ a :: b :: r).take m = l ∧ (l ++ a :: b :: r).take m₁ = l ++ [a] ∧
      (l ++ a :: b :: r).take m₂ = l ++ [a, b] := by
  subst h h₁ h₂
  refine ⟨?_, ?_, ?_⟩
  · simp
  · rw [List.take_append]
    rfl
  · rw [List.take_append]
    rfl

/-- The `transfer-complete` frame of a file, received when all its chunks are
stored. -/
theorem receive_last (wire : Message → List Nat) (decodeJson : List Nat → Option Message)
    (file : File) (t0 t1 : Nat) (stored : List Nat) (buf : List (Nat × Nat)) (st : Reassembler)
    (hmid : Mid file.uniqueId (chunkOf file.bytes) (ceilDiv file.size CONFIG.CHUNK_SIZE)
      (initialInfo file t0) [.fileReceptionStart file.uniqueId] stored buf st)
    (hlen : stored.length = ceilDiv file.size CONFIG.CHUNK_SIZE) :
    (handleIncomingData st t1
        (deliver wire decodeJson (.message (.transferComplete (completeOf file))))).calls =
      [.fileReceptionStart file.uniqueId] ++
        completionCalls file.uniqueId (initialInfo file t0) file.bytes ++
        completionCalls file.uniqueId (initialInfo file t0) file.bytes ∧
    (handleIncomingData st t1
        (deliver wire decodeJson (.message (.transferComplete (completeOf file))))
      ).bufferedChunks = buf.map (bufferedPayload (chunkOf file.bytes)) ∧
    (∃ info, JSMap.get (handleIncomingData st t1
        (deliver wire decodeJson (.message (.transferComplete (completeOf file))))
      ).incomingFiles file.uniqueId = some info ∧
      info.receivedChunks = ceilDiv file.size CONFIG.CHUNK_SIZE ∧ info.complete = true ∧
      ∀ i, i < ceilDiv file.size CONFIG.CHUNK_SIZE →
        JSMap.get info.chunks i = some (chunkOf file.bytes i)) := by
  obtain ⟨hf, hc, hb, -⟩ := receive_complete hmid rfl hlen
  obtain ⟨info, hinfo, hget⟩ := hmid.lookup
  obtain ⟨chunks, hfiles, -⟩ := hmid.files
  have hinfo' := hinfo
  rw [hfiles] at hinfo'
  simp only [JSMap.get, List.find?_cons, beq_self_eq_true, Option.map_some'] at hinfo'
  obtain ⟨-, hall⟩ := indices_pigeonhole stored _ hmid.nodup hmid.bound
  have hbytes : ((List.range (ceilDiv file.size CONFIG.CHUNK_SIZE)).map
      (chunkOf file.bytes)).flatten = file.bytes := chunks_make_file file.bytes
  rw [hbytes] at hc
  have hlast : handleIncomingData st t1
      (deliver wire decodeJson (.message (.transferComplete (completeOf file)))) =
      finalizeFile st file.uniqueId := by
    simp [handleIncomingData, deliver, handleJson, processJsonMessage, completeOf]
  rw [hlast]
  refine ⟨hc, by rw [hb, hmid.buffer], info, by rw [hf, hinfo], ?_, ?_, ?_⟩
  · rw [← Option.some.inj hinfo']
    exact hlen
  · rw [← Option.some.inj hinfo']
    simp [hlen]
  · intro i hi
    rw [hget i, if_pos (hall hlen i hi)]

theorem length_inOrderItems : ∀ (count first : Nat), (inOrderItems first count).length = 2 * count
  | 0, _ => rfl
  | count + 1, first => by
    simp only [inOrderItems, List.length_cons, length_inOrderItems count (first + 1)]
    omega

theorem arrivals_append (wire : Message → List Nat) (decodeJson : List Nat → Option Message)
    (file : File) (n : Nat) (o₁ o₂ : List (Nat × Item)) :
    arrivals wire decodeJson file n (o₁ ++ o₂) =
      arrivals wire decodeJson file n o₁ ++ arrivals wire decodeJson file n o₂ := by
  simp [arrivals]

theorem length_arrivals (wire : Message → List Nat) (decodeJson : List Nat → Option Message)
    (file : File) (n : Nat) (o : List (Nat × Item)) :
    (arrivals wire decodeJson file n o).length = o.length := by
  simp [arrivals]

/-- A timed order whose items are those of `swappedItems n k`. -/
theorem swapped_timed (n k : Nat) (order : List (Nat × Item))
    (h : order.map Prod.snd = swappedItems n k) :
    ∃ (t t' : Nat) (o₁ o₂ : List (Nat × Item)),
      order = o₁ ++ [(t, .payload k), (t', .descriptor k)] ++ o₂ ∧
      o₁.map Prod.snd = inOrderItems 0 k ∧
      o₂.map Prod.snd = inOrderItems (k + 1) (n - (k + 1)) := by
  unfold swappedItems at h
  obtain ⟨l₁, o₂, hsplit, hl₁, ho₂⟩ := List.map_eq_append_iff.1 h
  obtain ⟨o₁, mid, hsplit₁, ho₁, hmid⟩ := List.map_eq_append_iff.1 hl₁
  match mid, hmid with
  | [(t, a), (t', b)], hmid =>
    simp only [List.map_cons, List.map_nil, List.cons.injEq, and_true] at hmid
    obtain ⟨rfl, rfl⟩ := hmid
    exact ⟨t, t', o₁, o₂, by rw [hsplit, hsplit₁], ho₁, ho₂⟩

/-- C20: for a file of `n ≥ 1` chunks none of whose payloads reads as a JSON
record and a chunk index `k < n`, when the frames of the file arrive (at any
times) in the emission order except that the payload of chunk `k` arrives right
before its descriptor, from the empty state: before that payload the buffer is
empty; the payload is put in the buffer and not stored; the descriptor of chunk
`k` finds it by its byte length at index 0, after the descriptor the buffer is
empty again and `chunks[k]` holds the payload; and the file completes with the
bytes of the original (`onFileComplete` is called with them), with every chunk
stored under its index. -/
theorem payload_first_round_trip (wire : Message → List Nat)
    (decodeJson : List Nat → Option Message) (file : File) (k : Nat)
    (hk : k < ceilDiv file.size CONFIG.CHUNK_SIZE)
    (hjson : ∀ i, i < ceilDiv file.size CONFIG.CHUNK_SIZE →
      decodeJson (chunkOf file.bytes i) = none)
    (arr : List (Nat × Incoming))
    (harr : arr.map Prod.snd =
      (framesOf file (ceilDiv file.size CONFIG.CHUNK_SIZE)
        (swappedItems (ceilDiv file.size CONFIG.CHUNK_SIZE) k)).map (deliver wire decodeJson)) :
    (receive Reassembler.empty (arr.take (2 * k + 1))).bufferedChunks = [] ∧
    (∃ t, (receive Reassembler.empty (arr.take (2 * k + 2))).bufferedChunks =
      [{ data := { bytes := chunkOf file.bytes k, json := none }, timestamp := t,
         metadata := none }]) ∧
    (∃ info, JSMap.get (receive Reassembler.empty (arr.take (2 * k + 2))).incomingFiles
        file.uniqueId = some info ∧ JSMap.get info.chunks k = none) ∧
    findMatchingChunkInBuffer (receive Reassembler.empty (arr.take (2 * k + 2)))
      (descriptorOf file (ceilDiv file.size CONFIG.CHUNK_SIZE) k) = some 0 ∧
    (receive Reassembler.empty (arr.take (2 * k + 3))).bufferedChunks = [] ∧
    (∃ info, JSMap.get (receive Reassembler.empty (arr.take (2 * k + 3))).incomingFiles
        file.uniqueId = some info ∧ JSMap.get info.chunks k = some (chunkOf file.bytes k)) ∧
    (∃ info, JSMap.get (receive Reassembler.empty arr).incomingFiles file.uniqueId = some info ∧
      info.receivedChunks = ceilDiv file.size CONFIG.CHUNK_SIZE ∧
      ∀ i, i < ceilDiv file.size CONFIG.CHUNK_SIZE →
        JSMap.get info.chunks i = some (chunkOf file.bytes i)) ∧
    (receive Reassembler.empty arr).calls =
      [.fileReceptionStart file.uniqueId,
        .historyReceived file.name file.size file.type
          { bytes := file.bytes,
            type := if file.type.isEmpty then utf16 "application/octet-stream" else file.type },
        .fileComplete file.uniqueId
          { bytes := file.bytes,
            type := if file.type.isEmpty then utf16 "application/octet-stream" else file.type },
        .historyReceived file.name file.size file.type
          { bytes := file.bytes,
            type := if file.type.isEmpty then utf16 "application/octet-stream" else file.type },
        .fileComplete file.uniqueId
          { bytes := file.bytes,
            type := if file.type.isEmpty then utf16 "application/octet-stream" else file.type }] ∧
    (receive Reassembler.empty arr).bufferedChunks = [] := by
  obtain ⟨t0, t1, order, horder, rfl, -⟩ := split_arrivals wire decodeJson file _ _ arr harr
  obtain ⟨t, t', o₁, o₂, rfl, ho₁, ho₂⟩ := swapped_timed _ k order horder
  have hlen₁ : o₁.length = 2 * k := by
    rw [← List.length_map o₁ Prod.snd, ho₁, length_inOrderItems]
  -- the states along the way
  obtain ⟨hmid0, hp0⟩ := receive_metadata wire decodeJson file t0 (by omega)
  obtain ⟨s₁, hmid1, hp1, hlen1, hlt1⟩ := receive_inOrder wire decodeJson file
    (ceilDiv file.size CONFIG.CHUNK_SIZE) (initialInfo file t0)
    [.fileReceptionStart file.uniqueId] rfl hjson k 0 o₁ [] _ ho₁ hmid0 hp0
    (fun i hi => absurd hi (List.not_mem_nil i)) (by omega)
  have hks : k ∉ s₁ := by
    intro hmem
    have := hlt1 k hmem
    omega
  obtain ⟨hmid2, hp2⟩ := handle_payload_buffered hmid1 hp1 k t
    (fun p hp => absurd hp (List.not_mem_nil p))
  obtain ⟨hmid3, hp3⟩ := handle_descriptor_matched hmid2 rfl k t' 0 (k, t)
    (wire (.fileChunk (descriptorOf file (ceilDiv file.size CONFIG.CHUNK_SIZE) k)))
    (by simp) rfl rfl hks hk
  have hmid3' : Mid file.uniqueId (chunkOf file.bytes) (ceilDiv file.size CONFIG.CHUNK_SIZE)
      (initialInfo file t0) [.fileReceptionStart file.uniqueId] (k :: s₁) [] _ := hmid3
  obtain ⟨s₄, hmid4, hp4, hlen4, -⟩ := receive_inOrder wire decodeJson file
    (ceilDiv file.size CONFIG.CHUNK_SIZE) (initialInfo file t0)
    [.fileReceptionStart file.uniqueId] rfl hjson (ceilDiv file.size CONFIG.CHUNK_SIZE - (k + 1))
    (k + 1) o₂ (k :: s₁) _ ho₂ hmid3' hp3
    (by
      intro i hi
      rcases List.mem_cons.1 hi with rfl | hi
      · omega
      · have := hlt1 i hi
        omega)
    (by omega)
  have hlen4' : s₄.length = ceilDiv file.size CONFIG.CHUNK_SIZE := by
    simp only [List.length_cons, List.length_nil] at hlen1 hlen4
    omega
  obtain ⟨hcalls, hbuf, hinfo⟩ := receive_last wire decodeJson file t0 t1 s₄ [] _ hmid4 hlen4'
  -- the arrivals
  have hshape : (t0, deliver wire decodeJson (.message (.fileMetadata (metadataOf file)))) ::
        arrivals wire decodeJson file (ceilDiv file.size CONFIG.CHUNK_SIZE)
          (o₁ ++ [(t, .payload k), (t', .descriptor k)] ++ o₂) ++
        [(t1, deliver wire decodeJson (.message (.transferComplete (completeOf file))))] =
      ((t0, deliver wire decodeJson (.message (.fileMetadata (metadataOf file)))) ::
        arrivals wire decodeJson file (ceilDiv file.size CONFIG.CHUNK_SIZE) o₁) ++
      ((t, Incoming.binary { bytes := chunkOf file.bytes k, json := none }) ::
        (t', Incoming.binary
          { bytes := wire (.fileChunk
              (descriptorOf file (ceilDiv file.size CONFIG.CHUNK_SIZE) k)),
            json := some (.fileChunk (⟨file.uniqueId, k, ceilDiv file.size CONFIG.CHUNK_SIZE,
              (chunkOf file.bytes k).length⟩ : ChunkMetadata)) }) ::
        (arrivals wire decodeJson file (ceilDiv file.size CONFIG.CHUNK_SIZE) o₂ ++
          [(t1, deliver wire decodeJson (.message (.transferComplete (completeOf file))))])) := by
    simp [arrivals, deliver, itemFrame, descriptorOf, hjson k hk]
  have hL : ((t0, deliver wire decodeJson (.message (.fileMetadata (metadataOf file)))) ::
      arrivals wire decodeJson file (ceilDiv file.size CONFIG.CHUNK_SIZE) o₁).length =
      2 * k + 1 := by
    simp [length_arrivals, hlen₁]
  rw [hshape]
  obtain ⟨hE1, hE2, hE3⟩ := take_around _
    (arrivals wire decodeJson file (ceilDiv file.size CONFIG.CHUNK_SIZE) o₂ ++
      [(t1, deliver wire decodeJson (.message (.transferComplete (completeOf file))))])
    (t, Incoming.binary { bytes := chunkOf file.bytes k, json := none })
    (t', Incoming.binary
      { bytes := wire (.fileChunk (descriptorOf file (ceilDiv file.size CONFIG.CHUNK_SIZE) k)),
        json := some (.fileChunk (⟨file.uniqueId, k, ceilDiv file.size CONFIG.CHUNK_SIZE,
          (chunkOf file.bytes k).length⟩ : ChunkMetadata)) })
    (2 * k + 1) (2 * k + 2) (2 * k + 3) hL rfl rfl
  rw [hE1, hE2, hE3]
  simp only [receive_append, receive_cons]
  simp only [receive, List.foldl_nil]
  simp only [receive] at hmid1 hmid2 hmid3 hmid3' hmid4 hcalls hbuf hinfo
  obtain ⟨info2, hinfo2, hget2⟩ := hmid2.lookup
  obtain ⟨info3, hinfo3, hget3⟩ := hmid3'.lookup
  obtain ⟨info5, hinfo5, hrc5, -, hget5⟩ := hinfo
  refine ⟨hmid1.buffer, ⟨t, hmid2.buffer⟩, ⟨info2, hinfo2, ?_⟩, ?_, hmid3'.buffer,
    ⟨info3, hinfo3, ?_⟩, ⟨info5, hinfo5, hrc5, hget5⟩, ?_, hbuf⟩
  · rw [hget2 k, if_neg hks]
  · simp [findMatchingChunkInBuffer, hmid2.buffer, bufferedPayload, descriptorOf]
  · rw [hget3 k, if_pos (List.mem_cons_self k s₁)]
  · rw [hcalls]
    simp [completionCalls, initialInfo]

/-! ## Orders that keep the slot discipline -/

theorem findIdx?_some_get {α : Type} (p : α → Bool) (l : List α) (i : Nat)
    (h : l.findIdx? p = some i) : ∃ a, l.get? i = some a ∧ p a = true := by
  have h' := List.findIdx?_of_eq_some h
  rw [List.get?_eq_getElem?]
  cases hget : l[i]? with
  | none =>
    rw [hget] at h'
    exact absurd h' (by simp)
  | some a =>
    rw [hget] at h'
    exact ⟨a, rfl, h'⟩

theorem disciplined_descriptor (k : Nat) (rest : List Item) (seen : List Nat) :
    disciplined (.descriptor k :: rest) seen =
      if k ∈ seen then disciplined rest seen
      else
        match rest with
        | .payload j :: rest' => j == k && disciplined rest' seen
        | _ => false := by
  cases rest with
  | nil => simp [disciplined]
  | cons a rest =>
    cases a <;> simp [disciplined]

theorem mem_eraseIdx_of_ne :
    ∀ (l : List (Nat × Nat)) (i : Nat) (q : Nat × Nat), l.get? i = some q →
      ∀ p ∈ l, p.1 ≠ q.1 → p ∈ l.eraseIdx i := by
  intro l
  induction l with
  | nil =>
    intro i q h
    simp at h
  | cons x l ih =>
    intro i q h p hp hne
    cases i with
    | zero =>
      simp only [List.get?_cons_zero, Option.some.injEq] at h
      subst h
      rcases List.mem_cons.1 hp with rfl | hp
      · exact absurd rfl hne
      · simpa using hp
    | succ i =>
      simp only [List.get?_cons_succ] at h
      simp only [List.eraseIdx_cons_succ, List.mem_cons]
      rcases List.mem_cons.1 hp with rfl | hp
      · exact Or.inl rfl
      · exact Or.inr (ih i q h p hp hne)

theorem descriptorsOf_eq (order : List (Nat × Item)) :
    descriptorsOf order = (order.map Prod.snd).filterMap Item.descriptorIndex := by
  induction order with
  | nil => rfl
  | cons a order ih =>
    obtain ⟨t, item⟩ := a
    cases item <;> simp [descriptorsOf, Item.descriptorIndex, ih]

theorem payloadsOf_eq (order : List (Nat × Item)) :
    payloadsOf order = (order.map Prod.snd).filterMap Item.payloadIndex := by
  induction order with
  | nil => rfl
  | cons a order ih =>
    obtain ⟨t, item⟩ := a
    cases item <;> simp [payloadsOf, Item.payloadIndex, ih]

theorem emission_descriptors (n : Nat) :
    (emissionItems n).filterMap Item.descriptorIndex = List.range n := by
  induction n with
  | zero => rfl
  | succ n ih =>
    unfold emissionItems at ih ⊢
    rw [List.range_succ, List.flatMap_append, List.filterMap_append, ih]
    simp [Item.descriptorIndex]

theorem emission_payloads (n : Nat) :
    (emissionItems n).filterMap Item.payloadIndex = List.range n := by
  induction n with
  | zero => rfl
  | succ n ih =>
    unfold emissionItems at ih ⊢
    rw [List.range_succ, List.flatMap_append, List.filterMap_append, ih]
    simp [Item.payloadIndex]

/-- An order that keeps the slot discipline is accepted by the reassembler when
the payloads have pairwise distinct byte lengths and all arrivals are less than
30 seconds apart. -/
theorem accepted_of_disciplined (len : Nat → Nat) (n : Nat)
    (hinj : ∀ i j, i < n → j < n → len i = len j → i = j) :
    ∀ (m : Nat) (order : List (Nat × Item)), order.length ≤ m →
      ∀ (seen : List Nat) (buf : List (Nat × Nat)),
        disciplined (order.map Prod.snd) seen = true →
        (∀ j ∈ descriptorsOf order, (j ∈ seen ↔ j ∈ buf.map Prod.fst)) →
        (descriptorsOf order).Nodup →
        (∀ j ∈ descriptorsOf order, j < n) → (∀ j ∈ payloadsOf order, j < n) →
        (∀ p ∈ buf, p.1 < n) →
        (∀ a ∈ order, ∀ p ∈ buf, a.1 < p.2 + 30000) →
        (∀ a ∈ order, ∀ b ∈ order, a.1 < b.1 + 30000) →
        accepted len order buf = true := by
  intro m
  induction m with
  | zero =>
    intro order hlen seen buf _ _ _ _ _ _ _ _
    have : order = [] := List.length_eq_zero.1 (Nat.le_zero.1 hlen)
    subst this
    rfl
  | succ m ih =>
    intro order hlen seen buf hdisc hinv hnd hdb hpb hbb hwb hww
    match order, hlen, hdisc, hinv, hnd, hdb, hpb, hwb, hww with
    | [], _, _, _, _, _, _, _, _ => rfl
    | (t, .payload k) :: rest, hlen, hdisc, hinv, hnd, hdb, hpb, hwb, hww =>
      rw [accepted_payload]
      simp only [Bool.and_eq_true, List.all_eq_true, decide_eq_true_eq]
      have hk : k < n := hpb k (by simp [payloadsOf])
      refine ⟨fun p hp => hwb (t, .payload k) (List.mem_cons_self _ _) p hp, ?_⟩
      apply ih rest (by simpa using hlen) (k :: seen) (buf ++ [(k, t)])
      · simpa [disciplined] using hdisc
      · intro j hj
        have := hinv j (by simpa [descriptorsOf] using hj)
        simp only [List.mem_cons, List.map_append, List.map_cons, List.map_nil,
          List.mem_append, List.mem_singleton]
        rw [this]
        tauto
      · simpa [descriptorsOf] using hnd
      · intro j hj
        exact hdb j (by simpa [descriptorsOf] using hj)
      · intro j hj
        exact hpb j (by simp [payloadsOf, hj])
      · intro p hp
        rcases List.mem_append.1 hp with hp | hp
        · exact hbb p hp
        · rw [List.mem_singleton.1 hp]
          exact hk
      · intro a ha p hp
        rcases List.mem_append.1 hp with hp | hp
        · exact hwb a (List.mem_cons_of_mem _ ha) p hp
        · rw [List.mem_singleton.1 hp]
          exact hww a (List.mem_cons_of_mem _ ha) (t, .payload k) (List.mem_cons_self _ _)
      · intro a ha b hb
        exact hww a (List.mem_cons_of_mem _ ha) b (List.mem_cons_of_mem _ hb)
    | (t, .descriptor k) :: rest, hlen, hdisc, hinv, hnd, hdb, hpb, hwb, hww =>
      have hk : k < n := hdb k (by simp [descriptorsOf])
      have hnd' : (k :: descriptorsOf rest).Nodup := by simpa [descriptorsOf] using hnd
      have hkrest : k ∉ descriptorsOf rest := (List.nodup_cons.1 hnd').1
      have hinvk := hinv k (by simp [descriptorsOf])
      by_cases hseen : k ∈ seen
      · -- the payload is in the buffer
        have hdisc' : disciplined (rest.map Prod.snd) seen = true := by
          simpa [disciplined_descriptor, hseen] using hdisc
        obtain ⟨q, hq, hqk⟩ := List.mem_map.1 (hinvk.1 hseen)
        cases hfind : buf.findIdx? (fun p => len p.1 == len k) with
        | none =>
          have := List.findIdx?_eq_none_iff.1 hfind q hq
          simp [hqk] at this
        | some i =>
          obtain ⟨a, hget, ha⟩ := findIdx?_some_get _ buf i hfind
          have hamem : a ∈ buf := List.get?_mem hget
          have hak : a.1 = k := hinj a.1 k (hbb a hamem) hk (by simpa using ha)
          rw [accepted_descriptor_found _ _ _ _ _ _ hfind, hget]
          simp only [Bool.and_eq_true, beq_iff_eq]
          refine ⟨hak, ?_⟩
          apply ih rest (by simpa using hlen) seen (buf.eraseIdx i) hdisc'
          · intro j hj
            have hjk : j ≠ k := fun h => hkrest (h ▸ hj)
            rw [hinv j (by simp [descriptorsOf, hj])]
            constructor
            · intro hmem
              obtain ⟨p, hp, hpj⟩ := List.mem_map.1 hmem
              exact List.mem_map.2 ⟨p, mem_eraseIdx_of_ne buf i a hget p hp
                (by rw [hpj, hak]; exact hjk), hpj⟩
            · intro hmem
              obtain ⟨p, hp, hpj⟩ := List.mem_map.1 hmem
              exact List.mem_map.2 ⟨p, List.mem_of_mem_eraseIdx hp, hpj⟩
          · exact (List.nodup_cons.1 hnd').2
          · intro j hj
            exact hdb j (by simp [descriptorsOf, hj])
          · intro j hj
            exact hpb j (by simpa [payloadsOf] using hj)
          · intro p hp
            exact hbb p (List.mem_of_mem_eraseIdx hp)
          · intro b hb p hp
            exact hwb b (List.mem_cons_of_mem _ hb) p (List.mem_of_mem_eraseIdx hp)
          · intro b hb c hc
            exact hww b (List.mem_cons_of_mem _ hb) c (List.mem_cons_of_mem _ hc)
      · -- the payload comes next
        have hfind : buf.findIdx? (fun p => len p.1 == len k) = none := by
          rw [List.findIdx?_eq_none_iff]
          intro p hp
          by_contra hpred
          have hpk : p.1 = k := hinj p.1 k (hbb p hp) hk (by simpa using hpred)
          exact hseen (hinvk.2 (List.mem_map.2 ⟨p, hp, hpk⟩))
        rw [accepted_descriptor_alone _ _ _ _ _ hfind]
        match rest, hlen, hdisc, hinv, hnd', hkrest, hdb, hpb, hwb, hww with
        | [], _, hdisc, _, _, _, _, _, _, _ => simp [disciplined_descriptor, hseen] at hdisc
        | (t', .descriptor j) :: rest', _, hdisc, _, _, _, _, _, _, _ =>
          simp [disciplined_descriptor, hseen] at hdisc
        | (t', .payload j) :: rest', hlen, hdisc, hinv, hnd', hkrest, hdb, hpb, hwb, hww =>
          simp only [List.map_cons, disciplined_descriptor, hseen, if_false, Bool.and_eq_true,
            beq_iff_eq] at hdisc
          simp only [Bool.and_eq_true, beq_iff_eq]
          refine ⟨hdisc.1, ?_⟩
          apply ih rest' (by simp only [List.length_cons] at hlen; omega) seen buf hdisc.2
          · intro i hi
            exact hinv i (by simp [descriptorsOf, hi])
          · simpa [descriptorsOf] using (List.nodup_cons.1 hnd').2
          · intro i hi
            exact hdb i (by simp [descriptorsOf, hi])
          · intro i hi
            exact hpb i (by simp [payloadsOf, hi])
          · exact hbb
          · intro b hb p hp
            exact hwb b (List.mem_cons_of_mem _ (List.mem_cons_of_mem _ hb)) p hp
          · intro b hb c hc
            exact hww b (List.mem_cons_of_mem _ (List.mem_cons_of_mem _ hb)) c
              (List.mem_cons_of_mem _ (List.mem_cons_of_mem _ hc))

/-! ## Two descriptors in a row -/

theorem twoChunkFile_size : twoChunkFile.size = 16385 := by
  unfold File.size twoChunkFile
  simp only [List.length_append, List.length_replicate, List.length_singleton]

theorem twoChunkFile_chunks : ceilDiv twoChunkFile.size CONFIG.CHUNK_SIZE = 2 := by
  rw [twoChunkFile_size]
  rfl

theorem twoChunkFile_lengths :
    (chunkOf twoChunkFile.bytes 0).length = 16384 ∧ (chunkOf twoChunkFile.bytes 1).length = 1 := by
  have h : twoChunkFile.bytes.length = 16385 := twoChunkFile_size
  rw [length_chunkOf, length_chunkOf, h]
  exact ⟨by decide, by decide⟩

theorem mem_allAt (t : Nat) (l : List Incoming) (a : Nat × Incoming) (h : a ∈ allAt t l) :
    a.1 = t := by
  unfold allAt at h
  obtain ⟨x, -, rfl⟩ := List.mem_map.1 h
  rfl

/-- Both descriptors of a file of two chunks before both payloads: the second
descriptor takes the slot of the first, the payload of chunk 0 is stored as
chunk 1, the payload of chunk 1 stays in the buffer, and `transfer-complete`
finds chunk 0 missing. -/
theorem descriptors_first (wire : Message → List Nat) (file : File) (t : Nat)
    (hn : ceilDiv file.size CONFIG.CHUNK_SIZE = 2) :
    receive Reassembler.empty
      (allAt t ((framesOf file 2
        [.descriptor 0, .descriptor 1, .payload 0, .payload 1]).map (deliver wire noJson))) =
      ⟨[(file.uniqueId, { initialInfo file t with
          chunks := [(1, chunkOf file.bytes 0)], receivedChunks := 1, complete := true })],
        none, [⟨⟨chunkOf file.bytes 1, none⟩, t, none⟩],
        [.fileReceptionStart file.uniqueId]⟩ := by
  have h0 : handleIncomingData Reassembler.empty t
      (deliver wire noJson (.message (.fileMetadata (metadataOf file)))) =
      ⟨[(file.uniqueId, initialInfo file t)], none, [], [.fileReceptionStart file.uniqueId]⟩ := by
    simp [handleIncomingData, deliver, handleJson, processJsonMessage, processFileMetadata,
      processBufferedChunks, initFileReception, Reassembler.empty, JSMap.set, metadataOf,
      initialInfo]
  have h1 : ∀ (k : Nat) (pending : Option ChunkMetadata),
      handleIncomingData
        ⟨[(file.uniqueId, initialInfo file t)], pending, [],
          [.fileReceptionStart file.uniqueId]⟩ t
        (deliver wire noJson (.message (.fileChunk (descriptorOf file 2 k)))) =
      ⟨[(file.uniqueId, initialInfo file t)], some (descriptorOf file 2 k), [],
        [.fileReceptionStart file.uniqueId]⟩ := by
    intro k pending
    simp [handleIncomingData, deliver, handleJson, processJsonMessage,
      findMatchingChunkInBuffer]
  have h3 : handleIncomingData
        ⟨[(file.uniqueId, initialInfo file t)], some (descriptorOf file 2 1), [],
          [.fileReceptionStart file.uniqueId]⟩ t
        (deliver wire noJson (.payload (chunkOf file.bytes 0))) =
      ⟨[(file.uniqueId, { initialInfo file t with
          chunks := [(1, chunkOf file.bytes 0)], receivedChunks := 1 })], none, [],
        [.fileReceptionStart file.uniqueId]⟩ := by
    simp [handleIncomingData, deliver, noJson, processChunk, storeChunk, JSMap.get, JSMap.set,
      descriptorOf, initialInfo]
  have h4 : handleIncomingData
        ⟨[(file.uniqueId, { initialInfo file t with
          chunks := [(1, chunkOf file.bytes 0)], receivedChunks := 1 })], none, [],
          [.fileReceptionStart file.uniqueId]⟩ t
        (deliver wire noJson (.payload (chunkOf file.bytes 1))) =
      ⟨[(file.uniqueId, { initialInfo file t with
          chunks := [(1, chunkOf file.bytes 0)], receivedChunks := 1 })], none,
        [⟨⟨chunkOf file.bytes 1, none⟩, t, none⟩], [.fileReceptionStart file.uniqueId]⟩ := by
    simp [handleIncomingData, deliver, noJson, checkBufferForMetadata, findMetadataInBuffer,
      JSMap.keys]
  have h5 : handleIncomingData
        ⟨[(file.uniqueId, { initialInfo file t with
          chunks := [(1, chunkOf file.bytes 0)], receivedChunks := 1 })], none,
          [⟨⟨chunkOf file.bytes 1, none⟩, t, none⟩], [.fileReceptionStart file.uniqueId]⟩ t
        (deliver wire noJson (.message (.transferComplete (completeOf file)))) =
      ⟨[(file.uniqueId, { initialInfo file t with
          chunks := [(1, chunkOf file.bytes 0)], receivedChunks := 1, complete := true })],
        none, [⟨⟨chunkOf file.bytes 1, none⟩, t, none⟩],
        [.fileReceptionStart file.uniqueId]⟩ := by
    simp [handleIncomingData, deliver, handleJson, processJsonMessage, finalizeFile,
      completeOf, JSMap.get, JSMap.set, initialInfo, hn, collectChunks]
  simp only [receive, allAt, framesOf, List.map_cons, List.map_append, List.map_nil,
    List.cons_append, List.nil_append, List.foldl_cons, List.foldl_nil, itemFrame]
  rw [h0, h1, h1, h3, h4, h5]

/-- C19 (counterexample): the file `twoChunkFile` has two chunks, of 16384 bytes and
of 1 byte; when both descriptors arrive before both payloads, between the
`file-metadata` frame and the `transfer-complete` frame, the only call made is
`onFileReceptionStart`: no byte sequence is produced. The payload of chunk 0 is
stored as chunk 1, chunk 0 is missing and the payload of chunk 1 is left in the
buffer. -/
theorem descriptors_first_incomplete :
    ceilDiv twoChunkFile.size CONFIG.CHUNK_SIZE = 2 ∧
    (chunkOf twoChunkFile.bytes 0).length ≠ (chunkOf twoChunkFile.bytes 1).length ∧
    (receive Reassembler.empty
      (allAt 0 ((framesOf twoChunkFile 2
        [.descriptor 0, .descriptor 1, .payload 0, .payload 1]).map (deliver noWire noJson)))
      ).calls = [.fileReceptionStart twoChunkFile.uniqueId] ∧
    (receive Reassembler.empty
      (allAt 0 ((framesOf twoChunkFile 2
        [.descriptor 0, .descriptor 1, .payload 0, .payload 1]).map (deliver noWire noJson)))
      ).incomingFiles.map (fun p => p.2.chunks) = [[(1, chunkOf twoChunkFile.bytes 0)]] ∧
    (receive Reassembler.empty
      (allAt 0 ((framesOf twoChunkFile 2
        [.descriptor 0, .descriptor 1, .payload 0, .payload 1]).map (deliver noWire noJson)))
      ).bufferedChunks.map (fun c => c.data.bytes) = [chunkOf twoChunkFile.bytes 1] := by
  rw [descriptors_first noWire twoChunkFile 0 twoChunkFile_chunks]
  refine ⟨twoChunkFile_chunks, ?_, rfl, ?_, ?_⟩
  · rw [twoChunkFile_lengths.1, twoChunkFile_lengths.2]
    decide
  · simp only [List.map_cons, List.map_nil]
  · simp only [List.map_cons, List.map_nil]

/-- A file without chunks: the `file-metadata` frame and the `transfer-complete`
frame alone complete it, with no bytes. -/
theorem receive_no_chunks (wire : Message → List Nat) (decodeJson : List Nat → Option Message)
    (file : File) (t0 t1 : Nat) (hn : ceilDiv file.size CONFIG.CHUNK_SIZE = 0) :
    receive Reassembler.empty
      [(t0, deliver wire decodeJson (.message (.fileMetadata (metadataOf file)))),
        (t1, deliver wire decodeJson (.message (.transferComplete (completeOf file))))] =
      ⟨[(file.uniqueId, { initialInfo file t0 with complete := true })], none, [],
        [.fileReceptionStart file.uniqueId] ++
          completionCalls file.uniqueId (initialInfo file t0) []⟩ := by
  have h0 : handleIncomingData Reassembler.empty t0
      (deliver wire decodeJson (.message (.fileMetadata (metadataOf file)))) =
      ⟨[(file.uniqueId, initialInfo file t0)], none, [], [.fileReceptionStart file.uniqueId]⟩ := by
    simp [handleIncomingData, deliver, handleJson, processJsonMessage, processFileMetadata,
      processBufferedChunks, initFileReception, Reassembler.empty, JSMap.set, metadataOf,
      initialInfo]
  simp only [receive, List.foldl_cons, List.foldl_nil]
  rw [h0]
  simp [handleIncomingData, deliver, handleJson, processJsonMessage, finalizeFile,
    completeOf, JSMap.get, JSMap.set, initialInfo, hn, collectChunks, completionCalls]

/-- C19 (amended): for a file of `n = ceil(S / 16384)` chunks whose payloads have
pairwise distinct byte lengths and none of which reads as a JSON record, and
for every order of the `n` descriptors and the `n` payloads between the
`file-metadata` frame and the `transfer-complete` frame in which every descriptor
arrives after its own payload or right before it, all arrivals being less than
30 seconds apart: from the empty state the reassembler ends with every chunk
stored under its index, `receivedChunks = n`, and calls `onFileComplete` with the
bytes of the original file, and with no other bytes. -/
theorem disciplined_round_trip (wire : Message → List Nat)
    (decodeJson : List Nat → Option Message) (file : File)
    (hjson : ∀ k, k < ceilDiv file.size CONFIG.CHUNK_SIZE →
      decodeJson (chunkOf file.bytes k) = none)
    (hdistinct : ∀ i j, i < ceilDiv file.size CONFIG.CHUNK_SIZE →
      j < ceilDiv file.size CONFIG.CHUNK_SIZE →
      (chunkOf file.bytes i).length = (chunkOf file.bytes j).length → i = j)
    (items : List Item)
    (hperm : items.Perm (emissionItems (ceilDiv file.size CONFIG.CHUNK_SIZE)))
    (hdisc : disciplined items [] = true)
    (arr : List (Nat × Incoming))
    (harr : arr.map Prod.snd =
      (framesOf file (ceilDiv file.size CONFIG.CHUNK_SIZE) items).map (deliver wire decodeJson))
    (hwindow : ∀ a ∈ arr, ∀ b ∈ arr, a.1 < b.1 + 30000) :
    (∃ info, JSMap.get (receive Reassembler.empty arr).incomingFiles file.uniqueId = some info ∧
      info.receivedChunks = ceilDiv file.size CONFIG.CHUNK_SIZE ∧ info.complete = true ∧
      ∀ i, i < ceilDiv file.size CONFIG.CHUNK_SIZE →
        JSMap.get info.chunks i = some (chunkOf file.bytes i)) ∧
    (∃ blob, blob.bytes = file.bytes ∧
      Call.fileComplete file.uniqueId blob ∈ (receive Reassembler.empty arr).calls) ∧
    (∀ id blob, Call.fileComplete id blob ∈ (receive Reassembler.empty arr).calls →
      id = file.uniqueId ∧ blob.bytes = file.bytes) := by
  obtain ⟨t0, t1, order, horder, rfl, htimes⟩ := split_arrivals wire decodeJson file _ _ arr harr
  have hdesc : (descriptorsOf order).Perm (List.range (ceilDiv file.size CONFIG.CHUNK_SIZE)) := by
    rw [descriptorsOf_eq, horder, ← emission_descriptors]
    exact hperm.filterMap _
  have hpay : (payloadsOf order).Perm (List.range (ceilDiv file.size CONFIG.CHUNK_SIZE)) := by
    rw [payloadsOf_eq, horder, ← emission_payloads]
    exact hperm.filterMap _
  have hdb : ∀ k ∈ descriptorsOf order, k < ceilDiv file.size CONFIG.CHUNK_SIZE := by
    intro k hk
    exact List.mem_range.1 (hdesc.subset hk)
  have hpb : ∀ k ∈ payloadsOf order, k < ceilDiv file.size CONFIG.CHUNK_SIZE := by
    intro k hk
    exact List.mem_range.1 (hpay.subset hk)
  have hnd : (descriptorsOf order).Nodup := hdesc.nodup_iff.2 (List.nodup_range _)
  by_cases hn : ceilDiv file.size CONFIG.CHUNK_SIZE = 0
  · -- no chunk at all
    have hitems : items = [] := by
      rw [hn] at hperm
      exact List.Perm.eq_nil hperm
    have horder' : order = [] := by
      rw [hitems] at horder
      simpa using horder
    subst horder'
    have hbytes : file.bytes = [] := by
      rw [ceilDiv_chunk] at hn
      unfold File.size at hn
      apply List.length_eq_zero.1
      omega
    have hstate := receive_no_chunks wire decodeJson file t0 t1 hn
    simp only [arrivals, List.map_nil, List.cons_append, List.nil_append]
    rw [hstate, hbytes]
    refine ⟨⟨{ initialInfo file t0 with complete := true }, by simp [JSMap.get], ?_, rfl, ?_⟩,
      ⟨{ bytes := [],
         type := if file.type.isEmpty then utf16 "application/octet-stream" else file.type },
        rfl, by simp [completionCalls, initialInfo]⟩, ?_⟩
    · simp [initialInfo, hn]
    · intro i hi
      omega
    · intro id blob hmem
      simp only [completionCalls, List.cons_append, List.nil_append, List.mem_cons,
        List.mem_singleton, Call.fileComplete.injEq, List.not_mem_nil, or_false] at hmem
      rcases hmem with h | h | h
      · exact absurd h (by simp)
      · exact absurd h (by simp)
      · exact ⟨h.1, by rw [h.2]⟩
  · -- at least one chunk
    have hwin : ∀ a ∈ order, ∀ b ∈ order, a.1 < b.1 + 30000 := by
      intro a ha b hb
      obtain ⟨a', ha', haa⟩ := List.mem_map.1 (htimes a ha)
      obtain ⟨b', hb', hbb⟩ := List.mem_map.1 (htimes b hb)
      rw [← haa, ← hbb]
      exact hwindow a' ha' b' hb'
    have hacc : accepted (fun k => (chunkOf file.bytes k).length) order [] = true := by
      apply accepted_of_disciplined _ _ hdistinct order.length order (Nat.le_refl _) [] []
        (by rw [horder]; exact hdisc) _ hnd hdb hpb
      · intro p hp
        exact absurd hp (List.not_mem_nil p)
      · intro a _ p hp
        exact absurd hp (List.not_mem_nil p)
      · exact hwin
      · intro j _
        simp
    obtain ⟨hmid0, hp0⟩ := receive_metadata wire decodeJson file t0 (by omega)
    obtain ⟨stored, buf, hmid, -, hlen⟩ := receive_accepted wire decodeJson file
      (ceilDiv file.size CONFIG.CHUNK_SIZE) (initialInfo file t0)
      [.fileReceptionStart file.uniqueId] rfl hjson order.length order (Nat.le_refl _) [] [] _
      hmid0 hp0 hacc (by simpa using hnd) hdb hpb
    have hlen' : stored.length = ceilDiv file.size CONFIG.CHUNK_SIZE := by
      rw [hlen, hdesc.length_eq]
      simp
    obtain ⟨hcalls, -, hinfo⟩ := receive_last wire decodeJson file t0 t1 stored buf _ hmid hlen'
    rw [receive_first_last]
    refine ⟨hinfo,
      ⟨{ bytes := file.bytes,
         type := if file.type.isEmpty then utf16 "application/octet-stream" else file.type },
        rfl, by rw [hcalls]; simp [completionCalls, initialInfo]⟩, ?_⟩
    intro id blob hmem
    rw [hcalls] at hmem
    simp only [completionCalls, List.cons_append, List.nil_append, List.mem_cons,
      List.mem_singleton, Call.fileComplete.injEq, List.not_mem_nil, or_false] at hmem
    rcases hmem with h | h | h | h | h
    · exact absurd h (by simp)
    · exact absurd h (by simp)
    · exact ⟨h.1, by rw [h.2]⟩
    · exact absurd h (by simp)
    · exact ⟨h.1, by rw [h.2]⟩

theorem disciplined_round_trip_witness :
    disciplined [.payload 1, .payload 0, .descriptor 0, .descriptor 1] [] = true ∧
    ∃ blob, blob.bytes = twoChunkFile.bytes ∧
      Call.fileComplete twoChunkFile.uniqueId blob ∈
        (receive Reassembler.empty
          (allAt 0 ((framesOf twoChunkFile (ceilDiv twoChunkFile.size CONFIG.CHUNK_SIZE)
            [.payload 1, .payload 0, .descriptor 0, .descriptor 1]).map
              (deliver noWire noJson)))).calls :=
  ⟨by decide,
    (disciplined_round_trip noWire noJson twoChunkFile (fun _ _ => rfl)
      (by
        rw [twoChunkFile_chunks]
        intro i j hi hj h
        have h0 := twoChunkFile_lengths.1
        have h1 := twoChunkFile_lengths.2
        have hi' : i = 0 ∨ i = 1 := by omega
        have hj' : j = 0 ∨ j = 1 := by omega
        rcases hi' with rfl | rfl <;> rcases hj' with rfl | rfl <;>
          first | rfl | (rw [h0, h1] at h; exact absurd h (by decide)))
      [.payload 1, .payload 0, .descriptor 0, .descriptor 1]
      (by rw [twoChunkFile_chunks]; decide) (by decide)
      (allAt 0 ((framesOf twoChunkFile (ceilDiv twoChunkFile.size CONFIG.CHUNK_SIZE)
        [.payload 1, .payload 0, .descriptor 0, .descriptor 1]).map (deliver noWire noJson)))
      (map_snd_allAt 0 _)
      (by
        intro a ha b hb
        rw [mem_allAt 0 _ a ha, mem_allAt 0 _ b hb]
        decide)).2.1⟩

theorem payload_first_round_trip_witness :
    1 < ceilDiv twoChunkFile.size CONFIG.CHUNK_SIZE ∧
    (receive Reassembler.empty
      (allAt 0 ((framesOf twoChunkFile (ceilDiv twoChunkFile.size CONFIG.CHUNK_SIZE)
        (swappedItems (ceilDiv twoChunkFile.size CONFIG.CHUNK_SIZE) 1)).map
          (deliver noWire noJson)))).bufferedChunks = [] :=
  ⟨by rw [twoChunkFile_chunks]; decide,
    (payload_first_round_trip noWire noJson twoChunkFile 1
      (by rw [twoChunkFile_chunks]; decide) (fun _ _ => rfl)
      (allAt 0 ((framesOf twoChunkFile (ceilDiv twoChunkFile.size CONFIG.CHUNK_SIZE)
        (swappedItems (ceilDiv twoChunkFile.size CONFIG.CHUNK_SIZE) 1)).map
          (deliver noWire noJson)))
      (map_snd_allAt 0 _)).2.2.2.2.2.2.2.2⟩

/-! ## finalizeFile with a missing chunk -/

theorem finalizeFile_missing (st : Reassembler) (fileId : JSString) (info : FileInfo) (i : Nat)
    (hfile : JSMap.get st.incomingFiles fileId = some info)
    (hi : i < info.totalChunks) (hmiss : JSMap.get info.chunks i = none) :
    finalizeFile st fileId =
      { st with incomingFiles :=
          JSMap.set st.incomingFiles fileId { info with complete := true } } := by
  have hcollect := collectChunks_missing info.chunks i info.totalChunks 0 (Nat.zero_le i)
    (by omega) hmiss
  simp only [finalizeFile, hfile, hcollect]

theorem handle_transferComplete (st : Reassembler) (now : Nat) (w : List Nat)
    (m : TransferComplete) :
    handleIncomingData st now (.binary { bytes := w, json := some (.transferComplete m) }) =
      finalizeFile st m.fileId := by
  simp [handleIncomingData, handleJson, processJsonMessage]

/-- C21: in every state of the reassembler in which the reception entry of a file
lacks some chunk index below its `totalChunks`, the `transfer-complete` frame of
that file (that is, `finalizeFile`) emits no byte sequence: the calls made are
unchanged, so `onFileComplete` is not called and nothing is added to the received
history; the chunks and the count of the entry, the entries of other files, the
buffer and the expected descriptor are left as they were. -/
theorem finalize_missing_chunk (st : Reassembler) (now : Nat) (w : List Nat)
    (m : TransferComplete) (info : FileInfo) (i : Nat)
    (hfile : JSMap.get st.incomingFiles m.fileId = some info)
    (hi : i < info.totalChunks) (hmiss : JSMap.get info.chunks i = none) :
    (handleIncomingData st now
      (.binary { bytes := w, json := some (.transferComplete m) })).calls = st.calls ∧
    (∃ info', JSMap.get (handleIncomingData st now
        (.binary { bytes := w, json := some (.transferComplete m) })).incomingFiles m.fileId =
          some info' ∧
      info'.chunks = info.chunks ∧ info'.receivedChunks = info.receivedChunks ∧
      info'.totalChunks = info.totalChunks) ∧
    (∀ k, k ≠ m.fileId →
      JSMap.get (handleIncomingData st now
        (.binary { bytes := w, json := some (.transferComplete m) })).incomingFiles k =
          JSMap.get st.incomingFiles k) ∧
    (handleIncomingData st now
      (.binary { bytes := w, json := some (.transferComplete m) })).bufferedChunks =
        st.bufferedChunks ∧
    (handleIncomingData st now
      (.binary { bytes := w, json := some (.transferComplete m) })).pendingChunkMetadata =
        st.pendingChunkMetadata := by
  rw [handle_transferComplete, finalizeFile_missing st m.fileId info i hfile hi hmiss]
  refine ⟨rfl, ⟨_, JSMap.get_set_same _ _ _, rfl, rfl, rfl⟩, ?_, rfl, rfl⟩
  intro k hk
  exact JSMap.get_set_other _ _ _ _ hk

theorem finalize_missing_chunk_witness :
    (handleIncomingData
      ⟨[(sentFile.uniqueId, initialInfo sentFile 0)], none, [],
        [.fileReceptionStart sentFile.uniqueId]⟩ 5
      (.binary { bytes := [], json := some (.transferComplete (completeOf sentFile)) })).calls =
      [.fileReceptionStart sentFile.uniqueId] :=
  (finalize_missing_chunk
    ⟨[(sentFile.uniqueId, initialInfo sentFile 0)], none, [],
      [.fileReceptionStart sentFile.uniqueId]⟩ 5 [] (completeOf sentFile)
    (initialInfo sentFile 0) 0 (by rfl) (by decide) (by rfl)).1

/-- C22 (what the code does): `finalizeFile` sets `complete = true` before it looks
for missing chunks. When the `file-metadata` frame of a file of one chunk is
followed at once by its `transfer-complete` frame, chunk 0 is missing, no
completion is reported, and the entry is left with `complete = true`. -/
theorem finalize_marks_incomplete_file :
    (receive Reassembler.empty
      (allAt 0 ([Frame.message (.fileMetadata (metadataOf sentFile)),
        Frame.message (.transferComplete (completeOf sentFile))].map
          (deliver noWire noJson)))).incomingFiles.map
      (fun p => (p.1, p.2.totalChunks, p.2.receivedChunks, p.2.chunks, p.2.complete)) =
        [(utf16 "file-2", 1, 0, [], true)] ∧
    (receive Reassembler.empty
      (allAt 0 ([Frame.message (.fileMetadata (metadataOf sentFile)),
        Frame.message (.transferComplete (completeOf sentFile))].map
          (deliver noWire noJson)))).calls = [.fileReceptionStart (utf16 "file-2")] := by
  refine ⟨by rfl, by rfl⟩

/-! ## The buffer of payloads and the classification of frames -/

theorem bufferAfterPurge_eq (st : Reassembler) (now : Nat) (data : Binary) :
    bufferAfterPurge st now data =
      st.bufferedChunks.filter
          (fun chunk => decide ((chunk.timestamp : Int) > (now : Int) - 30000)) ++
        [{ data := data, timestamp := now, metadata := none }] := by
  have hnew : decide (((now : Nat) : Int) > (now : Int) - 30000) = true := by
    simp only [decide_eq_true_eq]
    omega
  simp only [bufferAfterPurge, List.filter_append, List.filter_cons, hnew, if_true,
    List.filter_nil]

theorem handle_payload_unexpected (st : Reassembler) (now : Nat) (data : Binary)
    (hjson : data.json = none) (hp : st.pendingChunkMetadata = none) :
    handleIncomingData st now (.binary data) =
      afterPurge { st with bufferedChunks := bufferAfterPurge st now data } now := by
  simp only [handleIncomingData, hjson, hp]
  rfl

/-- C25: when `handleIncomingData` receives at the time `t` a payload (binary data
that does not read as a JSON record) while no descriptor is expected, the buffer
right after the purge is: the entries that were buffered with a timestamp greater
than `t - 30000`, in their order, followed by the new entry `{ data, timestamp: t }`.
No entry with a timestamp of `t - 30000` or less remains, and the handler goes
on from that buffer. -/
theorem buffer_retention (st : Reassembler) (now : Nat) (data : Binary)
    (hjson : data.json = none) (hp : st.pendingChunkMetadata = none) :
    handleIncomingData st now (.binary data) =
      afterPurge { st with bufferedChunks := bufferAfterPurge st now data } now ∧
    bufferAfterPurge st now data =
      st.bufferedChunks.filter
          (fun chunk => decide ((chunk.timestamp : Int) > (now : Int) - 30000)) ++
        [{ data := data, timestamp := now, metadata := none }] ∧
    (st.bufferedChunks.filter
      (fun chunk => decide ((chunk.timestamp : Int) > (now : Int) - 30000))).Sublist
        st.bufferedChunks ∧
    (∀ chunk ∈ st.bufferedChunks, (chunk.timestamp : Int) > (now : Int) - 30000 →
      chunk ∈ bufferAfterPurge st now data) ∧
    (∀ chunk ∈ bufferAfterPurge st now data,
      ¬ (chunk.timestamp : Int) ≤ (now : Int) - 30000) := by
  refine ⟨handle_payload_unexpected st now data hjson hp, bufferAfterPurge_eq st now data,
    List.filter_sublist _, ?_, ?_⟩
  · intro chunk hmem hfresh
    rw [bufferAfterPurge_eq]
    exact List.mem_append_left _ (List.mem_filter.2 ⟨hmem, by simpa using hfresh⟩)
  · intro chunk hmem
    rw [bufferAfterPurge_eq] at hmem
    rcases List.mem_append.1 hmem with h | h
    · have := (List.mem_filter.1 h).2
      simp only [decide_eq_true_eq] at this
      omega
    · rw [List.mem_singleton.1 h]
      show ¬ ((now : Nat) : Int) ≤ (now : Int) - 30000
      omega

theorem buffer_retention_witness :
    bufferAfterPurge
      ⟨[], none, [⟨⟨[1], none⟩, 1000, none⟩, ⟨⟨[2], none⟩, 20000, none⟩], []⟩ 31000
      ⟨[3], none⟩ =
        [⟨⟨[2], none⟩, 20000, none⟩, ⟨⟨[3], none⟩, 31000, none⟩] :=
  (buffer_retention
    ⟨[], none, [⟨⟨[1], none⟩, 1000, none⟩, ⟨⟨[2], none⟩, 20000, none⟩], []⟩ 31000
    ⟨[3], none⟩ rfl rfl).2.1.trans (by rfl)

theorem finalizeFile_files (st : Reassembler) (fileId : JSString) (info : FileInfo)
    (hfile : JSMap.get st.incomingFiles fileId = some info) :
    (finalizeFile st fileId).incomingFiles =
      JSMap.set st.incomingFiles fileId { info with complete := true } ∧
    (finalizeFile st fileId).bufferedChunks = st.bufferedChunks ∧
    (finalizeFile st fileId).pendingChunkMetadata = st.pendingChunkMetadata := by
  simp only [finalizeFile, hfile]
  cases collectChunks info.chunks 0 info.totalChunks <;> exact ⟨rfl, rfl, rfl⟩

/-- A chunk that arrives for a known file is stored under the index of its
descriptor and counted. -/
theorem storeChunk_stores (st : Reassembler) (metadata : ChunkMetadata) (data : Binary)
    (info : FileInfo) (hfile : JSMap.get st.incomingFiles metadata.fileId = some info) :
    (∃ info', JSMap.get (storeChunk st metadata data).incomingFiles metadata.fileId =
        some info' ∧
      JSMap.get info'.chunks metadata.index = some data.bytes ∧
      info'.receivedChunks = info.receivedChunks + 1) ∧
    (storeChunk st metadata data).bufferedChunks = st.bufferedChunks ∧
    (storeChunk st metadata data).pendingChunkMetadata = st.pendingChunkMetadata := by
  simp only [storeChunk, hfile]
  split
  · simp only [finalizeFile, JSMap.get_set_same]
    split <;> exact ⟨⟨_, JSMap.get_set_same _ _ _, JSMap.get_set_same _ _ _, rfl⟩, rfl, rfl⟩
  · exact ⟨⟨_, JSMap.get_set_same _ _ _, JSMap.get_set_same _ _ _, rfl⟩, rfl, rfl⟩

/-- C23 (counterexample): the only chunk of the file `a.json` is the text `{"a":1}`,
which parses as a JSON object without a `type`. When it arrives while the
descriptor of chunk 0 is expected, it is not stored under that descriptor and
not buffered: the entry of the file keeps no chunk, the descriptor stays
expected, and the parsed object is handed to `onSignalingMessage`. -/
theorem json_payload_not_stored :
    (receive Reassembler.empty
      (allAt 0 ([Frame.message (.fileMetadata (metadataOf jsonFile)),
        Frame.message (.fileChunk (descriptorOf jsonFile 1 0))].map
          (deliver noWire jsonDecoder)))).pendingChunkMetadata.map (fun m => m.index) =
      some 0 ∧
    (receive Reassembler.empty
      (allAt 0 ([Frame.message (.fileMetadata (metadataOf jsonFile)),
        Frame.message (.fileChunk (descriptorOf jsonFile 1 0)),
        Frame.payload jsonFile.bytes].map
          (deliver noWire jsonDecoder)))).incomingFiles.map
      (fun p => (p.2.receivedChunks, p.2.chunks)) = [(0, [])] ∧
    (receive Reassembler.empty
      (allAt 0 ([Frame.message (.fileMetadata (metadataOf jsonFile)),
        Frame.message (.fileChunk (descriptorOf jsonFile 1 0)),
        Frame.payload jsonFile.bytes].map
          (deliver noWire jsonDecoder)))).bufferedChunks.length = 0 ∧
    (receive Reassembler.empty
      (allAt 0 ([Frame.message (.fileMetadata (metadataOf jsonFile)),
        Frame.message (.fileChunk (descriptorOf jsonFile 1 0)),
        Frame.payload jsonFile.bytes].map
          (deliver noWire jsonDecoder)))).pendingChunkMetadata.map (fun m => m.index) =
      some 0 ∧
    (receive Reassembler.empty
      (allAt 0 ([Frame.message (.fileMetadata (metadataOf jsonFile)),
        Frame.message (.fileChunk (descriptorOf jsonFile 1 0)),
        Frame.payload jsonFile.bytes].map
          (deliver noWire jsonDecoder)))).calls =
      [.fileReceptionStart (utf16 "file-3"),
        .signalingMessage (objLit [("a", .num (.finite 1))])] := by
  refine ⟨by rfl, by rfl, by rfl, by rfl, by rfl⟩

/-- C23 (amended): `handleIncomingData` takes a binary frame for a structured
record exactly when its text starts with `{` and parses as JSON. Such a frame goes
to `processJsonMessage`, whatever its `type`; when the type is none of
`file-metadata`, `file-chunk` and `transfer-complete` the record is handed to
`onSignalingMessage`, and it is neither stored under the expected descriptor nor
buffered. A binary frame that does not parse so is a payload: with a descriptor
expected it is processed under that descriptor (for a known file it is stored
under the index of the descriptor and counted) and the descriptor is no longer
expected; with none expected it is pushed into the buffer. -/
theorem frame_classification (st : Reassembler) (now : Nat) (data : Binary) :
    (∀ m, data.json = some m → handleIncomingData st now (.binary data) = handleJson st now m) ∧
    (∀ v, data.json = some (.other v) →
      handleIncomingData st now (.binary data) =
        { st with calls := st.calls ++ [.signalingMessage v] }) ∧
    (∀ p, data.json = none → st.pendingChunkMetadata = some p →
      handleIncomingData st now (.binary data) =
        { processChunk st now p data with pendingChunkMetadata := none }) ∧
    (∀ p info, data.json = none → st.pendingChunkMetadata = some p →
      JSMap.get st.incomingFiles p.fileId = some info →
      (∃ info', JSMap.get (handleIncomingData st now (.binary data)).incomingFiles p.fileId =
          some info' ∧
        JSMap.get info'.chunks p.index = some data.bytes ∧
        info'.receivedChunks = info.receivedChunks + 1) ∧
      (handleIncomingData st now (.binary data)).bufferedChunks = st.bufferedChunks ∧
      (handleIncomingData st now (.binary data)).pendingChunkMetadata = none) ∧
    (data.json = none → st.pendingChunkMetadata = none →
      handleIncomingData st now (.binary data) =
        afterPurge { st with bufferedChunks := bufferAfterPurge st now data } now ∧
      bufferAfterPurge st now data =
        st.bufferedChunks.filter
            (fun chunk => decide ((chunk.timestamp : Int) > (now : Int) - 30000)) ++
          [{ data := data, timestamp := now, metadata := none }]) := by
  refine ⟨?_, ?_, ?_, ?_, ?_⟩
  · intro m hm
    simp only [handleIncomingData, hm]
  · intro v hv
    simp only [handleIncomingData, hv, handleJson, processJsonMessage]
  · intro p hjson hp
    simp only [handleIncomingData, hjson, hp]
  · intro p info hjson hp hfile
    have hknown : (JSMap.get st.incomingFiles p.fileId).isNone = false := by
      rw [hfile]
      rfl
    obtain ⟨h1, h2, _⟩ := storeChunk_stores st p data info hfile
    simp only [handleIncomingData, hjson, hp, processChunk, hknown, Bool.false_eq_true,
      if_false]
    exact ⟨h1, h2, trivial⟩
  · intro hjson hp
    exact ⟨handle_payload_unexpected st now data hjson hp, bufferAfterPurge_eq st now data⟩

theorem frame_classification_witness :
    handleIncomingData
        ⟨[(jsonFile.uniqueId, initialInfo jsonFile 0)], some (descriptorOf jsonFile 1 0), [],
          []⟩ 7
        (.binary ⟨jsonFile.bytes, some (.other (objLit [("a", .num (.finite 1))]))⟩) =
      ⟨[(jsonFile.uniqueId, initialInfo jsonFile 0)], some (descriptorOf jsonFile 1 0), [],
        [.signalingMessage (objLit [("a", .num (.finite 1))])]⟩ :=
  (frame_classification
    ⟨[(jsonFile.uniqueId, initialInfo jsonFile 0)], some (descriptorOf jsonFile 1 0), [], []⟩ 7
    ⟨jsonFile.bytes, some (.other (objLit [("a", .num (.finite 1))]))⟩).2.1 _ rfl

/-! ## Completion is reported at the last chunk and again at transfer-complete -/

theorem inOrderItems_succ : ∀ (count first : Nat),
    inOrderItems first (count + 1) =
      inOrderItems first count ++ [.descriptor (first + count), .payload (first + count)]
  | 0, first => by simp [inOrderItems]
  | count + 1, first => by
    have ih := inOrderItems_succ count (first + 1)
    rw [inOrderItems, ih]
    simp only [inOrderItems, List.cons_append]
    rw [show first + 1 + count = first + (count + 1) by omega]

/-- A timed order whose items are the emission order of `m + 1` chunks ends with
the descriptor and the payload of chunk `m`. -/
theorem inOrder_timed_last (m : Nat) (order : List (Nat × Item))
    (h : order.map Prod.snd = inOrderItems 0 (m + 1)) :
    ∃ (t t' : Nat) (o₁ : List (Nat × Item)),
      order = o₁ ++ [(t, .descriptor m), (t', .payload m)] ∧
      o₁.map Prod.snd = inOrderItems 0 m := by
  rw [inOrderItems_succ, Nat.zero_add] at h
  obtain ⟨o₁, last, hsplit, ho₁, hlast⟩ := List.map_eq_append_iff.1 h
  match last, hlast with
  | [(t, a), (t', b)], hlast =>
    simp only [List.map_cons, List.map_nil, List.cons.injEq, and_true] at hlast
    obtain ⟨rfl, rfl⟩ := hlast
    exact ⟨t, t', o₁, hsplit, ho₁⟩

/-- A descriptor that arrives while the buffer is empty only takes the slot. -/
theorem handle_descriptor_waits (st : Reassembler) (now : Nat) (w : List Nat)
    (d : ChunkMetadata) (hbuf : st.bufferedChunks = []) :
    handleIncomingData st now (.binary { bytes := w, json := some (.fileChunk d) }) =
      { st with pendingChunkMetadata := some d } := by
  simp [handleIncomingData, handleJson, processJsonMessage, findMatchingChunkInBuffer, hbuf]

/-- C27: when the frames of a file of `n ≥ 1` chunks (no payload reading as a JSON
record) arrive in the emission order, from the empty state: up to the descriptor
of the last chunk no completion is reported; the payload of the last chunk makes
`receivedChunks` equal to the `total` of its descriptor and `processChunk` calls
`finalizeFile`, which adds the file to the received history and calls
`onFileComplete` with the bytes of the file, before `transfer-complete` has
arrived; the `transfer-complete` frame calls `finalizeFile` again, which adds a
second history entry and calls `onFileComplete` a second time with the same
bytes. -/
theorem completion_reported_twice (wire : Message → List Nat)
    (decodeJson : List Nat → Option Message) (file : File)
    (hn : 1 ≤ ceilDiv file.size CONFIG.CHUNK_SIZE)
    (hjson : ∀ k, k < ceilDiv file.size CONFIG.CHUNK_SIZE →
      decodeJson (chunkOf file.bytes k) = none)
    (arr : List (Nat × Incoming))
    (harr : arr.map Prod.snd =
      (framesOf file (ceilDiv file.size CONFIG.CHUNK_SIZE)
        (inOrderItems 0 (ceilDiv file.size CONFIG.CHUNK_SIZE))).map (deliver wire decodeJson)) :
    (receive Reassembler.empty (arr.take (2 * ceilDiv file.size CONFIG.CHUNK_SIZE))).calls =
      [.fileReceptionStart file.uniqueId] ∧
    (receive Reassembler.empty
        (arr.take (2 * ceilDiv file.size CONFIG.CHUNK_SIZE))).pendingChunkMetadata =
      some (descriptorOf file (ceilDiv file.size CONFIG.CHUNK_SIZE)
        (ceilDiv file.size CONFIG.CHUNK_SIZE - 1)) ∧
    (∃ info, JSMap.get (receive Reassembler.empty
        (arr.take (2 * ceilDiv file.size CONFIG.CHUNK_SIZE + 1))).incomingFiles file.uniqueId =
          some info ∧
      info.receivedChunks = ceilDiv file.size CONFIG.CHUNK_SIZE) ∧
    (receive Reassembler.empty
        (arr.take (2 * ceilDiv file.size CONFIG.CHUNK_SIZE + 1))).calls =
      [.fileReceptionStart file.uniqueId,
        .historyReceived file.name file.size file.type
          { bytes := file.bytes,
            type := if file.type.isEmpty then utf16 "application/octet-stream" else file.type },
        .fileComplete file.uniqueId
          { bytes := file.bytes,
            type := if file.type.isEmpty then utf16 "application/octet-stream" else file.type }] ∧
    (receive Reassembler.empty arr).calls =
      [.fileReceptionStart file.uniqueId,
        .historyReceived file.name file.size file.type
          { bytes := file.bytes,
            type := if file.type.isEmpty then utf16 "application/octet-stream" else file.type },
        .fileComplete file.uniqueId
          { bytes := file.bytes,
            type := if file.type.isEmpty then utf16 "application/octet-stream" else file.type },
        .historyReceived file.name file.size file.type
          { bytes := file.bytes,
            type := if file.type.isEmpty then utf16 "application/octet-stream" else file.type },
        .fileComplete file.uniqueId
          { bytes := file.bytes,
            type := if file.type.isEmpty then utf16 "application/octet-stream" else file.type }] := by
  obtain ⟨t0, t1, order, horder, rfl, -⟩ := split_arrivals wire decodeJson file _ _ arr harr
  obtain ⟨m, hm⟩ : ∃ m, ceilDiv file.size CONFIG.CHUNK_SIZE = m + 1 := ⟨_, (Nat.sub_add_cancel hn).symm⟩
  have horder' : order.map Prod.snd = inOrderItems 0 (m + 1) := by rw [horder, hm]
  obtain ⟨t, t', o₁, rfl, ho₁⟩ := inOrder_timed_last m order horder'
  have hlen₁ : o₁.length = 2 * m := by
    rw [← List.length_map o₁ Prod.snd, ho₁, length_inOrderItems]
  have hmn : m < ceilDiv file.size CONFIG.CHUNK_SIZE := by omega
  -- the states along the way
  obtain ⟨hmid0, hp0⟩ := receive_metadata wire decodeJson file t0 hn
  obtain ⟨s₁, hmid1, hp1, hlen1, hlt1⟩ := receive_inOrder wire decodeJson file
    (ceilDiv file.size CONFIG.CHUNK_SIZE) (initialInfo file t0)
    [.fileReceptionStart file.uniqueId] rfl hjson m 0 o₁ [] _ ho₁ hmid0 hp0
    (fun i hi => absurd hi (List.not_mem_nil i)) (by omega)
  have hlen1' : s₁.length = m := by simpa using hlen1
  have hks : m ∉ s₁ := by
    intro hmem
    have := hlt1 m hmem
    omega
  have hwait := handle_descriptor_waits
    (receive (handleIncomingData Reassembler.empty t0
      (deliver wire decodeJson (.message (.fileMetadata (metadataOf file)))))
      (arrivals wire decodeJson file (ceilDiv file.size CONFIG.CHUNK_SIZE) o₁)) t
    (wire (.fileChunk (descriptorOf file (ceilDiv file.size CONFIG.CHUNK_SIZE) m)))
    (⟨file.uniqueId, m, ceilDiv file.size CONFIG.CHUNK_SIZE,
      (chunkOf file.bytes m).length⟩ : ChunkMetadata) hmid1.buffer
  obtain ⟨hmid2, hp2⟩ := handle_descriptor_then_payload hmid1 rfl m t t'
    (wire (.fileChunk (descriptorOf file (ceilDiv file.size CONFIG.CHUNK_SIZE) m))) rfl hks hmn
  have hlen2 : (m :: s₁).length = ceilDiv file.size CONFIG.CHUNK_SIZE := by
    simp only [List.length_cons, hlen1']
    omega
  obtain ⟨hcalls, -, -⟩ := receive_last wire decodeJson file t0 t1 (m :: s₁) [] _ hmid2 hlen2
  obtain ⟨info2, hinfo2, -⟩ := hmid2.lookup
  obtain ⟨chunks2, hfiles2, -⟩ := hmid2.files
  have hcalls1 := hmid1.calls
  have hcalls2 := hmid2.calls
  have hbytes : ((List.range (ceilDiv file.size CONFIG.CHUNK_SIZE)).map
      (chunkOf file.bytes)).flatten = file.bytes := chunks_make_file file.bytes
  rw [if_neg (by omega)] at hcalls1
  rw [if_pos hlen2, hbytes] at hcalls2
  -- the arrivals
  have hshape : (t0, deliver wire decodeJson (.message (.fileMetadata (metadataOf file)))) ::
        arrivals wire decodeJson file (ceilDiv file.size CONFIG.CHUNK_SIZE)
          (o₁ ++ [(t, .descriptor m), (t', .payload m)]) ++
        [(t1, deliver wire decodeJson (.message (.transferComplete (completeOf file))))] =
      ((t0, deliver wire decodeJson (.message (.fileMetadata (metadataOf file)))) ::
        arrivals wire decodeJson file (ceilDiv file.size CONFIG.CHUNK_SIZE) o₁) ++
      ((t, Incoming.binary
          { bytes := wire (.fileChunk
              (descriptorOf file (ceilDiv file.size CONFIG.CHUNK_SIZE) m)),
            json := some (.fileChunk (⟨file.uniqueId, m, ceilDiv file.size CONFIG.CHUNK_SIZE,
              (chunkOf file.bytes m).length⟩ : ChunkMetadata)) }) ::
        (t', Incoming.binary { bytes := chunkOf file.bytes m, json := none }) ::
        [(t1, deliver wire decodeJson (.message (.transferComplete (completeOf file))))]) := by
    simp [arrivals, deliver, itemFrame, descriptorOf, hjson m hmn]
  have hL : ((t0, deliver wire decodeJson (.message (.fileMetadata (metadataOf file)))) ::
      arrivals wire decodeJson file (ceilDiv file.size CONFIG.CHUNK_SIZE) o₁).length =
      2 * m + 1 := by
    simp [length_arrivals, hlen₁]
  rw [hshape]
  obtain ⟨-, hE2, hE3⟩ := take_around _
    [(t1, deliver wire decodeJson (.message (.transferComplete (completeOf file))))]
    (t, Incoming.binary
      { bytes := wire (.fileChunk (descriptorOf file (ceilDiv file.size CONFIG.CHUNK_SIZE) m)),
        json := some (.fileChunk (⟨file.uniqueId, m, ceilDiv file.size CONFIG.CHUNK_SIZE,
          (chunkOf file.bytes m).length⟩ : ChunkMetadata)) })
    (t', Incoming.binary { bytes := chunkOf file.bytes m, json := none })
    (2 * m + 1) (2 * ceilDiv file.size CONFIG.CHUNK_SIZE)
    (2 * ceilDiv file.size CONFIG.CHUNK_SIZE + 1) hL (by omega) (by omega)
  rw [hE2, hE3]
  simp only [receive_append, receive_cons]
  simp only [receive, List.foldl_nil]
  simp only [receive] at hmid1 hmid2 hcalls hcalls1 hcalls2 hinfo2 hfiles2 hwait
  refine ⟨?_, ?_, ⟨info2, hinfo2, ?_⟩, ?_, ?_⟩
  · rw [hwait]
    simpa using hcalls1
  · rw [hwait, show ceilDiv file.size CONFIG.CHUNK_SIZE - 1 = m by omega]
    rfl
  · rw [hfiles2] at hinfo2
    simp only [JSMap.get, if_true, Option.some.injEq] at hinfo2
    rw [← hinfo2]
    exact hlen2
  · rw [hcalls2]
    simp [completionCalls, initialInfo]
  · rw [hcalls]
    simp [completionCalls, initialInfo]

theorem completion_reported_twice_witness :
    1 ≤ ceilDiv twoChunkFile.size CONFIG.CHUNK_SIZE ∧
    (receive Reassembler.empty
      ((allAt 0 ((framesOf twoChunkFile (ceilDiv twoChunkFile.size CONFIG.CHUNK_SIZE)
        (inOrderItems 0 (ceilDiv twoChunkFile.size CONFIG.CHUNK_SIZE))).map
          (deliver noWire noJson))).take
        (2 * ceilDiv twoChunkFile.size CONFIG.CHUNK_SIZE))).calls =
      [.fileReceptionStart twoChunkFile.uniqueId] :=
  ⟨by rw [twoChunkFile_chunks]; decide,
    (completion_reported_twice noWire noJson twoChunkFile
      (by rw [twoChunkFile_chunks]; decide) (fun _ _ => rfl)
      (allAt 0 ((framesOf twoChunkFile (ceilDiv twoChunkFile.size CONFIG.CHUNK_SIZE)
        (inOrderItems 0 (ceilDiv twoChunkFile.size CONFIG.CHUNK_SIZE))).map
          (deliver noWire noJson)))
      (map_snd_allAt 0 _)).1⟩

/-! ## Two files with one id -/

theorem generateFileId_of_name_hash (f g : File) (hsize : f.size = g.size)
    (hmod : f.lastModified = g.lastModified)
    (hname : f.name.foldl hashStep 0 = g.name.foldl hashStep 0) :
    Utils.generateFileId f = Utils.generateFileId g := by
  simp only [Utils.generateFileId, idString, List.foldl_append, hsize, hmod, hname]

theorem hash_Aa_BB : (utf16 "Aa").foldl hashStep 0 = (utf16 "BB").foldl hashStep 0 := by
  decide

/-- The entry of `Aa` after its only chunk, and the entry after the
`file-metadata` frame of `BB` arrives under the same id. -/
theorem same_id_replaces (fid : JSString) :
    (receive Reassembler.empty
      (allAt 0 ([Frame.message (.fileMetadata (metadataOf { fileAa with uniqueId := fid })),
        Frame.message (.fileChunk (descriptorOf { fileAa with uniqueId := fid } 1 0)),
        Frame.payload fileAa.bytes].map (deliver noWire noJson)))).incomingFiles.map
      (fun p => (p.1, p.2.name, p.2.receivedChunks, p.2.chunks, p.2.complete)) =
        [(fid, utf16 "Aa", 1, [(0, [1, 2, 3])], true)] ∧
    (receive Reassembler.empty
      (allAt 0 ([Frame.message (.fileMetadata (metadataOf { fileAa with uniqueId := fid })),
        Frame.message (.fileChunk (descriptorOf { fileAa with uniqueId := fid } 1 0)),
        Frame.payload fileAa.bytes,
        Frame.message (.fileMetadata (metadataOf { fileBB with uniqueId := fid }))].map
          (deliver noWire noJson)))).incomingFiles.map
      (fun p => (p.1, p.2.name, p.2.receivedChunks, p.2.chunks, p.2.complete)) =
        [(fid, utf16 "BB", 0, [], false)] := by
  have hc : ceilDiv 3 CONFIG.CHUNK_SIZE = 1 := by decide
  have hlen : (chunkOf [1, 2, 3] 0).length = 3 := by decide
  have h1 : handleIncomingData Reassembler.empty 0
      (.binary ⟨[], some (.fileMetadata (metadataOf { fileAa with uniqueId := fid }))⟩) =
      ⟨[(fid, initialInfo { fileAa with uniqueId := fid } 0)], none, [],
        [.fileReceptionStart fid]⟩ := by
    simp [handleIncomingData, handleJson, processJsonMessage, processFileMetadata,
      processBufferedChunks, initFileReception, Reassembler.empty, JSMap.set, metadataOf,
      initialInfo]
  have h2 : handleIncomingData
      ⟨[(fid, initialInfo { fileAa with uniqueId := fid } 0)], none, [],
        [.fileReceptionStart fid]⟩ 0
      (.binary ⟨[], some (.fileChunk (descriptorOf { fileAa with uniqueId := fid } 1 0))⟩) =
      ⟨[(fid, initialInfo { fileAa with uniqueId := fid } 0)],
        some (descriptorOf { fileAa with uniqueId := fid } 1 0), [],
        [.fileReceptionStart fid]⟩ := by
    simp [handleIncomingData, handleJson, processJsonMessage, findMatchingChunkInBuffer]
  have h3 : handleIncomingData
      ⟨[(fid, initialInfo { fileAa with uniqueId := fid } 0)],
        some (descriptorOf { fileAa with uniqueId := fid } 1 0), [],
        [.fileReceptionStart fid]⟩ 0 (.binary ⟨[1, 2, 3], none⟩) =
      ⟨[(fid, { initialInfo { fileAa with uniqueId := fid } 0 with
          chunks := [(0, [1, 2, 3])], receivedChunks := 1, complete := true })], none, [],
        [.fileReceptionStart fid] ++
          completionCalls fid (initialInfo { fileAa with uniqueId := fid } 0) [1, 2, 3]⟩ := by
    simp [handleIncomingData, processChunk, storeChunk, finalizeFile, collectChunks,
      descriptorOf, initialInfo, completionCalls, fileAa, File.size, JSMap.get, JSMap.set, hc]
  have h4 : handleIncomingData
      ⟨[(fid, { initialInfo { fileAa with uniqueId := fid } 0 with
          chunks := [(0, [1, 2, 3])], receivedChunks := 1, complete := true })], none, [],
        [.fileReceptionStart fid] ++
          completionCalls fid (initialInfo { fileAa with uniqueId := fid } 0) [1, 2, 3]⟩ 0
      (.binary ⟨[], some (.fileMetadata (metadataOf { fileBB with uniqueId := fid }))⟩) =
      ⟨[(fid, initialInfo { fileBB with uniqueId := fid } 0)], none, [],
        [.fileReceptionStart fid] ++
          completionCalls fid (initialInfo { fileAa with uniqueId := fid } 0) [1, 2, 3] ++
          [.fileReceptionStart fid]⟩ := by
    simp [handleIncomingData, handleJson, processJsonMessage, processFileMetadata,
      processBufferedChunks, initFileReception, JSMap.set, metadataOf, initialInfo]
  constructor
  · simp only [receive, allAt, deliver, noWire, noJson, List.map_cons, List.map_nil,
      List.foldl_cons, List.foldl_nil]
    rw [h1, h2]
    erw [h3]
    rfl
  · simp only [receive, allAt, deliver, noWire, noJson, List.map_cons, List.map_nil,
      List.foldl_cons, List.foldl_nil]
    rw [h1, h2]
    erw [h3, h4]
    rfl

/-- C30: `Utils.generateFileId` is not injective. The files `Aa` and `BB`, of the
same size and modification time, differ in their names and get the same id. The
reception entries are keyed by that id: after the `file-metadata` frame, the
descriptor and the payload of the only chunk of `Aa` there is one entry, of name
`Aa` with its chunk; the `file-metadata` frame of `BB` then replaces it by a
fresh entry of name `BB` with no chunk, and there is still one entry. -/
theorem fileId_collision :
    fileAa.name ≠ fileBB.name ∧ fileAa.size = fileBB.size ∧
    fileAa.lastModified = fileBB.lastModified ∧
    Utils.generateFileId fileAa = Utils.generateFileId fileBB ∧
    (withUniqueId fileAa).uniqueId = (withUniqueId fileBB).uniqueId ∧
    (receive Reassembler.empty
      (allAt 0 ([Frame.message (.fileMetadata (metadataOf (withUniqueId fileAa))),
        Frame.message (.fileChunk (descriptorOf (withUniqueId fileAa) 1 0)),
        Frame.payload fileAa.bytes].map (deliver noWire noJson)))).incomingFiles.map
      (fun p => (p.1, p.2.name, p.2.receivedChunks, p.2.chunks, p.2.complete)) =
        [(Utils.generateFileId fileAa, utf16 "Aa", 1, [(0, [1, 2, 3])], true)] ∧
    (receive Reassembler.empty
      (allAt 0 ([Frame.message (.fileMetadata (metadataOf (withUniqueId fileAa))),
        Frame.message (.fileChunk (descriptorOf (withUniqueId fileAa) 1 0)),
        Frame.payload fileAa.bytes,
        Frame.message (.fileMetadata (metadataOf (withUniqueId fileBB)))].map
          (deliver noWire noJson)))).incomingFiles.map
      (fun p => (p.1, p.2.name, p.2.receivedChunks, p.2.chunks, p.2.complete)) =
        [(Utils.generateFileId fileAa, utf16 "BB", 0, [], false)] := by
  have hid : Utils.generateFileId fileAa = Utils.generateFileId fileBB :=
    generateFileId_of_name_hash fileAa fileBB rfl rfl hash_Aa_BB
  have hA : withUniqueId fileAa = { fileAa with uniqueId := Utils.generateFileId fileAa } := rfl
  have hB : withUniqueId fileBB = { fileBB with uniqueId := Utils.generateFileId fileAa } := by
    rw [hid]
    rfl
  refine ⟨by decide, rfl, rfl, hid, ?_, ?_, ?_⟩
  · rw [hA, hB]
  · rw [hA]
    exact (same_id_replaces _).1
  · rw [hA, hB]
    exact (same_id_replaces _).2

/-! ## Forwarding and the room of the sender -/

theorem flatMap_single_if {α β : Type} (l : List α) (p : α → Bool) (f : α → β) :
    (l.flatMap fun m => if p m = true then [f m] else []) = (l.filter p).map f := by
  induction l with
  | nil => rfl
  | cons a l ih =>
    rw [List.flatMap_cons, ih]
    by_cases h : p a = true
    · simp [h]
    · simp [h]

/-- The sends of `forwardMessageToRoom`: one to each member of the room the
envelope names that is not the sender and is open, in the order of the member set. -/
theorem forwardMessageToRoom_filter (st : Relay) (s : UserId) (data : JSVal) :
    forwardMessageToRoom st s data =
      ((membersOf st (data.getProp (utf16 "room")).toKey).filter
        fun m => decide (m ≠ s) && isOpen st m).map
        fun m => { dest := m, message := data } := by
  rw [forwardMessageToRoom_eq]
  exact flatMap_single_if _ _ _

/-- C28: forwarding does not look at the room of the sender. For all registries,
every connection `s` and every envelope from `s` that is not a join, can be
logged and names a room `r`: the sends are exactly one to each member of `r` that
is open and is not `s`, in the order of the member set, each with the stamped
envelope; when `s` is not a member of `r` (it joined another room, or none) these
are all the open members of `r`; and in any other registries in which `r` has the
same members and the same connections other than `s` are open, whatever room is
recorded for `s` there, the sends are the same. -/
theorem forward_ignores_membership (st : Relay) (s : UserId) (data : JSVal)
    (hjoin : (data.getProp (utf16 "type")).isLit "join" = false)
    (htype : (data.getProp (utf16 "type")).toStringThrows = false)
    (hroom : (data.getProp (utf16 "room")).truthy = true)
    (hlog : (data.getProp (utf16 "room")).toStringThrows = false) :
    (onMessage st s (some data)).sends =
      ((membersOf st (data.getProp (utf16 "room")).toKey).filter
        fun m => decide (m ≠ s) && isOpen st m).map
        (fun m => { dest := m, message := stamp data s }) ∧
    (s ∉ membersOf st (data.getProp (utf16 "room")).toKey →
      (onMessage st s (some data)).sends =
        ((membersOf st (data.getProp (utf16 "room")).toKey).filter fun m => isOpen st m).map
          (fun m => { dest := m, message := stamp data s })) ∧
    (∀ st' : Relay,
      membersOf st' (data.getProp (utf16 "room")).toKey =
        membersOf st (data.getProp (utf16 "room")).toKey →
      (∀ m, m ≠ s → isOpen st' m = isOpen st m) →
      (onMessage st' s (some data)).sends = (onMessage st s (some data)).sends) := by
  have hsends : ∀ st0 : Relay, (onMessage st0 s (some data)).sends =
      ((membersOf st0 (data.getProp (utf16 "room")).toKey).filter
        fun m => decide (m ≠ s) && isOpen st0 m).map
        (fun m => { dest := m, message := stamp data s }) := by
    intro st0
    simp only [onMessage, messageBody_forward st0 s _ hjoin htype hroom hlog]
    rw [forwardMessageToRoom_filter, getProp_room_stamp]
  refine ⟨hsends st, ?_, ?_⟩
  · intro hs
    rw [hsends st]
    congr 1
    apply List.filter_congr
    intro m hm
    have hne : m ≠ s := fun h => hs (h ▸ hm)
    simp [hne]
  · intro st' hmem hopen
    rw [hsends st', hsends st, hmem]
    congr 1
    apply List.filter_congr
    intro m _
    by_cases hne : m = s
    · simp [hne]
    · simp [hne, hopen m hne]

theorem forward_ignores_membership_witness :
    roomOf lobbyWithGuest carol = some .null ∧
    carol ∉ membersOf lobbyWithGuest roomCode.toKey ∧
    (onMessage lobbyWithGuest carol (some offerEnvelope)).sends.map Send.dest = [alice, bob] :=
  ⟨by rfl, by decide,
    (congrArg (List.map Send.dest)
      ((forward_ignores_membership lobbyWithGuest carol offerEnvelope (by decide) (by decide)
        (by decide) (by decide)).2.1 (by decide))).trans (by rfl)⟩

/-! ## The liveness sweep -/

theorem after_terminated (ws : Socket) (h : ws.terminated = true) (beats : List Beat) :
    ws.after beats = ws := by
  induction beats with
  | nil => rfl
  | cons b beats ih =>
    have hb : beat ws b = ws := by cases b <;> simp [beat, h]
    simp only [Socket.after, List.foldl_cons, hb]
    exact ih

theorem after_append (ws : Socket) (a b : List Beat) :
    ws.after (a ++ b) = (ws.after a).after b := by
  simp [Socket.after, List.foldl_append]

/-- A socket whose flag is set is terminated by the second of the sweeps that
follow with no `pong` between them, and not before. -/
theorem after_sweeps (ws : Socket) (halive : ws.isAlive = true) (hterm : ws.terminated = false)
    (k : Nat) : (ws.after (List.replicate k .sweep)).terminated = decide (2 ≤ k) := by
  match k with
  | 0 => simpa [Socket.after] using hterm
  | 1 => simp [Socket.after, beat, sweepSocket, halive, hterm]
  | k + 2 =>
    have h2 : (ws.after [.sweep, .sweep]).terminated = true := by
      simp [Socket.after, beat, sweepSocket, halive, hterm]
    have hsplit : List.replicate (k + 2) Beat.sweep = [.sweep, .sweep] ++ List.replicate k .sweep := by
      rw [show k + 2 = 2 + k by omega, List.replicate_add]
      rfl
    rw [hsplit, after_append, after_terminated _ h2, h2]
    simp

/-- While every sweep is followed by a `pong` before the next sweep, the socket
is not terminated. -/
theorem after_answered : ∀ (beats : List Beat) (ws : Socket), ws.terminated = false →
    beats.Chain' (fun a b => a = Beat.sweep → b = Beat.pong) →
    (ws.isAlive = false → beats.head? ≠ some Beat.sweep) →
    (ws.after beats).terminated = false
  | [], ws, hterm, _, _ => hterm
  | .pong :: beats, ws, hterm, hchain, _ => by
    have hstep : beat ws .pong = heartbeat ws := by simp [beat, hterm]
    simp only [Socket.after, List.foldl_cons, hstep]
    exact after_answered beats (heartbeat ws) hterm (List.Chain'.tail hchain)
      (fun h => absurd h (by simp [heartbeat]))
  | .sweep :: beats, ws, hterm, hchain, hhead => by
    have halive : ws.isAlive = true := by
      cases h : ws.isAlive with
      | true => rfl
      | false => exact absurd rfl (hhead h)
    have hstep : beat ws .sweep = { ws with isAlive := false, pings := ws.pings + 1 } := by
      simp [beat, sweepSocket, hterm, halive]
    simp only [Socket.after, List.foldl_cons, hstep]
    refine after_answered beats _ hterm (List.Chain'.tail hchain) ?_
    intro _
    cases beats with
    | nil => simp
    | cons b rest =>
      have hb : b = Beat.pong := (List.chain'_cons.1 hchain).1 rfl
      simp [hb]

/-- C26: the liveness sweep as a state machine over the flag `isAlive` of a
socket. The flag is true after the connection and after every `pong`. A sweep
terminates a socket whose flag is false and sends it no ping; a sweep sets the
flag of a socket whose flag is true to false, sends it one ping and does not
terminate it; the interval does so for every socket of `wss.clients`. Hence a
socket that gets no `pong` after connecting, or after a `pong`, is terminated by
the second sweep that follows and not by the first; and a socket for which every
sweep is followed by a `pong` before the next sweep is never terminated. -/
theorem liveness_sweep :
    Socket.connected.isAlive = true ∧ Socket.connected.terminated = false ∧
    (∀ ws : Socket, (heartbeat ws).isAlive = true ∧
      (heartbeat ws).terminated = ws.terminated ∧ (heartbeat ws).pings = ws.pings) ∧
    (∀ ws : Socket, ws.isAlive = false →
      (sweepSocket ws).terminated = true ∧ (sweepSocket ws).pings = ws.pings) ∧
    (∀ ws : Socket, ws.isAlive = true →
      sweepSocket ws = { ws with isAlive := false, pings := ws.pings + 1 }) ∧
    (∀ (clients : List Socket) (i : Nat), (sweepClients clients).get? i =
      (clients.get? i).map sweepSocket) ∧
    (∀ k : Nat,
      (Socket.connected.after (List.replicate k .sweep)).terminated = decide (2 ≤ k)) ∧
    (∀ (beats : List Beat) (k : Nat), (Socket.connected.after beats).terminated = false →
      (Socket.connected.after (beats ++ .pong :: List.replicate k .sweep)).terminated =
        decide (2 ≤ k)) ∧
    (∀ beats : List Beat, beats.Chain' (fun a b => a = Beat.sweep → b = Beat.pong) →
      (Socket.connected.after beats).terminated = false) := by
  refine ⟨rfl, rfl, fun ws => ⟨rfl, rfl, rfl⟩, ?_, ?_, ?_, ?_, ?_, ?_⟩
  · intro ws h
    simp [sweepSocket, h]
  · intro ws h
    simp [sweepSocket, h]
  · intro clients i
    simp [sweepClients]
  · intro k
    exact after_sweeps Socket.connected rfl rfl k
  · intro beats k hterm
    have hstep : beat (Socket.connected.after beats) .pong =
        heartbeat (Socket.connected.after beats) := by simp [beat, hterm]
    have hsplit : beats ++ Beat.pong :: List.replicate k Beat.sweep =
        beats ++ ([Beat.pong] ++ List.replicate k Beat.sweep) := rfl
    rw [hsplit, after_append, after_append]
    have hone : (Socket.connected.after beats).after [Beat.pong] =
        heartbeat (Socket.connected.after beats) := by
      simp only [Socket.after, List.foldl_cons, List.foldl_nil]
      exact hstep
    rw [hone]
    exact after_sweeps (heartbeat (Socket.connected.after beats)) rfl hterm k
  · intro beats hchain
    exact after_answered beats Socket.connected rfl hchain (fun h => absurd h (by decide))

theorem liveness_sweep_witness :
    (Socket.connected.after [.sweep, .pong, .sweep]).terminated = false ∧
    (Socket.connected.after [.sweep, .pong, .sweep, .sweep]).terminated = true ∧
    (Socket.connected.after [.sweep, .pong, .sweep, .pong, .pong, .sweep]).terminated = false :=
  ⟨by decide,
    (liveness_sweep.2.2.2.2.2.2.2.1 [.sweep] 2 (by decide)).trans (by decide),
    liveness_sweep.2.2.2.2.2.2.2.2 [.sweep, .pong, .sweep, .pong, .pong, .sweep] (by simp)⟩

/-! ## Sends on a channel that is not ready -/

/-- A file of at most one chunk: `sendFileChunks` tests the channel once, in
`onload`; when that test passes the promise resolves whatever becomes of the
three sends that follow. -/
theorem sendFileChunks_one (ready : Nat → Bool) (t : Nat) (file : File)
    (hn : ceilDiv file.size CONFIG.CHUNK_SIZE ≤ 1) (hready : ready t = true) :
    sendFileChunks ready t file =
      { frames :=
          connectionSend ready (t + 1) (.message (.fileChunk
            (descriptorOf file (ceilDiv file.size CONFIG.CHUNK_SIZE) 0))) ++
          connectionSend ready (t + 2) (.payload (chunkOf file.bytes 0)) ++
          connectionSend ready (t + 3) (.message (.transferComplete (completeOf file))),
        accesses := t + 4, resolved := true, addedToHistory := true } := by
  have hlast : ¬ 0 + 1 < ceilDiv file.size CONFIG.CHUNK_SIZE := by omega
  have hslice := slice_eq_chunkOf file 0
  simp only [Nat.zero_mul, Nat.zero_add] at hslice
  simp only [sendFileChunks]
  rw [sendChunkLoop]
  simp only [hready, hlast, Nat.zero_mul, Nat.zero_add, hslice]
  simp [descriptorOf, completeOf]

/-- When the test of the channel in `onload` fails the promise is rejected. -/
theorem sendFileChunks_rejected (ready : Nat → Bool) (t : Nat) (file : File)
    (hready : ready t = false) :
    sendFileChunks ready t file =
      { frames := [], accesses := t + 1, resolved := false, addedToHistory := false } := by
  simp only [sendFileChunks]
  rw [sendChunkLoop]
  simp [hready]

/-- The promise of `sendFileChunks` resolves exactly when the channel is ready at
each test made in `onload`, one per chunk; the accesses of the sends between the
tests play no part. -/
theorem sendChunkLoop_resolved (ready : Nat → Bool) (file : File) (total : Nat) :
    ∀ (d sent t : Nat), sent + d + 1 = max total (sent + 1) →
      ((sendChunkLoop ready file total sent t).resolved = true ↔
        ∀ j, j ≤ d → ready (t + 3 * j) = true) := by
  intro d
  induction d with
  | zero =>
    intro sent t h
    have hlast : ¬ sent + 1 < total := by omega
    rw [sendChunkLoop]
    cases hr : ready t with
    | false =>
      simp only [Bool.not_false, if_true, eq_self_iff_true]
      constructor
      · intro hf
        exact absurd hf (by simp)
      · intro hall
        have := hall 0 (Nat.le_refl 0)
        simp only [Nat.mul_zero, Nat.add_zero, hr] at this
        exact absurd this (by simp)
    | true =>
      simp only [Bool.not_true, Bool.false_eq_true, hlast, if_false]
      constructor
      · intro _ j hj
        obtain rfl : j = 0 := by omega
        simpa using hr
      · intro _
        trivial
  | succ d ih =>
    intro sent t h
    have hmore : sent + 1 < total := by omega
    have hrec := ih (sent + 1) (t + 3) (by omega)
    rw [sendChunkLoop]
    cases hr : ready t with
    | false =>
      simp only [Bool.not_false, if_true, eq_self_iff_true]
      constructor
      · intro hf
        exact absurd hf (by simp)
      · intro hall
        have := hall 0 (Nat.zero_le _)
        simp only [Nat.mul_zero, Nat.add_zero, hr] at this
        exact absurd this (by simp)
    | true =>
      simp only [Bool.not_true, Bool.false_eq_true, hmore, if_false, if_true, hrec]
      constructor
      · intro hall j hj
        cases j with
        | zero => simpa using hr
        | succ j =>
          have := hall j (by omega)
          rw [show t + 3 * (j + 1) = t + 3 + 3 * j by omega]
          exact this
      · intro hall j hj
        have := hall (j + 1) (by omega)
        rw [show t + 3 * (j + 1) = t + 3 + 3 * j by omega] at this
        exact this

/-- C24 (what the code does): `sendFileChunks` tests the channel only in `onload`,
once per chunk; `connection.send` returns `false` on a channel that is not
connected and no caller reads the result. Two files of one chunk are selected.
When the channel goes down after the descriptor of the first file (ready at the
accesses 0 to 3 only), the payload and the `transfer-complete` frame of the first
file are dropped, yet the first file is reported as sent and only the second is
reported as failed. When the channel is not ready at the send of the payload of
the first file only (access 4), that file is reported as sent without its
payload, no error is reported, and every frame of the second file goes out. -/
theorem dropped_send_reported_sent :
    sendFiles (fun t => decide (t < 4)) [sentFile, jsonFile] =
      { frames := [.message (.fileMetadata (metadataOf sentFile)),
          .message (.fileChunk (descriptorOf sentFile 1 0))],
        sent := [utf16 "a.bin"], errors := [utf16 "Error sending file a.json"],
        accesses := 8 } ∧
    sendFiles (fun t => decide (t ≠ 4)) [sentFile, jsonFile] =
      { frames := [.message (.fileMetadata (metadataOf sentFile)),
          .message (.fileChunk (descriptorOf sentFile 1 0)),
          .message (.transferComplete (completeOf sentFile)),
          .message (.fileMetadata (metadataOf jsonFile)),
          .message (.fileChunk (descriptorOf jsonFile 1 0)),
          .payload [123, 34, 97, 34, 58, 49, 125],
          .message (.transferComplete (completeOf jsonFile))],
        sent := [utf16 "a.bin", utf16 "a.json"], errors := [], accesses := 11 } := by
  have hs : ceilDiv sentFile.size CONFIG.CHUNK_SIZE = 1 := by decide
  have hj : ceilDiv jsonFile.size CONFIG.CHUNK_SIZE = 1 := by decide
  have hws : withUniqueId sentFile = sentFile := by rfl
  have hwj : withUniqueId jsonFile = jsonFile := by rfl
  have hcj : chunkOf jsonFile.bytes 0 = [123, 34, 97, 34, 58, 49, 125] := by decide
  constructor
  · have h1 := sendFileChunks_one (fun t => decide (t < 4)) 2 sentFile (by rw [hs]) (by decide)
    have h2 := sendFileChunks_rejected (fun t => decide (t < 4)) 7 jsonFile (by decide)
    simp only [sendFiles, sendNextFile, sendOneFile, hws, hwj, h1, h2, hs]
    simp [connectionSend, metadataOf, sentFile, jsonFile, smallFile]
    decide
  · have h1 := sendFileChunks_one (fun t => decide (t ≠ 4)) 2 sentFile (by rw [hs]) (by decide)
    have h2 := sendFileChunks_one (fun t => decide (t ≠ 4)) 7 jsonFile (by rw [hj]) (by decide)
    simp only [sendFiles, sendNextFile, sendOneFile, hws, hwj, h1, h2, hs, hj, hcj]
    simp [connectionSend, metadataOf, sentFile, jsonFile, smallFile]

/-! ## The count of received chunks -/

theorem counted_set {files : List (JSString × FileInfo)} (h : Counted files) (k : JSString)
    (v : FileInfo) (hv : (JSMap.keys v.chunks).length ≤ v.receivedChunks) :
    Counted (JSMap.set files k v) := by
  intro p hp
  rcases JSMap.mem_set hp with rfl | hmem
  · exact hv
  · exact h p hmem

theorem length_keys_set_le (m : List (Nat × List Nat)) (k : Nat) (v : List Nat) :
    (JSMap.keys (JSMap.set m k v)).length ≤ (JSMap.keys m).length + 1 := by
  rw [JSMap.keys_set]
  split
  · omega
  · simp

theorem finalizeFile_counted (st : Reassembler) (fileId : JSString)
    (h : Counted st.incomingFiles) : Counted (finalizeFile st fileId).incomingFiles := by
  unfold finalizeFile
  split
  · exact h
  · rename_i file hg
    have hfile : (JSMap.keys file.chunks).length ≤ file.receivedChunks :=
      h _ (JSMap.mem_of_get hg)
    dsimp only
    split <;> exact counted_set h fileId _ hfile

theorem storeChunk_counted (st : Reassembler) (metadata : ChunkMetadata) (data : Binary)
    (h : Counted st.incomingFiles) : Counted (storeChunk st metadata data).incomingFiles := by
  unfold storeChunk
  split
  · exact h
  · rename_i fileInfo hg
    have hfile : (JSMap.keys fileInfo.chunks).length ≤ fileInfo.receivedChunks :=
      h _ (JSMap.mem_of_get hg)
    have hnew : Counted (JSMap.set st.incomingFiles metadata.fileId
        { fileInfo with
          chunks := JSMap.set fileInfo.chunks metadata.index data.bytes,
          receivedChunks := fileInfo.receivedChunks + 1 }) := by
      apply counted_set h
      have := length_keys_set_le fileInfo.chunks metadata.index data.bytes
      show (JSMap.keys (JSMap.set fileInfo.chunks metadata.index data.bytes)).length ≤
        fileInfo.receivedChunks + 1
      omega
    dsimp only
    split
    · exact finalizeFile_counted _ _ hnew
    · exact hnew

theorem scanBuffered_counted (fileId : JSString) :
    ∀ (buffer : List BufferedChunk) (i : Nat) (st : Reassembler) (processed : List Nat)
      (entries : List (Nat × ChunkMetadata)), Counted st.incomingFiles →
      Counted (scanBuffered fileId buffer i st processed entries).1.incomingFiles
  | [], _, _, _, _, h => h
  | chunk :: rest, i, st, processed, entries, h => by
    unfold scanBuffered
    split
    · split
      · exact scanBuffered_counted fileId rest _ _ _ _ (storeChunk_counted _ _ _ h)
      · split
        · split
          · exact scanBuffered_counted fileId rest _ _ _ _ h
          · exact scanBuffered_counted fileId rest _ _ _ _ h
        · exact scanBuffered_counted fileId rest _ _ _ _ h
    · split
      · split
        · exact scanBuffered_counted fileId rest _ _ _ _ h
        · exact scanBuffered_counted fileId rest _ _ _ _ h
      · exact scanBuffered_counted fileId rest _ _ _ _ h

theorem matchEntries_counted (buffer : List BufferedChunk) :
    ∀ (entries : List (Nat × ChunkMetadata)) (st : Reassembler) (processed : List Nat),
      Counted st.incomingFiles →
      Counted (matchEntries buffer entries st processed).1.incomingFiles
  | [], _, _, h => h
  | entry :: entries, st, processed, h => by
    unfold matchEntries
    split
    · split
      · exact matchEntries_counted buffer entries _ _ (storeChunk_counted _ _ _ h)
      · exact matchEntries_counted buffer entries _ _ h
    · exact matchEntries_counted buffer entries _ _ h

theorem processBufferedChunks_counted (st : Reassembler) (fileId : JSString)
    (h : Counted st.incomingFiles) :
    Counted (processBufferedChunks st fileId).incomingFiles := by
  unfold processBufferedChunks
  split
  · exact h
  · split
    · exact h
    · exact matchEntries_counted _ _ _ _ (scanBuffered_counted _ _ _ _ _ _ h)

theorem processFileMetadata_counted (st : Reassembler) (now : Nat) (metadata : FileMetadata)
    (h : Counted st.incomingFiles) :
    Counted (processFileMetadata st now metadata).incomingFiles := by
  unfold processFileMetadata
  apply processBufferedChunks_counted
  exact counted_set h _ _ (Nat.le_refl 0)

theorem checkBufferForMetadata_counted (st : Reassembler) (now : Nat)
    (h : Counted st.incomingFiles) :
    Counted (checkBufferForMetadata st now).1.incomingFiles := by
  unfold checkBufferForMetadata
  split
  · exact h
  · split
    · apply processBufferedChunks_counted
      exact processFileMetadata_counted _ _ _ h
    · exact h

theorem processChunk_counted (st : Reassembler) (now : Nat) (metadata : ChunkMetadata)
    (data : Binary) (h : Counted st.incomingFiles) :
    Counted (processChunk st now metadata data).incomingFiles := by
  unfold processChunk
  split
  · have hcheck := checkBufferForMetadata_counted
      { st with bufferedChunks := st.bufferedChunks ++
        [{ data := data, timestamp := now, metadata := some metadata }] } now h
    simp only []
    split
    · split
      · exact storeChunk_counted _ _ _ hcheck
      · exact hcheck
    · exact hcheck
  · exact storeChunk_counted _ _ _ h

theorem processJsonMessage_counted (st : Reassembler) (now : Nat) (message : Message)
    (h : Counted st.incomingFiles) :
    Counted (processJsonMessage st now message).incomingFiles := by
  cases message with
  | fileMetadata metadata => exact processFileMetadata_counted _ _ _ h
  | fileChunk metadata =>
    simp only [processJsonMessage]
    split
    · split
      · exact processChunk_counted _ _ _ _ h
      · exact h
    · exact h
  | transferComplete m => exact finalizeFile_counted _ _ h
  | other v => exact h

theorem handleJson_counted (st : Reassembler) (now : Nat) (message : Message)
    (h : Counted st.incomingFiles) : Counted (handleJson st now message).incomingFiles := by
  have h1 := processJsonMessage_counted st now message h
  cases message with
  | fileMetadata metadata => exact processBufferedChunks_counted _ _ h1
  | fileChunk metadata => exact h1
  | transferComplete m => exact h1
  | other v => exact h1

theorem foldl_counted (f : Reassembler → JSString → Reassembler)
    (hf : ∀ st k, Counted st.incomingFiles → Counted (f st k).incomingFiles) :
    ∀ (ks : List JSString) (st : Reassembler), Counted st.incomingFiles →
      Counted (ks.foldl f st).incomingFiles
  | [], _, h => h
  | k :: ks, st, h => foldl_counted f hf ks (f st k) (hf st k h)

theorem handleIncomingData_counted (st : Reassembler) (now : Nat) (data : Incoming)
    (h : Counted st.incomingFiles) :
    Counted (handleIncomingData st now data).incomingFiles := by
  cases data with
  | binary data =>
    simp only [handleIncomingData]
    split
    · exact handleJson_counted _ _ _ h
    · split
      · exact processChunk_counted _ _ _ _ h
      · have hcheck := checkBufferForMetadata_counted
          { st with bufferedChunks := bufferAfterPurge st now data } now h
        unfold bufferAfterPurge at hcheck
        split
        · exact foldl_counted _ (fun s k hs => processBufferedChunks_counted s k hs) _ _ hcheck
        · refine foldl_counted _ (fun s k hs => ?_) _ _ hcheck
          split
          · split
            · exact processBufferedChunks_counted s k hs
            · exact hs
          · exact hs
  | text json =>
    cases json with
    | some message => exact handleJson_counted _ _ _ h
    | none => exact h
  | unknown => exact h

theorem receive_counted : ∀ (arrivals : List (Nat × Incoming)) (st : Reassembler),
    Counted st.incomingFiles → Counted (receive st arrivals).incomingFiles
  | [], _, h => h
  | a :: arrivals, st, h =>
    receive_counted arrivals (handleIncomingData st a.1 a.2) (handleIncomingData_counted _ _ _ h)

/-- The entry of a file of one chunk after its chunk arrived twice. -/
theorem duplicate_chunk_state :
    (receive Reassembler.empty
      (allAt 0 ([Frame.message (.fileMetadata (metadataOf sentFile)),
        Frame.message (.fileChunk (descriptorOf sentFile 1 0)),
        Frame.payload sentFile.bytes,
        Frame.message (.fileChunk (descriptorOf sentFile 1 0)),
        Frame.payload sentFile.bytes].map (deliver noWire noJson)))).incomingFiles =
      [(utf16 "file-2",
        { initialInfo sentFile 0 with
          chunks := [(0, [1, 2, 3])], receivedChunks := 2, complete := true })] := by
  rfl

/-- C29 (counterexample): the descriptor and the payload of the only chunk of a
file arrive twice after its `file-metadata` frame. The `chunks` object of the
entry holds one index, 0, and `receivedChunks` is 2: the index delivered twice
is counted twice. -/
theorem duplicate_chunk_counted_twice :
    (receive Reassembler.empty
      (allAt 0 ([Frame.message (.fileMetadata (metadataOf sentFile)),
        Frame.message (.fileChunk (descriptorOf sentFile 1 0)),
        Frame.payload sentFile.bytes,
        Frame.message (.fileChunk (descriptorOf sentFile 1 0)),
        Frame.payload sentFile.bytes].map (deliver noWire noJson)))).incomingFiles.map
      (fun p => (p.1, p.2.chunks, p.2.storedIndices, p.2.receivedChunks)) =
        [(utf16 "file-2", [(0, [1, 2, 3])], 1, 2)] := by
  rw [duplicate_chunk_state]
  rfl

/-- C29 (amended): in every state of the reassembler reached from the empty state
by any sequence of arrivals, the `receivedChunks` of each reception entry is at
least the number of distinct chunk indices stored in its `chunks` object. The
count is of the chunks stored, not of the indices: storing a chunk for a known
file adds one to `receivedChunks` whether or not its index was stored before. -/
theorem received_count_bounds (arrivals : List (Nat × Incoming)) :
    (∀ p ∈ (receive Reassembler.empty arrivals).incomingFiles,
      p.2.storedIndices ≤ p.2.receivedChunks) ∧
    (∀ (st : Reassembler) (metadata : ChunkMetadata) (data : Binary) (info : FileInfo),
      JSMap.get st.incomingFiles metadata.fileId = some info →
      ∃ info', JSMap.get (storeChunk st metadata data).incomingFiles metadata.fileId =
          some info' ∧
        JSMap.get info'.chunks metadata.index = some data.bytes ∧
        info'.receivedChunks = info.receivedChunks + 1) := by
  constructor
  · intro p hp
    have hcount : Counted (receive Reassembler.empty arrivals).incomingFiles :=
      receive_counted arrivals Reassembler.empty (fun q hq => absurd hq (List.not_mem_nil q))
    exact Nat.le_trans (List.dedup_sublist _).length_le (hcount p hp)
  · intro st metadata data info hfile
    exact (storeChunk_stores st metadata data info hfile).1

theorem received_count_bounds_witness :
    FileInfo.storedIndices
        { initialInfo sentFile 0 with
          chunks := [(0, [1, 2, 3])], receivedChunks := 2, complete := true } ≤ 2 :=
  (received_count_bounds
    (allAt 0 ([Frame.message (.fileMetadata (metadataOf sentFile)),
      Frame.message (.fileChunk (descriptorOf sentFile 1 0)),
      Frame.payload sentFile.bytes,
      Frame.message (.fileChunk (descriptorOf sentFile 1 0)),
      Frame.payload sentFile.bytes].map (deliver noWire noJson)))).1
    (utf16 "file-2",
      { initialInfo sentFile 0 with
        chunks := [(0, [1, 2, 3])], receivedChunks := 2, complete := true })
    (by rw [duplicate_chunk_state]; exact List.mem_singleton_self _)

end P2P
